import Mathlib

/-!
Verification of the time-series Bucket Catalog (bucket_catalog.cpp) against its
natural-language specification.  The C++ source is shallowly embedded: BSON
documents become an inductive value type, the catalog becomes an explicit state
record, and each public operation becomes a state-passing function translated
from the source.  Machine integers (uint32/uint64) are modelled as Nat; every
subtraction performed by the code is shown (under the stated invariants) not to
underflow, so truncated Nat subtraction agrees with the machine arithmetic.
-/

namespace BucketCatalog

/-! ## BSON value model

A BSON element value is either a scalar (carrying its BSONType code `bt`, an
ordering payload `v` standing for the value bytes as compared by `woCompare`,
and its serialized value size `sz` in bytes), an object (ordered field list) or
an array.  Objects and arrays are the only structural types; scalar leaves are
abstract, which is all the catalog code inspects of them. -/

inductive BVal where
  | prim (bt : Nat) (v : Int) (sz : Nat)
  | obj (fields : List (String × BVal))
  | arr (elems : List BVal)
  deriving Repr

mutual

/-- Boolean structural equality on modelled BSON values. -/
def beqVal : BVal → BVal → Bool
  | .prim b1 v1 s1, .prim b2 v2 s2 => b1 == b2 && v1 == v2 && s1 == s2
  | .obj f1, .obj f2 => beqFields f1 f2
  | .arr e1, .arr e2 => beqElems e1 e2
  | _, _ => false

/-- Boolean equality on field lists. -/
def beqFields : List (String × BVal) → List (String × BVal) → Bool
  | [], [] => true
  | (n1, v1) :: r1, (n2, v2) :: r2 => n1 == n2 && beqVal v1 v2 && beqFields r1 r2
  | _, _ => false

/-- Boolean equality on element lists. -/
def beqElems : List BVal → List BVal → Bool
  | [], [] => true
  | v1 :: r1, v2 :: r2 => beqVal v1 v2 && beqElems r1 r2
  | _, _ => false

end

mutual

theorem beqVal_iff : ∀ (a b : BVal), beqVal a b = true ↔ a = b
  | .prim _ _ _, .prim _ _ _ => by simp [beqVal, and_assoc]
  | .prim _ _ _, .obj _ => by simp [beqVal]
  | .prim _ _ _, .arr _ => by simp [beqVal]
  | .obj _, .prim _ _ _ => by simp [beqVal]
  | .obj f1, .obj f2 => by simp [beqVal, beqFields_iff f1 f2]
  | .obj _, .arr _ => by simp [beqVal]
  | .arr _, .prim _ _ _ => by simp [beqVal]
  | .arr _, .obj _ => by simp [beqVal]
  | .arr e1, .arr e2 => by simp [beqVal, beqElems_iff e1 e2]

theorem beqFields_iff : ∀ (l1 l2 : List (String × BVal)), beqFields l1 l2 = true ↔ l1 = l2
  | [], [] => by simp [beqFields]
  | [], _ :: _ => by simp [beqFields]
  | _ :: _, [] => by simp [beqFields]
  | (n1, v1) :: r1, (n2, v2) :: r2 => by
      simp [beqFields, beqVal_iff v1 v2, beqFields_iff r1 r2, and_assoc]

theorem beqElems_iff : ∀ (l1 l2 : List BVal), beqElems l1 l2 = true ↔ l1 = l2
  | [], [] => by simp [beqElems]
  | [], _ :: _ => by simp [beqElems]
  | _ :: _, [] => by simp [beqElems]
  | v1 :: r1, v2 :: r2 => by simp [beqElems, beqVal_iff v1 v2, beqElems_iff r1 r2]

end

instance : DecidableEq BVal := fun a b => decidable_of_iff _ (beqVal_iff a b)

/-- BSONType code of Object. -/
def btObject : Nat := 3
/-- BSONType code of Array. -/
def btArray : Nat := 4
/-- BSONType code of Date. -/
def btDate : Nat := 9
/-- BSONType code of jstNULL. -/
def btNull : Nat := 10

/-- Modelled from the spec: `canonicalizeBSONType` lives outside the provided
source files.  It maps a BSONType code to its canonical ordering value; the
table below is the documented BSON canonical ordering (numbers 10, strings 15,
objects 20, arrays 25, ...). -/
def canonicalizeBSONType (bt : Nat) : Int :=
  if bt = 0 then 0            -- EOO
  else if bt = 6 then 1       -- Undefined
  else if bt = 10 then 5      -- jstNULL
  else if bt = 1 ∨ bt = 16 ∨ bt = 18 ∨ bt = 19 then 10   -- numbers
  else if bt = 2 ∨ bt = 14 then 15                       -- String, Symbol
  else if bt = 3 then 20      -- Object
  else if bt = 4 then 25      -- Array
  else if bt = 5 then 30      -- BinData
  else if bt = 7 then 35      -- jstOID
  else if bt = 8 then 40      -- Bool
  else if bt = 9 then 45      -- Date
  else if bt = 17 then 47     -- bsonTimestamp
  else if bt = 11 then 50     -- RegEx
  else 127

/-- Canonical type of a modelled value (`BSONElement::canonicalType`). -/
def BVal.canonicalType : BVal → Int
  | .prim bt _ _ => canonicalizeBSONType bt
  | .obj _ => 20
  | .arr _ => 25

/-! ## Serialized sizes (BSON wire format)

A document is `int32 length ++ elements ++ 0x00`, hence 5 overhead bytes; an
element is `type byte ++ cstring field name ++ value`.  Array elements carry
their decimal index as field name. -/

/-- Size in bytes of a field name as counted by `BSONElement::fieldNameSize`
(includes the trailing NUL). -/
def fieldNameSize (s : String) : Nat := s.length + 1

mutual

/-- Serialized size of a value (`objsize` for objects/arrays). -/
def valueSize : BVal → Nat
  | .prim _ _ sz => sz
  | .obj fs => 5 + fieldsSize fs
  | .arr es => 5 + arrElemsSize 0 es

/-- Total serialized size of a document's element list. -/
def fieldsSize : List (String × BVal) → Nat
  | [] => 0
  | (n, v) :: rest => 1 + fieldNameSize n + valueSize v + fieldsSize rest

/-- Total serialized size of an array's element list starting at index `i`. -/
def arrElemsSize : Nat → List BVal → Nat
  | _, [] => 0
  | i, v :: rest => 1 + fieldNameSize (toString i) + valueSize v + arrElemsSize (i + 1) rest

end

/-- Serialized size of one element (`BSONElement::size`). -/
def elementSize (n : String) (v : BVal) : Nat := 1 + fieldNameSize n + valueSize v

/-- Serialized size of a whole document (`BSONObj::objsize`). -/
def objsize (doc : List (String × BVal)) : Nat := 5 + fieldsSize doc

/-- First element with the given field name (`BSONObj::operator[]`). -/
def lookupField (doc : List (String × BVal)) (name : String) : Option BVal :=
  match doc with
  | [] => none
  | (n, v) :: rest => if n = name then some v else lookupField rest name

/-! ## numDigits (bucket_catalog.cpp, anonymous namespace) -/

/-- Count of decimal digits produced by the source's `numDigits` loop
(`while (num) (num /= 10; ++numDigits)`); in particular `numDigits 0 = 0`. -/
def numDigits (num : Nat) : Nat :=
  if num = 0 then 0 else numDigits (num / 10) + 1
decreasing_by exact Nat.div_lt_self (Nat.pos_of_ne_zero (by assumption)) (by omega)

theorem numDigits_eq_digits_len (n : Nat) : numDigits n = (Nat.digits 10 n).length := by
  induction n using Nat.strong_induction_on with
  | _ n ih =>
    rw [numDigits]
    by_cases h : n = 0
    · simp [h]
    · rw [ih (n / 10) (Nat.div_lt_self (Nat.pos_of_ne_zero h) (by omega)),
        Nat.digits_def' (by omega : 1 < 10) (Nat.pos_of_ne_zero h)]
      simp [h]

/-! ## Bucket::_calculateBucketFieldsAndSizeChange -/

/-- Result triple written through the three out-parameters of
`_calculateBucketFieldsAndSizeChange`. -/
structure CalcResult where
  newFieldNamesToBeInserted : List String
  newFieldNamesSize : Nat
  sizeToBeAdded : Nat
  deriving Repr, DecidableEq

/-- Set-style insert used to model `StringSet::insert` (no-op on repeats). -/
def setInsert (l : List String) (x : String) : List String :=
  if x ∈ l then l else l ++ [x]

/-- One loop iteration of `_calculateBucketFieldsAndSizeChange`, translated
from the source: the metadata field is skipped; a field name absent from the
bucket's `_fieldNames` set is inserted into the result set and charged both its
field-name size and the size of an empty object bearing that name; every
element is charged its size with the field name replaced by the positional
decimal number. -/
def calcStep (fieldNames : List String) (metaField : Option String)
    (numMeasurementsFieldLength : Nat) (acc : CalcResult) (elem : String × BVal) :
    CalcResult :=
  if some elem.1 = metaField then acc
  else
    let acc1 :=
      if elem.1 ∈ fieldNames then acc
      else
        { acc with
          newFieldNamesToBeInserted := setInsert acc.newFieldNamesToBeInserted elem.1,
          newFieldNamesSize := acc.newFieldNamesSize + fieldNameSize elem.1,
          sizeToBeAdded := acc.sizeToBeAdded + objsize [(elem.1, .obj [])] }
    { acc1 with
      sizeToBeAdded := acc1.sizeToBeAdded + (elementSize elem.1 elem.2 - fieldNameSize elem.1)
        + numMeasurementsFieldLength + 1 }

/-- Translation of `Bucket::_calculateBucketFieldsAndSizeChange`: fold of
`calcStep` over the document's elements, starting from the cleared
out-parameters. -/
def calculateBucketFieldsAndSizeChange (fieldNames : List String)
    (numMeasurements : Nat) (metaField : Option String)
    (doc : List (String × BVal)) : CalcResult :=
  doc.foldl (calcStep fieldNames metaField (numDigits numMeasurements))
    ⟨[], 0, 0⟩

/-! ### C4: the spec's closed-form description of the calculation -/

/-- Specification-side description: the top-level field names of the document
that are not the metadata field and not already in the bucket's field-name
set, in document order. -/
def specNewFieldNames (fieldNames : List String) (metaField : Option String)
    (doc : List (String × BVal)) : List String :=
  (doc.filter (fun e => ¬ some e.1 = metaField ∧ e.1 ∉ fieldNames)).map (·.1)

/-- Specification-side size formula:
`Σ (elem.size − fieldNameSize + digits(numMeasurements) + 1)` over non-metadata
elements, plus the serialized size of an empty object bearing each new field
name. -/
def specSizeToBeAdded (fieldNames : List String) (numMeasurements : Nat)
    (metaField : Option String) (doc : List (String × BVal)) : Nat :=
  ((doc.filter (fun e => ¬ some e.1 = metaField)).map
      (fun e => elementSize e.1 e.2 - fieldNameSize e.1 + numDigits numMeasurements + 1)).sum
  + ((specNewFieldNames fieldNames metaField doc).map (fun n => objsize [(n, .obj [])])).sum

theorem calc_fold_general (fieldNames : List String) (metaField : Option String) (k : Nat) :
    ∀ (doc : List (String × BVal)) (acc : CalcResult),
    (∀ e ∈ doc, e.1 ∉ acc.newFieldNamesToBeInserted) →
    (doc.map Prod.fst).Nodup →
    doc.foldl (calcStep fieldNames metaField k) acc =
      { newFieldNamesToBeInserted :=
          acc.newFieldNamesToBeInserted ++ specNewFieldNames fieldNames metaField doc,
        newFieldNamesSize := acc.newFieldNamesSize +
          ((specNewFieldNames fieldNames metaField doc).map fieldNameSize).sum,
        sizeToBeAdded := acc.sizeToBeAdded +
          ((doc.filter (fun e => ¬ some e.1 = metaField)).map
            (fun e => elementSize e.1 e.2 - fieldNameSize e.1 + k + 1)).sum +
          ((specNewFieldNames fieldNames metaField doc).map
            (fun n => objsize [(n, .obj [])])).sum } := by
  intro doc
  induction doc with
  | nil => intro acc _ _; simp [specNewFieldNames]
  | cons e rest ih =>
    intro acc hd hnd
    rw [List.foldl_cons]
    by_cases hm : some e.1 = metaField
    · rw [show calcStep fieldNames metaField k acc e = acc by simp [calcStep, hm]]
      rw [ih acc (fun x hx => hd x (List.mem_cons_of_mem _ hx))
        (by simpa using hnd.of_cons)]
      simp [specNewFieldNames, hm]
    · by_cases hf : e.1 ∈ fieldNames
      · rw [show calcStep fieldNames metaField k acc e =
          { acc with sizeToBeAdded := acc.sizeToBeAdded +
              (elementSize e.1 e.2 - fieldNameSize e.1) + k + 1 } by simp [calcStep, hm, hf]]
        rw [ih ⟨acc.newFieldNamesToBeInserted, acc.newFieldNamesSize,
            acc.sizeToBeAdded + (elementSize e.1 e.2 - fieldNameSize e.1) + k + 1⟩
          (by intro x hx; exact hd x (List.mem_cons_of_mem _ hx))
          (by simpa using hnd.of_cons)]
        simp only [specNewFieldNames, List.filter_cons,
          show (decide (¬some e.1 = metaField ∧ e.1 ∉ fieldNames)) = false by simp [hf],
          show (decide (¬some e.1 = metaField)) = true by simp [hm]]
        simp only [Bool.false_eq_true, ite_false, ite_true, List.map_cons, List.sum_cons,
          CalcResult.mk.injEq]
        refine ⟨by simp, by simp, by omega⟩
      · have hnotacc : e.1 ∉ acc.newFieldNamesToBeInserted := hd e (List.mem_cons_self e rest)
        rw [show calcStep fieldNames metaField k acc e =
          { newFieldNamesToBeInserted := acc.newFieldNamesToBeInserted ++ [e.1],
            newFieldNamesSize := acc.newFieldNamesSize + fieldNameSize e.1,
            sizeToBeAdded := acc.sizeToBeAdded + objsize [(e.1, .obj [])] +
              (elementSize e.1 e.2 - fieldNameSize e.1) + k + 1 } by
          simp [calcStep, hm, hf, setInsert, hnotacc]]
        have hrest : ∀ x ∈ rest,
            x.1 ∉ acc.newFieldNamesToBeInserted ++ [e.1] := by
          intro x hx
          have h1 : x.1 ∉ acc.newFieldNamesToBeInserted :=
            hd x (List.mem_cons_of_mem _ hx)
          have h2 : x.1 ≠ e.1 := by
            have hh := hnd
            simp only [List.map_cons, List.nodup_cons] at hh
            intro hcontra
            exact hh.1 (hcontra ▸ List.mem_map_of_mem Prod.fst hx)
          simp [h1, h2]
        rw [ih ⟨acc.newFieldNamesToBeInserted ++ [e.1],
            acc.newFieldNamesSize + fieldNameSize e.1,
            acc.sizeToBeAdded + objsize [(e.1, .obj [])] +
              (elementSize e.1 e.2 - fieldNameSize e.1) + k + 1⟩
          (by intro x hx; exact hrest x hx) (by simpa using hnd.of_cons)]
        simp only [specNewFieldNames, List.filter_cons,
          show (decide (¬some e.1 = metaField ∧ e.1 ∉ fieldNames)) = true by simp [hm, hf],
          show (decide (¬some e.1 = metaField)) = true by simp [hm]]
        simp only [ite_true, List.map_cons, List.sum_cons, CalcResult.mk.injEq]
        exact ⟨by simp, by omega, by omega⟩

/-- C4.  `_calculateBucketFieldsAndSizeChange` returns the set of top-level
field names not already in the bucket's field-name set (excluding the metadata
field), the total added field-name bytes, and a size increment equal to
`Σ over non-metadata elements (elem.size − fieldNameSize + digits(numMeasurements) + 1)`
plus, for each new field name, the serialized size of an empty object bearing
that field name.  The document is assumed to have no repeated top-level field
names (well-formed BSON). -/
theorem calculateBucketFieldsAndSizeChange_spec (fieldNames : List String)
    (numMeasurements : Nat) (metaField : Option String)
    (doc : List (String × BVal)) (hnd : (doc.map Prod.fst).Nodup) :
    calculateBucketFieldsAndSizeChange fieldNames numMeasurements metaField doc =
      { newFieldNamesToBeInserted := specNewFieldNames fieldNames metaField doc,
        newFieldNamesSize :=
          ((specNewFieldNames fieldNames metaField doc).map fieldNameSize).sum,
        sizeToBeAdded := specSizeToBeAdded fieldNames numMeasurements metaField doc } := by
  unfold calculateBucketFieldsAndSizeChange specSizeToBeAdded
  rw [calc_fold_general fieldNames metaField (numDigits numMeasurements) doc ⟨[], 0, 0⟩
    (by intro e _ h; simp at h) hnd]
  simp

/-- Witness for C4 at a concrete input: a bucket knowing field "a", one prior
measurement, metadata field "m", and a document with a time-like scalar, the
metadata, a known field and a new field. -/
theorem calculateBucketFieldsAndSizeChange_spec_witness :
    ([("t", BVal.prim 9 0 8), ("m", BVal.prim 2 5 6), ("a", BVal.prim 1 0 8),
       ("b", BVal.obj [])].map Prod.fst).Nodup ∧
    calculateBucketFieldsAndSizeChange ["a"] 1 (some "m")
        [("t", BVal.prim 9 0 8), ("m", BVal.prim 2 5 6), ("a", BVal.prim 1 0 8),
         ("b", BVal.obj [])] =
      { newFieldNamesToBeInserted := specNewFieldNames ["a"] (some "m")
          [("t", BVal.prim 9 0 8), ("m", BVal.prim 2 5 6), ("a", BVal.prim 1 0 8),
           ("b", BVal.obj [])],
        newFieldNamesSize := ((specNewFieldNames ["a"] (some "m")
          [("t", BVal.prim 9 0 8), ("m", BVal.prim 2 5 6), ("a", BVal.prim 1 0 8),
           ("b", BVal.obj [])]).map fieldNameSize).sum,
        sizeToBeAdded := specSizeToBeAdded ["a"] 1 (some "m")
          [("t", BVal.prim 9 0 8), ("m", BVal.prim 2 5 6), ("a", BVal.prim 1 0 8),
           ("b", BVal.obj [])] } :=
  ⟨by decide, calculateBucketFieldsAndSizeChange_spec ["a"] 1 (some "m") _ (by decide)⟩

/-! ## C1: the fullness predicate of `insert` (the `isBucketFull` lambda)

Times are modelled in milliseconds (`Date_t`); the bucket's open time is the
timestamp stored in its OID, which has seconds granularity, so it is kept as a
seconds value (`bucketTimeSec`) and read back as `1000 * bucketTimeSec`
(`OID::asDateT`).  `Seconds(bucketMaxSpanSeconds)` compares as
`1000 * bucketMaxSpanSeconds` milliseconds. -/

/-- Closed-reason counters of `ExecutionStats` touched by the fullness
predicate. -/
structure FullnessStats where
  numBucketsClosedDueToCount : Nat
  numBucketsClosedDueToSize : Nat
  numBucketsClosedDueToTimeForward : Nat
  numBucketsClosedDueToTimeBackward : Nat
  deriving Repr, DecidableEq

/-- View of the bucket fields read by the fullness predicate. -/
structure BucketFullView where
  numMeasurements : Nat
  size : Nat
  bucketTimeSec : Int
  latestTime : Int
  hasBeenCommitted : Bool
  deriving Repr, DecidableEq

/-- Limits relevant to fullness (`gTimeseriesBucketMaxCount`,
`gTimeseriesBucketMaxSize`, `options.getBucketMaxSpanSeconds()`). -/
structure TimeseriesLimits where
  bucketMaxCount : Nat
  bucketMaxSize : Nat
  bucketMaxSpanSeconds : Nat
  deriving Repr, DecidableEq

/-- Bucket open time in milliseconds (`BucketAccess::getTime`, i.e.
`id().asDateT()`). -/
def bucketTimeMs (b : BucketFullView) : Int := 1000 * b.bucketTimeSec

/-- Maximum bucket span in milliseconds. -/
def spanMs (lim : TimeseriesLimits) : Int := 1000 * (lim.bucketMaxSpanSeconds : Int)

/-- Effect of `BucketAccess::setTime` (`_setIdTimestamp`): the OID timestamp is
rewound to `durationCount<Seconds>(time)`. -/
def setTimeView (b : BucketFullView) (time : Int) : BucketFullView :=
  { b with bucketTimeSec := time / 1000 }

/-- Translation of the `isBucketFull` lambda in `BucketCatalog::insert`;
returns the boolean result together with the updated closed-reason counters
and the (possibly rewound) bucket view. -/
def isBucketFull (lim : TimeseriesLimits) (stats : FullnessStats)
    (b : BucketFullView) (time : Int) (sizeToBeAdded : Nat) :
    Bool × FullnessStats × BucketFullView :=
  if b.numMeasurements = lim.bucketMaxCount then
    (true, { stats with numBucketsClosedDueToCount :=
      stats.numBucketsClosedDueToCount + 1 }, b)
  else if b.size + sizeToBeAdded > lim.bucketMaxSize then
    (true, { stats with numBucketsClosedDueToSize :=
      stats.numBucketsClosedDueToSize + 1 }, b)
  else if time - bucketTimeMs b ≥ spanMs lim then
    (true, { stats with numBucketsClosedDueToTimeForward :=
      stats.numBucketsClosedDueToTimeForward + 1 }, b)
  else if time < bucketTimeMs b then
    if ¬b.hasBeenCommitted ∧ b.latestTime - time < spanMs lim then
      (false, stats, setTimeView b time)
    else
      (true, { stats with numBucketsClosedDueToTimeBackward :=
        stats.numBucketsClosedDueToTimeBackward + 1 }, b)
  else
    (false, stats, b)

/-- Outcome classification of the fullness predicate. -/
inductive FullnessOutcome where
  | closedDueToCount
  | closedDueToSize
  | closedDueToTimeForward
  | closedDueToTimeBackward
  | rewind
  | notFull
  deriving Repr, DecidableEq

/-- Specification-side fullness predicate, in the claim's fixed priority
order with first match winning: (1) count, (2) size, (3) time forward,
(4) time backward when committed or the span does not fit, (5) rewind when
uncommitted and the span fits. -/
def fullnessSpec (lim : TimeseriesLimits) (b : BucketFullView)
    (time : Int) (sizeToBeAdded : Nat) : FullnessOutcome :=
  if b.numMeasurements = lim.bucketMaxCount then .closedDueToCount
  else if b.size + sizeToBeAdded > lim.bucketMaxSize then .closedDueToSize
  else if time - bucketTimeMs b ≥ spanMs lim then .closedDueToTimeForward
  else if time < bucketTimeMs b ∧
      (b.hasBeenCommitted ∨ b.latestTime - time ≥ spanMs lim) then .closedDueToTimeBackward
  else if time < bucketTimeMs b ∧ ¬b.hasBeenCommitted ∧
      b.latestTime - time < spanMs lim then .rewind
  else .notFull

/-- Interpretation of an outcome: the boolean fullness answer, exactly one
closed-reason counter incremented for the four closed outcomes, the open time
rewound for `rewind`, and no change otherwise. -/
def applyFullnessOutcome (stats : FullnessStats) (b : BucketFullView)
    (time : Int) : FullnessOutcome → Bool × FullnessStats × BucketFullView
  | .closedDueToCount => (true, { stats with numBucketsClosedDueToCount :=
      stats.numBucketsClosedDueToCount + 1 }, b)
  | .closedDueToSize => (true, { stats with numBucketsClosedDueToSize :=
      stats.numBucketsClosedDueToSize + 1 }, b)
  | .closedDueToTimeForward => (true, { stats with numBucketsClosedDueToTimeForward :=
      stats.numBucketsClosedDueToTimeForward + 1 }, b)
  | .closedDueToTimeBackward => (true, { stats with numBucketsClosedDueToTimeBackward :=
      stats.numBucketsClosedDueToTimeBackward + 1 }, b)
  | .rewind => (false, stats, setTimeView b time)
  | .notFull => (false, stats, b)

/-- C1.  The fullness predicate of `insert` evaluates its conditions in the
claim's fixed priority order with first match winning: the code's
`isBucketFull` equals the specification's ordered five-rule classification,
interpreted with exactly one closed-reason counter incremented per closed
outcome and an open-time rewind (without closing) in the rewind case. -/
theorem isBucketFull_matches_spec (lim : TimeseriesLimits) (stats : FullnessStats)
    (b : BucketFullView) (time : Int) (sizeToBeAdded : Nat) :
    isBucketFull lim stats b time sizeToBeAdded =
      applyFullnessOutcome stats b time (fullnessSpec lim b time sizeToBeAdded) := by
  unfold isBucketFull fullnessSpec applyFullnessOutcome
  split_ifs <;> try rfl
  all_goals exfalso
  all_goals first | omega | tauto | (simp_all; omega) | simp_all

/-! ## Bucket state table (`_bucketStates`, `_setBucketState`, `clear(OID)`)

`invariant(...)` in the source aborts the process; it is modelled as the
`none` case of the returned `Option` (no state survives).  An OID is modelled
as a pair of a unique allocation counter and the embedded timestamp in
seconds. -/

/-- Bucket lifecycle states. -/
inductive BucketState where
  | kNormal
  | kPrepared
  | kCleared
  | kPreparedAndCleared
  deriving Repr, DecidableEq

/-- Model of an OID: unique allocation counter plus embedded seconds
timestamp. -/
abbrev OID := Nat × Int

/-- The `_bucketStates` map. -/
abbrev StateMap := List (OID × BucketState)

/-- Lookup in the state map (`_bucketStates.find`). -/
def lookupState (m : StateMap) (id : OID) : Option BucketState :=
  match m with
  | [] => none
  | (k, s) :: rest => if k = id then some s else lookupState rest id

/-- Pointwise update of the state map entry for `id`. -/
def setStateAt (m : StateMap) (id : OID) (s : BucketState) : StateMap :=
  match m with
  | [] => []
  | (k, s0) :: rest =>
      if k = id then (k, s) :: rest else (k, s0) :: setStateAt rest id s

/-- Erase the entry for `id` (`_bucketStates.erase`). -/
def eraseState (m : StateMap) (id : OID) : StateMap :=
  m.filter (fun e => ¬ e.1 = id)

/-- Translation of `BucketCatalog::_setBucketState`: returns the
`boost::optional<BucketState>` result together with the updated map, or `none`
if one of the source's `invariant`s fires. -/
def setBucketState (m : StateMap) (id : OID) (target : BucketState) :
    Option (Option BucketState × StateMap) :=
  match lookupState m id with
  | none => some (none, m)
  | some state =>
    match target with
    | .kNormal =>
        if state = .kPrepared then
          some (some .kNormal, setStateAt m id .kNormal)
        else if state = .kPreparedAndCleared then
          some (some .kCleared, setStateAt m id .kCleared)
        else if state = .kCleared then none      -- invariant(state != kCleared)
        else some (some state, m)
    | .kPrepared =>
        if state = .kNormal then
          some (some .kPrepared, setStateAt m id .kPrepared)
        else none                                -- invariant(state == kNormal)
    | .kCleared =>
        if state = .kNormal then
          some (some .kCleared, setStateAt m id .kCleared)
        else if state = .kPrepared then
          some (some .kPreparedAndCleared, setStateAt m id .kPreparedAndCleared)
        else some (some state, m)
    | .kPreparedAndCleared => none               -- invariant(target != kPreparedAndCleared)

/-- Translation of `BucketCatalog::clear(const OID&)`: runs
`_setBucketState(oid, kCleared)` and throws `WriteConflictException` (the
returned Bool) when the result is `kPreparedAndCleared`. -/
def clearBucketState (m : StateMap) (id : OID) : Option (StateMap × Bool) :=
  match setBucketState m id .kCleared with
  | none => none
  | some (result, m2) => some (m2, result = some .kPreparedAndCleared)

/-- C5.  The bucket state table admits exactly the specified transitions:
`kPrepared` is entered only from `kNormal` (any other source state trips the
invariant); `clear` moves `kNormal` to `kCleared` and `kPrepared` to
`kPreparedAndCleared`; a `finish`-requested `kNormal` moves `kPrepared` to
`kNormal` and `kPreparedAndCleared` to `kCleared`; `kPreparedAndCleared` is
never a legal direct target; and `clear(bucketId)` on a `kPrepared` bucket
reports the `WriteConflict`-style retryable signal. -/
theorem bucketState_transition_table (m : StateMap) (id : OID) :
    (∀ s, lookupState m id = some s →
      setBucketState m id .kPrepared =
        (if s = .kNormal then some (some .kPrepared, setStateAt m id .kPrepared)
         else none)) ∧
    (lookupState m id = some .kNormal →
      setBucketState m id .kCleared = some (some .kCleared, setStateAt m id .kCleared)) ∧
    (lookupState m id = some .kPrepared →
      setBucketState m id .kCleared =
        some (some .kPreparedAndCleared, setStateAt m id .kPreparedAndCleared)) ∧
    (lookupState m id = some .kPrepared →
      setBucketState m id .kNormal = some (some .kNormal, setStateAt m id .kNormal)) ∧
    (lookupState m id = some .kPreparedAndCleared →
      setBucketState m id .kNormal = some (some .kCleared, setStateAt m id .kCleared)) ∧
    (∀ s, lookupState m id = some s → setBucketState m id .kPreparedAndCleared = none) ∧
    (lookupState m id = some .kPrepared →
      clearBucketState m id = some (setStateAt m id .kPreparedAndCleared, true)) := by
  refine ⟨?_, ?_, ?_, ?_, ?_, ?_, ?_⟩
  · intro s hs; cases s <;> simp [setBucketState, hs]
  · intro hs; simp [setBucketState, hs]
  · intro hs; simp [setBucketState, hs]
  · intro hs; simp [setBucketState, hs]
  · intro hs; simp [setBucketState, hs]
  · intro s hs; cases s <;> simp [setBucketState, hs]
  · intro hs; simp [clearBucketState, setBucketState, hs]

/-- Witness for C5 on a concrete one-entry state map holding `kPrepared`. -/
theorem bucketState_transition_table_witness :
    lookupState [((0, 0), BucketState.kPrepared)] (0, 0) = some BucketState.kPrepared ∧
    setBucketState [((0, 0), BucketState.kPrepared)] (0, 0) BucketState.kPrepared = none ∧
    setBucketState [((0, 0), BucketState.kPrepared)] (0, 0) BucketState.kCleared =
      some (some BucketState.kPreparedAndCleared,
        setStateAt [((0, 0), BucketState.kPrepared)] (0, 0) BucketState.kPreparedAndCleared) ∧
    setBucketState [((0, 0), BucketState.kPrepared)] (0, 0) BucketState.kNormal =
      some (some BucketState.kNormal,
        setStateAt [((0, 0), BucketState.kPrepared)] (0, 0) BucketState.kNormal) ∧
    setBucketState [((0, 0), BucketState.kPrepared)] (0, 0) BucketState.kPreparedAndCleared
      = none ∧
    clearBucketState [((0, 0), BucketState.kPrepared)] (0, 0) =
      some (setStateAt [((0, 0), BucketState.kPrepared)] (0, 0)
        BucketState.kPreparedAndCleared, true) := by
  have h := bucketState_transition_table [((0, 0), BucketState.kPrepared)] (0, 0)
  have hs : lookupState [((0, 0), BucketState.kPrepared)] (0, 0)
      = some BucketState.kPrepared := by decide
  refine ⟨hs, ?_, h.2.2.1 hs, h.2.2.2.1 hs, h.2.2.2.2.2.1 BucketState.kPrepared hs,
    h.2.2.2.2.2.2 hs⟩
  · have := h.1 BucketState.kPrepared hs
    simpa using this

/-- C10.  `clear(bucketId)` with an id that has no entry in the state table
returns normally with no write-conflict signal and no state change; clearing a
bucket already `kCleared` likewise returns normally and leaves the table
unchanged. -/
theorem clear_missing_or_cleared_id_is_noop (m : StateMap) (id : OID) :
    (lookupState m id = none → clearBucketState m id = some (m, false)) ∧
    (lookupState m id = some .kCleared → clearBucketState m id = some (m, false)) := by
  constructor
  · intro hs; simp [clearBucketState, setBucketState, hs]
  · intro hs; simp [clearBucketState, setBucketState, hs]

/-- Witness for C10: an empty table, and a one-entry table already cleared. -/
theorem clear_missing_or_cleared_id_is_noop_witness :
    lookupState [] (7, 3) = none ∧
    clearBucketState [] (7, 3) = some ([], false) ∧
    lookupState [((1, 2), BucketState.kCleared)] (1, 2) = some BucketState.kCleared ∧
    clearBucketState [((1, 2), BucketState.kCleared)] (1, 2) =
      some ([((1, 2), BucketState.kCleared)], false) :=
  ⟨by decide, (clear_missing_or_cleared_id_is_noop [] (7, 3)).1 (by decide),
   by decide,
   (clear_missing_or_cleared_id_is_noop [((1, 2), BucketState.kCleared)] (1, 2)).2 (by decide)⟩

/-! ## WriteBatch outcome promise (`_finish`, `_abort`, `getResult`) -/

/-- Error identities surfaced by the catalog. -/
inductive ErrCode where
  | badValue
  | timeseriesBucketCleared
  deriving Repr, DecidableEq

/-- Outcome of the storage write carried inside `CommitInfo.result`: OK or a
storage-engine error code. -/
inductive StorageResult where
  | ok
  | err (code : Nat)
  deriving Repr, DecidableEq

/-- Commit information passed to `finish`. -/
structure CommitInfo where
  result : StorageResult
  deriving Repr, DecidableEq

/-- Resolved value of a batch's outcome promise: the supplied `CommitInfo` on
`finish`, or an error on `abort`. -/
inductive BatchResult where
  | ok (info : CommitInfo)
  | error (e : ErrCode)
  deriving Repr, DecidableEq

/-- Model of `BucketCatalog::WriteBatch`.  The `_promise` is an
`Option BatchResult`: `none` while unresolved, and the resolved value once
`_finish`/`_abort` ran.  `bucketId` models the raw back-pointer `_bucket` (by
allocation counter), reset to `none` when the batch finishes. -/
structure WriteBatch where
  bucketId : Option Nat
  lsid : Nat
  measurements : List (List (String × BVal))
  newFieldNamesToBeInserted : List String
  active : Bool
  commitRights : Bool
  numPreviouslyCommittedMeasurements : Nat
  promise : Option BatchResult
  minPayload : List (String × BVal)
  maxPayload : List (String × BVal)
  deriving Repr, DecidableEq

/-- Model of `WriteBatch::finished` (`_promise.getFuture().isReady()`). -/
def WriteBatch.finishedW (b : WriteBatch) : Bool := b.promise.isSome

/-- Model of `WriteBatch::getResult`, once the batch is finished: the resolved
promise value (`none` means the caller would block). -/
def WriteBatch.getResultW (b : WriteBatch) : Option BatchResult :=
  b.promise

/-- Translation of `WriteBatch::_finish`: requires commit rights, an inactive
batch and an unresolved promise (the source's invariants and the promise's
single-assignment rule; `none` models the aborted process), then resolves the
promise with `info` and detaches the bucket back-pointer. -/
def WriteBatch.finishW (b : WriteBatch) (info : CommitInfo) : Option WriteBatch :=
  if b.commitRights = true ∧ b.active = false ∧ b.promise = none then
    some { b with promise := some (.ok info), bucketId := none }
  else none

/-- Translation of `WriteBatch::_abort`: deactivates the batch and resolves
the promise with the `TimeseriesBucketCleared` error (promise must be
unresolved). -/
def WriteBatch.abortW (b : WriteBatch) : Option WriteBatch :=
  if b.promise = none then
    some { b with active := false,
                  promise := some (.error .timeseriesBucketCleared),
                  bucketId := none }
  else none

/-- C7.  After `finish(batch, info)` completes, `getResult` returns the
supplied `info` — whether `info.result` is OK or a storage error — and after
the batch is aborted, `getResult` returns the `TimeseriesBucketCleared`
error. -/
theorem writeBatch_getResult_after_finish_abort (b : WriteBatch) (info : CommitInfo) :
    (∀ b1, b.finishW info = some b1 → b1.getResultW = some (.ok info)) ∧
    (∀ b2, b.abortW = some b2 →
      b2.getResultW = some (.error .timeseriesBucketCleared)) := by
  constructor
  · intro b1 h
    unfold WriteBatch.finishW at h
    split at h
    · cases h; rfl
    · cases h
  · intro b2 h
    unfold WriteBatch.abortW at h
    split at h
    · cases h; rfl
    · cases h

/-- Witness for C7: a concrete inactive batch with commit rights finishing
with a storage error, and a fresh batch aborting. -/
theorem writeBatch_getResult_after_finish_abort_witness :
    WriteBatch.getResultW
        ⟨none, 0, [], [], false, true, 0, some (.ok ⟨.err 42⟩), [], []⟩ =
      some (.ok ⟨.err 42⟩) ∧
    WriteBatch.getResultW
        ⟨none, 0, [], [], false, false, 0,
          some (.error .timeseriesBucketCleared), [], []⟩ =
      some (.error ErrCode.timeseriesBucketCleared) :=
  ⟨(writeBatch_getResult_after_finish_abort
      ⟨some 0, 0, [], [], false, true, 0, none, [], []⟩ ⟨.err 42⟩).1 _ (by decide),
   (writeBatch_getResult_after_finish_abort
      ⟨some 0, 0, [], [], true, false, 0, none, [], []⟩ ⟨.err 42⟩).2 _ (by decide)⟩

/-! ## C3: metadata normalization (`normalizeObject`, `BucketMetadata`)

`normalizeObject` iterates the object's elements in sorted field-name order
(`BSONObjIteratorSorted`); elements of Object type are normalized recursively,
every other element — including arrays — is appended verbatim. -/

/-- Field-name ordering used for sorting. -/
def fieldLe (p q : String × BVal) : Prop := p.1 ≤ q.1

instance : DecidableRel fieldLe := fun p q => inferInstanceAs (Decidable (p.1 ≤ q.1))

instance : IsTotal (String × BVal) fieldLe := ⟨fun p q => le_total p.1 q.1⟩

instance : IsTrans (String × BVal) fieldLe := ⟨fun _ _ _ h1 h2 => le_trans h1 h2⟩

/-- Sorting of an object's field list by name (`BSONObjIteratorSorted`). -/
def sortFields (l : List (String × BVal)) : List (String × BVal) :=
  l.insertionSort fieldLe

theorem sortFields_perm (l : List (String × BVal)) : List.Perm (sortFields l) l :=
  List.perm_insertionSort fieldLe l

theorem sortFields_sizeOf (l : List (String × BVal)) : sizeOf (sortFields l) = sizeOf l :=
  (sortFields_perm l).sizeOf_eq_sizeOf

mutual

/-- Translation of `normalizeObject`: sort the fields, then walk them in
order, recursing into Object-typed values only. -/
def normalizeObjectM (fields : List (String × BVal)) : List (String × BVal) :=
  normalizeIter (sortFields fields)
termination_by sizeOf fields + 1
decreasing_by rw [sortFields_sizeOf]; omega

/-- The sorted-iterator walk inside `normalizeObject`. -/
def normalizeIter : List (String × BVal) → List (String × BVal)
  | [] => []
  | (n, .obj fs) :: rest => (n, .obj (normalizeObjectM fs)) :: normalizeIter rest
  | (n, v) :: rest => (n, v) :: normalizeIter rest
termination_by l => sizeOf l
decreasing_by all_goals (simp_wf; try omega)

end

/-- Per-value normalization: objects are normalized, everything else is left
as-is (matching the walk of `normalizeObject`). -/
def normalizeVal : BVal → BVal
  | .obj fs => .obj (normalizeObjectM fs)
  | v => v

theorem normalizeIter_eq_map (l : List (String × BVal)) :
    normalizeIter l = l.map (fun e => (e.1, normalizeVal e.2)) := by
  induction l with
  | nil => simp [normalizeIter]
  | cons e rest ih =>
    obtain ⟨n, v⟩ := e
    cases v <;> simp [normalizeIter, normalizeVal, ih]

/-- The `BucketCatalog::BucketMetadata` equality (`operator==` compares the
canonically sorted forms binary-equal), as used by the `_openBuckets` key of
`insert`: `(ns, BucketMetadata)` with the metadata compared in normalized
form. -/
def bucketKey (ns : String) (metadata : List (String × BVal)) :
    String × List (String × BVal) :=
  (ns, normalizeObjectM metadata)

mutual

/-- Well-formedness of a modelled BSON value: no object level carries a
repeated field name. -/
def wfNamesV : BVal → Bool
  | .prim _ _ _ => true
  | .obj fs => ((fs.map Prod.fst).Nodup : Bool) && wfNamesFields fs
  | .arr es => wfNamesElems es

/-- Well-formedness of every value in a field list. -/
def wfNamesFields : List (String × BVal) → Bool
  | [] => true
  | e :: rest => wfNamesV e.2 && wfNamesFields rest

/-- Well-formedness of every value in an element list. -/
def wfNamesElems : List BVal → Bool
  | [] => true
  | v :: rest => wfNamesV v && wfNamesElems rest

end

theorem wfNamesFields_iff (l : List (String × BVal)) :
    wfNamesFields l = true ↔ ∀ e ∈ l, wfNamesV e.2 = true := by
  induction l with
  | nil => simp [wfNamesFields]
  | cons e rest ih => simp [wfNamesFields, ih]

theorem wfNamesObj_iff (fs : List (String × BVal)) :
    wfNamesV (.obj fs) = true ↔
      (fs.map Prod.fst).Nodup ∧ ∀ e ∈ fs, wfNamesV e.2 = true := by
  simp [wfNamesV, wfNamesFields_iff]

mutual

/-- Reordering equivalence cancelled by the normalizer: objects reachable
through object-typed fields may permute their fields; arrays (and everything
below them) must be identical. -/
inductive ObjReorder : BVal → BVal → Prop where
  | prim (bt : Nat) (v : Int) (sz : Nat) :
      ObjReorder (.prim bt v sz) (.prim bt v sz)
  | arr (es : List BVal) : ObjReorder (.arr es) (.arr es)
  | obj (f1 f1x f2 : List (String × BVal)) :
      ObjReorderFields f1 f1x → List.Perm f1x f2 → ObjReorder (.obj f1) (.obj f2)

/-- Pointwise `ObjReorder` on field lists with identical names in place. -/
inductive ObjReorderFields : List (String × BVal) → List (String × BVal) → Prop where
  | nil : ObjReorderFields [] []
  | cons (n : String) (v w : BVal) (r1 r2 : List (String × BVal)) :
      ObjReorder v w → ObjReorderFields r1 r2 →
      ObjReorderFields ((n, v) :: r1) ((n, w) :: r2)

end

mutual

/-- The claim's stated equivalence: metadata documents that differ only in
the order of their fields at any nesting depth — including objects nested
inside arrays. -/
inductive FieldOrderEquiv : BVal → BVal → Prop where
  | prim (bt : Nat) (v : Int) (sz : Nat) :
      FieldOrderEquiv (.prim bt v sz) (.prim bt v sz)
  | arr (e1 e2 : List BVal) :
      FieldOrderEquivElems e1 e2 → FieldOrderEquiv (.arr e1) (.arr e2)
  | obj (f1 f1x f2 : List (String × BVal)) :
      FieldOrderEquivFields f1 f1x → List.Perm f1x f2 →
      FieldOrderEquiv (.obj f1) (.obj f2)

/-- Pointwise `FieldOrderEquiv` on field lists with identical names. -/
inductive FieldOrderEquivFields :
    List (String × BVal) → List (String × BVal) → Prop where
  | nil : FieldOrderEquivFields [] []
  | cons (n : String) (v w : BVal) (r1 r2 : List (String × BVal)) :
      FieldOrderEquiv v w → FieldOrderEquivFields r1 r2 →
      FieldOrderEquivFields ((n, v) :: r1) ((n, w) :: r2)

/-- Pointwise `FieldOrderEquiv` on array element lists. -/
inductive FieldOrderEquivElems : List BVal → List BVal → Prop where
  | nil : FieldOrderEquivElems [] []
  | cons (v w : BVal) (r1 r2 : List BVal) :
      FieldOrderEquiv v w → FieldOrderEquivElems r1 r2 →
      FieldOrderEquivElems (v :: r1) (w :: r2)

end

theorem pairwise_and_of {α : Type} {R S : α → α → Prop} :
    ∀ {l : List α}, l.Pairwise R → l.Pairwise S →
      l.Pairwise (fun a b => R a b ∧ S a b) := by
  intro l
  induction l with
  | nil => intro _ _; exact List.Pairwise.nil
  | cons a rest ih =>
    intro hr hs
    rw [List.pairwise_cons] at hr hs ⊢
    exact ⟨fun x hx => ⟨hr.1 x hx, hs.1 x hx⟩, ih hr.2 hs.2⟩

/-- Strict name ordering on entries; what a sorted, duplicate-free field list
satisfies pairwise. -/
def fieldLt (p q : String × BVal) : Prop := p.1 < q.1

instance : IsAntisymm (String × BVal) fieldLt :=
  ⟨fun _ _ h1 h2 => absurd h2 (lt_asymm h1)⟩

theorem sortFields_sorted (l : List (String × BVal)) :
    (sortFields l).Sorted fieldLe :=
  List.sorted_insertionSort fieldLe l

theorem sorted_fieldLt_of_nodup {l : List (String × BVal)}
    (hs : l.Sorted fieldLe) (hn : (l.map Prod.fst).Nodup) :
    l.Pairwise fieldLt := by
  have hne : l.Pairwise (fun p q : String × BVal => p.1 ≠ q.1) := by
    rw [List.Nodup, List.pairwise_map] at hn
    exact hn
  exact (pairwise_and_of hs hne).imp
    (fun h => lt_of_le_of_ne h.1 h.2)

theorem names_nodup_of_perm {l1 l2 : List (String × BVal)}
    (hp : List.Perm l1 l2) (hn : (l2.map Prod.fst).Nodup) :
    (l1.map Prod.fst).Nodup :=
  ((hp.map Prod.fst).nodup_iff).2 hn

/-- Core induction for C3: `normalizeVal` maps `ObjReorder`-related
well-formed values to identical results. -/
theorem normalize_objReorder_aux :
    ∀ (n : Nat) (a b : BVal), sizeOf a ≤ n → ObjReorder a b →
      wfNamesV a = true → wfNamesV b = true → normalizeVal a = normalizeVal b := by
  intro n
  induction n with
  | zero =>
    intro a b hs _ _ _
    exfalso
    cases a <;> simp at hs
  | succ n ih =>
    intro a b hsize h ha hb
    cases h with
    | prim bt v sz => rfl
    | arr es => rfl
    | obj f1 f1x f2 hff hperm =>
      simp only [normalizeVal, BVal.obj.injEq]
      have ha' := (wfNamesObj_iff f1).1 ha
      have hb' := (wfNamesObj_iff f2).1 hb
      -- pointwise equality of the normalized entries of f1 and f1x
      have hmap : ∀ (r1 r2 : List (String × BVal)), ObjReorderFields r1 r2 →
          (∀ e ∈ r1, sizeOf e.2 ≤ n) →
          (∀ e ∈ r1, wfNamesV e.2 = true) → (∀ e ∈ r2, wfNamesV e.2 = true) →
          r1.map (fun e => (e.1, normalizeVal e.2)) =
            r2.map (fun e => (e.1, normalizeVal e.2)) := by
        intro r1
        induction r1 with
        | nil => intro r2 hf _ _ _; cases hf; rfl
        | cons e rest ihr =>
          intro r2 hf hsz hw1 hw2
          cases hf with
          | cons nm v w t1 t2 hvw hrest =>
            simp only [List.map_cons, List.cons.injEq]
            constructor
            · exact Prod.ext rfl (ih v w (hsz (nm, v) (List.mem_cons_self _ _))
                hvw (hw1 (nm, v) (List.mem_cons_self _ _))
                (hw2 (nm, w) (List.mem_cons_self _ _)))
            · exact ihr t2 hrest
                (fun x hx => hsz x (List.mem_cons_of_mem _ hx))
                (fun x hx => hw1 x (List.mem_cons_of_mem _ hx))
                (fun x hx => hw2 x (List.mem_cons_of_mem _ hx))
      -- well-formedness of the intermediate list f1x (its values are f2's)
      have hwx : ∀ e ∈ f1x, wfNamesV e.2 = true := fun e he =>
        hb'.2 e (hperm.subset he)
      have hszb : ∀ e ∈ f1, sizeOf e.2 ≤ n := by
        intro e he
        have h1 : sizeOf e < sizeOf f1 := List.sizeOf_lt_of_mem he
        have h2 : sizeOf e.2 < sizeOf e := by
          obtain ⟨x, y⟩ := e; simp
        have h3 : sizeOf (BVal.obj f1) = 1 + sizeOf f1 := by simp
        omega
      have heq : f1.map (fun e => (e.1, normalizeVal e.2)) =
          f1x.map (fun e => (e.1, normalizeVal e.2)) :=
        hmap f1 f1x hff hszb ha'.2 hwx
      -- both normalized outputs are sorted with the same underlying multiset
      unfold normalizeObjectM
      rw [normalizeIter_eq_map, normalizeIter_eq_map]
      have hperm1 : List.Perm
          ((sortFields f1).map (fun e => (e.1, normalizeVal e.2)))
          ((sortFields f2).map (fun e => (e.1, normalizeVal e.2))) := by
        refine ((sortFields_perm f1).map _).trans (.trans ?_
          ((sortFields_perm f2).map _).symm)
        rw [heq]
        exact hperm.map _
      -- names are preserved by the normalizing map
      have hnamemap : ∀ (l : List (String × BVal)),
          (l.map (fun e => (e.1, normalizeVal e.2))).map Prod.fst = l.map Prod.fst := by
        intro l; simp
      have hsorted : ∀ (l : List (String × BVal)), (l.map Prod.fst).Nodup →
          (((sortFields l).map (fun e => (e.1, normalizeVal e.2))).Pairwise fieldLt) := by
        intro l hn
        have h1 : (sortFields l).Pairwise fieldLt :=
          sorted_fieldLt_of_nodup (sortFields_sorted l)
            (names_nodup_of_perm (sortFields_perm l) hn)
        rw [List.pairwise_map]
        exact h1.imp (fun hlt => hlt)
      exact List.eq_of_perm_of_sorted hperm1 (hsorted f1 ha'.1) (hsorted f2 hb'.1)

/-- C3 (amended).  Two well-formed metadata documents related by field
reordering inside object-typed values (everything under an array unchanged)
normalize to binary-equal documents, hence produce the same `_openBuckets`
key for the same namespace. -/
theorem normalizeObject_reorder_eq (ns : String) (m1 m2 : List (String × BVal))
    (h : ObjReorder (.obj m1) (.obj m2))
    (h1 : wfNamesV (.obj m1) = true) (h2 : wfNamesV (.obj m2) = true) :
    normalizeObjectM m1 = normalizeObjectM m2 ∧ bucketKey ns m1 = bucketKey ns m2 := by
  have := normalize_objReorder_aux (sizeOf (BVal.obj m1)) (.obj m1) (.obj m2)
    le_rfl h h1 h2
  simp only [normalizeVal, BVal.obj.injEq] at this
  exact ⟨this, by simp [bucketKey, this]⟩

/-- Witness for the amended C3: object-level field reordering at two nesting
depths normalizes identically. -/
theorem normalizeObject_reorder_eq_witness :
    normalizeObjectM
        [("b", BVal.prim 1 7 8),
         ("a", BVal.obj [("y", BVal.prim 1 1 8), ("x", BVal.prim 1 0 8)])] =
      normalizeObjectM
        [("a", BVal.obj [("x", BVal.prim 1 0 8), ("y", BVal.prim 1 1 8)]),
         ("b", BVal.prim 1 7 8)] := by
  refine (normalizeObject_reorder_eq "db.coll" _ _ ?_ (by decide) (by decide)).1
  refine ObjReorder.obj _
    [("b", BVal.prim 1 7 8),
     ("a", BVal.obj [("x", BVal.prim 1 0 8), ("y", BVal.prim 1 1 8)])] _ ?_ ?_
  · refine ObjReorderFields.cons _ _ _ _ _ (ObjReorder.prim 1 7 8) ?_
    refine ObjReorderFields.cons _ _ _ _ _ ?_ ObjReorderFields.nil
    refine ObjReorder.obj _
      [("y", BVal.prim 1 1 8), ("x", BVal.prim 1 0 8)] _ ?_ ?_
    · exact ObjReorderFields.cons _ _ _ _ _ (ObjReorder.prim 1 1 8)
        (ObjReorderFields.cons _ _ _ _ _ (ObjReorder.prim 1 0 8)
          ObjReorderFields.nil)
    · exact List.Perm.swap _ _ _
  · exact List.Perm.swap _ _ _

/-- Counterexample to C3 as stated: the two metadata documents below differ
only in the order of the fields of an object nested inside an array, yet
their normalized forms are not binary-equal, because `normalizeObject`
does not descend into arrays. -/
theorem normalizeObject_counterexample :
    FieldOrderEquiv
      (.obj [("m", .arr [.obj [("x", BVal.prim 1 0 8), ("y", BVal.prim 1 1 8)]])])
      (.obj [("m", .arr [.obj [("y", BVal.prim 1 1 8), ("x", BVal.prim 1 0 8)]])]) ∧
    wfNamesV
      (.obj [("m", .arr [.obj [("x", BVal.prim 1 0 8), ("y", BVal.prim 1 1 8)]])])
      = true ∧
    wfNamesV
      (.obj [("m", .arr [.obj [("y", BVal.prim 1 1 8), ("x", BVal.prim 1 0 8)]])])
      = true ∧
    normalizeObjectM
        [("m", .arr [.obj [("x", BVal.prim 1 0 8), ("y", BVal.prim 1 1 8)]])] ≠
      normalizeObjectM
        [("m", .arr [.obj [("y", BVal.prim 1 1 8), ("x", BVal.prim 1 0 8)]])] := by
  refine ⟨?_, by decide, by decide, ?_⟩
  · refine FieldOrderEquiv.obj _
      [("m", .arr [.obj [("y", BVal.prim 1 1 8), ("x", BVal.prim 1 0 8)]])] _
      ?_ (List.Perm.refl _)
    refine FieldOrderEquivFields.cons _ _ _ _ _ ?_ FieldOrderEquivFields.nil
    refine FieldOrderEquiv.arr _ _ ?_
    refine FieldOrderEquivElems.cons _ _ _ _ ?_ FieldOrderEquivElems.nil
    refine FieldOrderEquiv.obj _
      [("x", BVal.prim 1 0 8), ("y", BVal.prim 1 1 8)] _ ?_ ?_
    · exact FieldOrderEquivFields.cons _ _ _ _ _ (FieldOrderEquiv.prim 1 0 8)
        (FieldOrderEquivFields.cons _ _ _ _ _ (FieldOrderEquiv.prim 1 1 8)
          FieldOrderEquivFields.nil)
    · exact List.Perm.swap _ _ _
  · simp [normalizeObjectM, normalizeIter, sortFields, List.insertionSort,
      normalizeVal]

/-! ## C9: the MinMax tracker

A node is Unset, a Value (with its dirty bit and the wrapped element), an
Object (children keyed by field name in `std::map` order, i.e. sorted), or an
Array.  The C++ keeps the stale `_object`/`_array`/`_value` members across a
type transition, but under the strict comparators used by the catalog
(`std::less` for `_min`, `std::greater` for `_max`) the canonical type of a
node moves strictly monotonically, so a left representation is never
re-entered and the stale members are never read again; the model therefore
drops them at the transition. -/

inductive MMNode where
  | unset
  | val (updated : Bool) (bt : Nat) (v : Int) (sz : Nat)
  | mobj (updated : Bool) (children : List (String × MMNode))
  | marr (updated : Bool) (children : List MMNode)
  deriving Repr

/-- Sign of `woCompare` between two scalar elements: canonical types first,
then the value payload (string comparator abstracted into the payload). -/
def woCompareLeaf (bt2 : Nat) (v2 : Int) (bt1 : Nat) (v1 : Int) : Int :=
  if canonicalizeBSONType bt2 ≠ canonicalizeBSONType bt1 then
    canonicalizeBSONType bt2 - canonicalizeBSONType bt1
  else if v2 < v1 then -1 else if v2 = v1 then 0 else 1

/-- The comparator of the `_min` tracker (`std::less` on the compare sign). -/
def ltComp (a b : Int) : Bool := a < b

/-- The comparator of the `_max` tracker (`std::greater`). -/
def gtComp (a b : Int) : Bool := b < a

mutual

/-- Translation of `MinMax::_update`.  `comp` receives the comparison sign and
`0` exactly as in the source (`typeComp` / `woCompare`). -/
def updateMM (comp : Int → Int → Bool) : MMNode → BVal → MMNode
  | m, .obj fs =>
    (match m with
     | .mobj u cs => .mobj u (updateFields comp cs fs)
     | .unset => .mobj true (updateFields comp [] fs)
     | .marr u cs =>
        if comp (20 - 25) 0 then .mobj true (updateFields comp [] fs) else .marr u cs
     | .val u bt v sz =>
        if comp (20 - canonicalizeBSONType bt) 0 then
          .mobj true (updateFields comp [] fs)
        else .val u bt v sz)
  | m, .arr es =>
    (match m with
     | .marr u cs => .marr u (updateElems comp cs es)
     | .unset => .marr true (updateElems comp [] es)
     | .mobj u cs =>
        if comp (25 - 20) 0 then .marr true (updateElems comp [] es) else .mobj u cs
     | .val u bt v sz =>
        if comp (25 - canonicalizeBSONType bt) 0 then
          .marr true (updateElems comp [] es)
        else .val u bt v sz)
  | m, .prim bt2 v2 sz2 =>
    (match m with
     | .unset => .val true bt2 v2 sz2
     | .mobj u cs =>
        if comp (canonicalizeBSONType bt2 - 20) 0 then .val true bt2 v2 sz2
        else .mobj u cs
     | .marr u cs =>
        if comp (canonicalizeBSONType bt2 - 25) 0 then .val true bt2 v2 sz2
        else .marr u cs
     | .val u bt v sz =>
        if comp (woCompareLeaf bt2 v2 bt v) 0 then .val true bt2 v2 sz2
        else .val u bt v sz)
termination_by m v => (sizeOf v, 0)

/-- The per-field merging loop of `_update` on an Object element
(`_object[subElem.fieldName()]` then recursive `_update`). -/
def updateFields (comp : Int → Int → Bool) :
    List (String × MMNode) → List (String × BVal) → List (String × MMNode)
  | cs, [] => cs
  | cs, (n, v) :: rest => updateFields comp (objInsertMM comp cs n v) rest
termination_by cs fs => (sizeOf fs, 0)

/-- `std::map::operator[]` followed by `_update`: default-construct an Unset
node for an absent key (keys kept sorted), update the existing node
otherwise. -/
def objInsertMM (comp : Int → Int → Bool) :
    List (String × MMNode) → String → BVal → List (String × MMNode)
  | [], n, v => [(n, updateMM comp .unset v)]
  | (m, c) :: cs, n, v =>
      if n < m then (n, updateMM comp .unset v) :: (m, c) :: cs
      else if n = m then (n, updateMM comp c v) :: cs
      else (m, c) :: objInsertMM comp cs n v
termination_by cs n v => (sizeOf v, sizeOf cs + 1)

/-- The array merging of `_update`: `resize` to the new length if it grew,
then update each index against the incoming element (kept elements beyond the
new list survive). -/
def updateElems (comp : Int → Int → Bool) : List MMNode → List BVal → List MMNode
  | ms, [] => ms
  | [], v :: vs => updateMM comp .unset v :: updateElems comp [] vs
  | m :: ms, v :: vs => updateMM comp m v :: updateElems comp ms vs
termination_by ms vs => (sizeOf vs, 0)

end

mutual

/-- The value a MinMax node denotes (`MinMax::_append`): `none` only for
Unset. -/
def reify : MMNode → Option BVal
  | .unset => none
  | .val _ bt v sz => some (.prim bt v sz)
  | .mobj _ cs => some (.obj (reifyFields cs))
  | .marr _ cs => some (.arr (reifyElems cs))

/-- Reification of object children (children are non-Unset under the
invariant asserted by `_append`). -/
def reifyFields : List (String × MMNode) → List (String × BVal)
  | [] => []
  | (n, c) :: rest =>
      match reify c with
      | some v => (n, v) :: reifyFields rest
      | none => reifyFields rest

/-- Reification of array children. -/
def reifyElems : List MMNode → List BVal
  | [] => []
  | c :: rest =>
      match reify c with
      | some v => v :: reifyElems rest
      | none => reifyElems rest

end

mutual

/-- Canonical form of a value as adopted by the tracker from an Unset node:
object levels become sorted maps (at every depth, arrays included). -/
def canonVal : BVal → BVal
  | .prim bt v sz => .prim bt v sz
  | .obj fs => .obj (canonFields [] fs)
  | .arr es => .arr (canonElems es)
termination_by v => (sizeOf v, 0)

/-- Adoption of an object's fields into an (initially given) sorted map. -/
def canonFields : List (String × BVal) → List (String × BVal) → List (String × BVal)
  | acc, [] => acc
  | acc, (n, v) :: rest => canonFields (canonInsert acc n v) rest
termination_by acc fs => (sizeOf fs, 0)

/-- Sorted-map insertion of one canonicalized field (a repeated key merges
nothing here: with well-formed inputs keys are distinct). -/
def canonInsert : List (String × BVal) → String → BVal → List (String × BVal)
  | [], n, v => [(n, canonVal v)]
  | (m, w) :: acc, n, v =>
      if n < m then (n, canonVal v) :: (m, w) :: acc
      else if n = m then (n, canonVal v) :: acc
      else (m, w) :: canonInsert acc n v
termination_by acc n v => (sizeOf v, sizeOf acc + 1)

/-- Canonical form of array elements. -/
def canonElems : List BVal → List BVal
  | [] => []
  | v :: rest => canonVal v :: canonElems rest
termination_by es => (sizeOf es, 0)

end

/-- Comparison sign of a candidate value `b` against the current extremum `a`
when at least one of them is not of the same structural kind (canonical types
first, scalar payload second), as computed by `typeComp`/`woCompare` in
`_update`. -/
def woCompareB (b a : BVal) : Int :=
  match b, a with
  | .prim bt2 v2 _, .prim bt1 v1 _ => woCompareLeaf bt2 v2 bt1 v1
  | b, a => b.canonicalType - a.canonicalType

mutual

/-- Specification-side element-wise extremum of the current (canonical)
extremum `a` and a new document value `b` under comparator `comp`: objects
merge field-wise, arrays merge index-wise (the longer side's tail survives),
and otherwise the new value replaces the old exactly when `comp` prefers it
(canonical BSON type first, then the value). -/
def mergeVal (comp : Int → Int → Bool) : BVal → BVal → BVal
  | .obj fa, .obj fb => .obj (mergeFields comp fa fb)
  | .arr ea, .arr eb => .arr (mergeElems comp ea eb)
  | a, b => if comp (woCompareB b a) 0 then canonVal b else a
termination_by a b => (sizeOf b, 0)

/-- Field-wise extremum: fold the new document's fields into the sorted
current map. -/
def mergeFields (comp : Int → Int → Bool) :
    List (String × BVal) → List (String × BVal) → List (String × BVal)
  | acc, [] => acc
  | acc, (n, v) :: rest => mergeFields comp (mergeInsert comp acc n v) rest
termination_by acc fs => (sizeOf fs, 0)

/-- Insert-or-merge of one field into the sorted current map. -/
def mergeInsert (comp : Int → Int → Bool) :
    List (String × BVal) → String → BVal → List (String × BVal)
  | [], n, v => [(n, canonVal v)]
  | (m, w) :: acc, n, v =>
      if n < m then (n, canonVal v) :: (m, w) :: acc
      else if n = m then (n, mergeVal comp w v) :: acc
      else (m, w) :: mergeInsert comp acc n v
termination_by acc n v => (sizeOf v, sizeOf acc + 1)

/-- Index-wise extremum of array elements. -/
def mergeElems (comp : Int → Int → Bool) : List BVal → List BVal → List BVal
  | ms, [] => ms
  | [], v :: vs => canonVal v :: mergeElems comp [] vs
  | m :: ms, v :: vs => mergeVal comp m v :: mergeElems comp ms vs
termination_by ms vs => (sizeOf vs, 0)

end

/-- Extremum against an optional current value (`none` = Unset tracker):
adoption is canonicalization. -/
def mergeValO (comp : Int → Int → Bool) : Option BVal → BVal → BVal
  | none, v => canonVal v
  | some a, v => mergeVal comp a v

/-- Discriminator for the Unset node. -/
def isUnsetN : MMNode → Bool
  | .unset => true
  | _ => false

/-- Discriminator for Value nodes (`_type == Type::kValue`). -/
def isValN : MMNode → Bool
  | .val _ _ _ _ => true
  | _ => false

/-- The node's dirty bit (`_updated`). -/
def isUpdatedN : MMNode → Bool
  | .unset => false
  | .val u _ _ _ => u
  | .mobj u _ => u
  | .marr u _ => u

mutual

/-- Reachable-state invariant of MinMax nodes: children of structural nodes
are never Unset, and value leaves are genuine scalars (BSONType not Object or
Array). -/
def goodN : MMNode → Bool
  | .unset => true
  | .val _ bt _ _ => !(bt == 3) && !(bt == 4)
  | .mobj _ cs => goodFieldsN cs
  | .marr _ cs => goodElemsN cs

/-- Invariant for object children. -/
def goodFieldsN : List (String × MMNode) → Bool
  | [] => true
  | (_, c) :: rest => !(isUnsetN c) && goodN c && goodFieldsN rest

/-- Invariant for array children. -/
def goodElemsN : List MMNode → Bool
  | [] => true
  | c :: rest => !(isUnsetN c) && goodN c && goodElemsN rest

end

mutual

/-- Well-formed document values: scalar leaves carry scalar BSON types and no
object level repeats a field name. -/
def wfB : BVal → Bool
  | .prim bt _ _ => !(bt == 3) && !(bt == 4)
  | .obj fs => ((fs.map Prod.fst).Nodup : Bool) && wfFieldsB fs
  | .arr es => wfElemsB es

/-- Well-formedness of an object's fields. -/
def wfFieldsB : List (String × BVal) → Bool
  | [] => true
  | (_, v) :: rest => wfB v && wfFieldsB rest

/-- Well-formedness of an array's elements. -/
def wfElemsB : List BVal → Bool
  | [] => true
  | v :: rest => wfB v && wfElemsB rest

end

theorem reify_some_of_not_unset (c : MMNode) (h : isUnsetN c = false) :
    ∃ w, reify c = some w := by
  cases c with
  | unset => simp [isUnsetN] at h
  | val u bt v sz => exact ⟨.prim bt v sz, by simp [reify]⟩
  | mobj u cs => exact ⟨.obj (reifyFields cs), by simp [reify]⟩
  | marr u cs => exact ⟨.arr (reifyElems cs), by simp [reify]⟩

theorem updateMM_not_unset (comp : Int → Int → Bool) (m : MMNode) (v : BVal) :
    isUnsetN (updateMM comp m v) = false := by
  cases v <;> cases m <;>
    (simp only [updateMM]; (try split) <;> simp [isUnsetN])

theorem mergeElems_nil_eq_canon (comp : Int → Int → Bool) (vs : List BVal) :
    mergeElems comp [] vs = canonElems vs := by
  induction vs with
  | nil => simp [mergeElems, canonElems]
  | cons v rest ih => simp [mergeElems, canonElems, ih]

theorem mergeInsert_eq_canonInsert (comp : Int → Int → Bool) (v : BVal) :
    ∀ (acc : List (String × BVal)) (nm : String),
      nm ∉ acc.map Prod.fst →
      mergeInsert comp acc nm v = canonInsert acc nm v ∧
      ∀ x, x ∈ (canonInsert acc nm v).map Prod.fst → x = nm ∨ x ∈ acc.map Prod.fst := by
  intro acc
  induction acc with
  | nil =>
    intro nm _
    constructor
    · simp [mergeInsert, canonInsert]
    · intro x hx; simp [canonInsert] at hx; exact Or.inl hx
  | cons e acc ih =>
    intro nm hnm
    obtain ⟨m0, w⟩ := e
    simp only [List.map_cons, List.mem_cons] at hnm
    push_neg at hnm
    constructor
    · by_cases h1 : nm < m0
      · simp [mergeInsert, canonInsert, h1]
      · have h2 : ¬ nm = m0 := hnm.1
        simp [mergeInsert, canonInsert, h1, h2, (ih nm hnm.2).1]
    · intro x hx
      by_cases h1 : nm < m0
      · simp [canonInsert, h1] at hx
        rcases hx with h | h | h
        · exact Or.inl h
        · exact Or.inr (by simp [h])
        · exact Or.inr (by simp [h])
      · have h2 : ¬ nm = m0 := hnm.1
        simp [canonInsert, h1, h2] at hx
        rcases hx with h | h
        · exact Or.inr (by simp [h])
        · rcases (ih nm hnm.2).2 x (by simpa using h) with h3 | h3
          · exact Or.inl h3
          · exact Or.inr (by simp [h3])

theorem mergeFields_eq_canonFields (comp : Int → Int → Bool) :
    ∀ (fs acc : List (String × BVal)),
      (fs.map Prod.fst).Nodup →
      (∀ x ∈ fs.map Prod.fst, x ∉ acc.map Prod.fst) →
      mergeFields comp acc fs = canonFields acc fs := by
  intro fs
  induction fs with
  | nil => intro acc _ _; simp [mergeFields, canonFields]
  | cons e rest ih =>
    intro acc hnd hdisj
    obtain ⟨n0, v⟩ := e
    simp only [List.map_cons, List.nodup_cons] at hnd
    have hn0 : n0 ∉ acc.map Prod.fst := hdisj n0 (by simp)
    obtain ⟨heq, hsub⟩ := mergeInsert_eq_canonInsert comp v acc n0 hn0
    rw [mergeFields, canonFields, heq]
    refine ih (canonInsert acc n0 v) hnd.2 ?_
    intro x hx hmem
    rcases hsub x hmem with h | h
    · exact hnd.1 (h ▸ hx)
    · exact hdisj x (by simp [hx]) h

/-- Statement A of the update/merge correspondence: one `_update` step on any
good node equals the specification's binary extremum on the reified value. -/
def StmtA (comp : Int → Int → Bool) (n : Nat) : Prop :=
  ∀ v : BVal, sizeOf v ≤ n → wfB v = true → ∀ m : MMNode, goodN m = true →
    reify (updateMM comp m v) = some (mergeValO comp (reify m) v) ∧
    goodN (updateMM comp m v) = true

/-- Statement D: the keyed insert-or-update into an object's children equals
the specification's keyed insert-or-merge. -/
def StmtD (comp : Int → Int → Bool) (n : Nat) : Prop :=
  ∀ v : BVal, sizeOf v ≤ n → wfB v = true →
  ∀ (cs : List (String × MMNode)) (nm : String), goodFieldsN cs = true →
    reifyFields (objInsertMM comp cs nm v) = mergeInsert comp (reifyFields cs) nm v ∧
    goodFieldsN (objInsertMM comp cs nm v) = true

/-- Statement B: the field loop of an Object update equals the field-wise
merge. -/
def StmtB (comp : Int → Int → Bool) (n : Nat) : Prop :=
  ∀ fs : List (String × BVal), sizeOf fs ≤ n → wfFieldsB fs = true →
  ∀ cs : List (String × MMNode), goodFieldsN cs = true →
    reifyFields (updateFields comp cs fs) = mergeFields comp (reifyFields cs) fs ∧
    goodFieldsN (updateFields comp cs fs) = true

/-- Statement C: the index loop of an Array update equals the index-wise
merge. -/
def StmtC (comp : Int → Int → Bool) (n : Nat) : Prop :=
  ∀ vs : List BVal, sizeOf vs ≤ n → wfElemsB vs = true →
  ∀ ms : List MMNode, goodElemsN ms = true →
    reifyElems (updateElems comp ms vs) = mergeElems comp (reifyElems ms) vs ∧
    goodElemsN (updateElems comp ms vs) = true

theorem mm_aux (comp : Int → Int → Bool) :
    ∀ n : Nat, StmtA comp n ∧ StmtD comp n ∧ StmtB comp n ∧ StmtC comp n := by
  intro n
  induction n with
  | zero =>
    refine ⟨?_, ?_, ?_, ?_⟩
    · intro v hsv; exfalso; cases v <;> simp at hsv
    · intro v hsv; exfalso; cases v <;> simp at hsv
    · intro fs hsf; exfalso; cases fs <;> simp at hsf
    · intro vs hsv; exfalso; cases vs <;> simp at hsv
  | succ n ih =>
    obtain ⟨ihA, ihD, ihB, ihC⟩ := ih
    -- Statement A at n+1
    have hA : StmtA comp (n + 1) := by
      intro v hsv hwf m hgood
      cases v with
      | prim bt2 v2 sz2 =>
        cases m with
        | unset =>
          refine ⟨by simp [updateMM, reify, mergeValO, canonVal], ?_⟩
          simpa [updateMM, goodN, wfB] using hwf
        | val u bt v1 sz1 =>
          simp only [updateMM, reify, mergeValO, mergeVal, woCompareB]
          split
          · refine ⟨by simp [reify, canonVal], ?_⟩
            simpa [goodN, wfB] using hwf
          · exact ⟨by simp [reify], by simpa [goodN] using hgood⟩
        | mobj u cs =>
          simp only [updateMM, reify, mergeValO, mergeVal, woCompareB,
            BVal.canonicalType]
          split
          · refine ⟨by simp [reify, canonVal], ?_⟩
            simpa [goodN, wfB] using hwf
          · exact ⟨by simp [reify], by simpa [goodN] using hgood⟩
        | marr u cs =>
          simp only [updateMM, reify, mergeValO, mergeVal, woCompareB,
            BVal.canonicalType]
          split
          · refine ⟨by simp [reify, canonVal], ?_⟩
            simpa [goodN, wfB] using hwf
          · exact ⟨by simp [reify], by simpa [goodN] using hgood⟩
      | obj fs =>
        have hsf : sizeOf fs ≤ n := by simp at hsv; omega
        have hwf' := hwf
        rw [show wfB (.obj fs) =
          (((fs.map Prod.fst).Nodup : Bool) && wfFieldsB fs) from rfl] at hwf'
        simp only [Bool.and_eq_true, decide_eq_true_eq] at hwf'
        have hadopt : reifyFields (updateFields comp [] fs) = canonFields [] fs ∧
            goodFieldsN (updateFields comp [] fs) = true := by
          obtain ⟨he, hg⟩ := ihB fs hsf hwf'.2 [] (by simp [goodFieldsN])
          refine ⟨?_, hg⟩
          rw [he, show reifyFields [] = [] from rfl]
          exact mergeFields_eq_canonFields comp fs [] hwf'.1 (by simp)
        cases m with
        | unset =>
          refine ⟨?_, ?_⟩
          · simp only [updateMM, reify, mergeValO, canonVal]
            simp [hadopt.1]
          · simpa [updateMM, goodN] using hadopt.2
        | val u bt v1 sz1 =>
          simp only [updateMM, reify, mergeValO, mergeVal, woCompareB,
            BVal.canonicalType]
          split
          · refine ⟨?_, by simpa [goodN] using hadopt.2⟩
            simp [reify, canonVal, hadopt.1]
          · exact ⟨by simp [reify], by simpa [goodN] using hgood⟩
        | mobj u cs =>
          have hgood' : goodFieldsN cs = true := by simpa [goodN] using hgood
          obtain ⟨he, hg⟩ := ihB fs hsf hwf'.2 cs hgood'
          refine ⟨?_, by simpa [updateMM, goodN] using hg⟩
          simp only [updateMM, reify, mergeValO, mergeVal]
          simp [he]
        | marr u cs =>
          simp only [updateMM, reify, mergeValO, mergeVal, woCompareB,
            BVal.canonicalType]
          split
          · refine ⟨?_, by simpa [goodN] using hadopt.2⟩
            simp [reify, canonVal, hadopt.1]
          · exact ⟨by simp [reify], by simpa [goodN] using hgood⟩
      | arr es =>
        have hse : sizeOf es ≤ n := by simp at hsv; omega
        have hwf' : wfElemsB es = true := by simpa [wfB] using hwf
        have hadopt : reifyElems (updateElems comp [] es) = canonElems es ∧
            goodElemsN (updateElems comp [] es) = true := by
          obtain ⟨he, hg⟩ := ihC es hse hwf' [] (by simp [goodElemsN])
          refine ⟨?_, hg⟩
          rw [he, show reifyElems [] = [] from rfl]
          exact mergeElems_nil_eq_canon comp es
        cases m with
        | unset =>
          refine ⟨?_, ?_⟩
          · simp only [updateMM, reify, mergeValO, canonVal]
            simp [hadopt.1]
          · simpa [updateMM, goodN] using hadopt.2
        | val u bt v1 sz1 =>
          simp only [updateMM, reify, mergeValO, mergeVal, woCompareB,
            BVal.canonicalType]
          split
          · refine ⟨?_, by simpa [goodN] using hadopt.2⟩
            simp [reify, canonVal, hadopt.1]
          · exact ⟨by simp [reify], by simpa [goodN] using hgood⟩
        | mobj u cs =>
          simp only [updateMM, reify, mergeValO, mergeVal, woCompareB,
            BVal.canonicalType]
          split
          · refine ⟨?_, by simpa [goodN] using hadopt.2⟩
            simp [reify, canonVal, hadopt.1]
          · exact ⟨by simp [reify], by simpa [goodN] using hgood⟩
        | marr u cs =>
          have hgood' : goodElemsN cs = true := by simpa [goodN] using hgood
          obtain ⟨he, hg⟩ := ihC es hse hwf' cs hgood'
          refine ⟨?_, by simpa [updateMM, goodN] using hg⟩
          simp only [updateMM, reify, mergeValO, mergeVal]
          simp [he]
    -- Statement D at n+1
    have hD : StmtD comp (n + 1) := by
      intro v hsv hwf cs nm hgood
      induction cs with
      | nil =>
        obtain ⟨he, hg⟩ := hA v hsv hwf .unset (by simp [goodN])
        refine ⟨?_, ?_⟩
        · simp only [objInsertMM, mergeInsert, reifyFields]
          rw [he]
          simp [mergeValO, reify]
        · simp [objInsertMM, goodFieldsN, hg, updateMM_not_unset]
      | cons e cs ihcs =>
        obtain ⟨m0, c⟩ := e
        have hgood' : isUnsetN c = false ∧ goodN c = true ∧ goodFieldsN cs = true := by
          simpa [goodFieldsN, and_assoc] using hgood
        obtain ⟨w, hw⟩ := reify_some_of_not_unset c hgood'.1
        have hrf : reifyFields ((m0, c) :: cs) = (m0, w) :: reifyFields cs := by
          simp [reifyFields, hw]
        by_cases h1 : nm < m0
        · obtain ⟨he, hg⟩ := hA v hsv hwf .unset (by simp [goodN])
          have hstep : objInsertMM comp ((m0, c) :: cs) nm v =
              (nm, updateMM comp .unset v) :: (m0, c) :: cs := by
            simp [objInsertMM, h1]
          have hstep2 : mergeInsert comp ((m0, w) :: reifyFields cs) nm v =
              (nm, canonVal v) :: (m0, w) :: reifyFields cs := by
            simp [mergeInsert, h1]
          refine ⟨?_, ?_⟩
          · rw [hstep, hrf, hstep2]
            have hrw : reify (updateMM comp .unset v) = some (canonVal v) := by
              rw [he]; simp [mergeValO, reify]
            simp [reifyFields, hrw, hw]
          · rw [hstep]
            simp [goodFieldsN, hg, updateMM_not_unset, hgood'.1, hgood'.2.1,
              hgood'.2.2]
        · by_cases h2 : nm = m0
          · subst h2
            obtain ⟨he, hg⟩ := hA v hsv hwf c hgood'.2.1
            have hstep : objInsertMM comp ((nm, c) :: cs) nm v =
                (nm, updateMM comp c v) :: cs := by
              simp [objInsertMM, h1]
            have hstep2 : mergeInsert comp ((nm, w) :: reifyFields cs) nm v =
                (nm, mergeVal comp w v) :: reifyFields cs := by
              simp [mergeInsert, h1]
            refine ⟨?_, ?_⟩
            · rw [hstep, hrf, hstep2]
              have hrw : reify (updateMM comp c v) = some (mergeVal comp w v) := by
                rw [he, hw]; simp [mergeValO]
              simp [reifyFields, hrw]
            · rw [hstep]
              simp [goodFieldsN, hg, updateMM_not_unset, hgood'.2.2]
          · obtain ⟨he, hg⟩ := ihcs hgood'.2.2
            have hstep : objInsertMM comp ((m0, c) :: cs) nm v =
                (m0, c) :: objInsertMM comp cs nm v := by
              simp [objInsertMM, h1, h2]
            have hstep2 : mergeInsert comp ((m0, w) :: reifyFields cs) nm v =
                (m0, w) :: mergeInsert comp (reifyFields cs) nm v := by
              simp [mergeInsert, h1, h2]
            refine ⟨?_, ?_⟩
            · rw [hstep, hrf, hstep2]
              simp [reifyFields, hw, he]
            · rw [hstep]
              simp [goodFieldsN, hg, hgood'.1, hgood'.2.1]
    -- Statement B at n+1
    have hB : StmtB comp (n + 1) := by
      intro fs
      induction fs with
      | nil => intro _ _ cs hgood; simp [updateFields, mergeFields, hgood]
      | cons e rest ihfs =>
        intro hsf hwf cs hgood
        obtain ⟨n0, v⟩ := e
        have hwf' : wfB v = true ∧ wfFieldsB rest = true := by
          simpa [wfFieldsB] using hwf
        have hsv : sizeOf v ≤ n + 1 := by simp at hsf; omega
        have hsr : sizeOf rest ≤ n + 1 := by simp at hsf; omega
        obtain ⟨he1, hg1⟩ := hD v hsv hwf'.1 cs n0 hgood
        obtain ⟨he2, hg2⟩ := ihfs hsr hwf'.2 (objInsertMM comp cs n0 v) hg1
        refine ⟨?_, ?_⟩
        · simp only [updateFields, mergeFields]
          rw [he2, he1]
        · simp only [updateFields]
          exact hg2
    -- Statement C at n+1
    have hC : StmtC comp (n + 1) := by
      intro vs
      induction vs with
      | nil => intro _ _ ms hgood; simp [updateElems, mergeElems, hgood]
      | cons v rest ihvs =>
        intro hsv hwf ms hgood
        have hwf' : wfB v = true ∧ wfElemsB rest = true := by
          simpa [wfElemsB] using hwf
        have hsv1 : sizeOf v ≤ n + 1 := by simp at hsv; omega
        have hsr : sizeOf rest ≤ n + 1 := by simp at hsv; omega
        cases ms with
        | nil =>
          obtain ⟨he, hg⟩ := hA v hsv1 hwf'.1 .unset (by simp [goodN])
          obtain ⟨he2, hg2⟩ := ihvs hsr hwf'.2 [] (by simp [goodElemsN])
          have hrw : reify (updateMM comp .unset v) = some (canonVal v) := by
            rw [he]; simp [mergeValO, reify]
          refine ⟨?_, ?_⟩
          · simp only [updateElems, mergeElems]
            rw [show reifyElems (updateMM comp .unset v :: updateElems comp [] rest) =
                match reify (updateMM comp .unset v) with
                | some w2 => w2 :: reifyElems (updateElems comp [] rest)
                | none => reifyElems (updateElems comp [] rest) from rfl]
            rw [hrw, he2]
            simp [reifyElems, mergeElems]
          · simp [updateElems, goodElemsN, hg, hg2, updateMM_not_unset]
        | cons m0 ms =>
          have hgood' : isUnsetN m0 = false ∧ goodN m0 = true ∧
              goodElemsN ms = true := by
            simpa [goodElemsN, and_assoc] using hgood
          obtain ⟨w, hw⟩ := reify_some_of_not_unset m0 hgood'.1
          obtain ⟨he, hg⟩ := hA v hsv1 hwf'.1 m0 hgood'.2.1
          obtain ⟨he2, hg2⟩ := ihvs hsr hwf'.2 ms hgood'.2.2
          have hrw : reify (updateMM comp m0 v) = some (mergeVal comp w v) := by
            rw [he, hw]; simp [mergeValO]
          refine ⟨?_, ?_⟩
          · simp only [updateElems]
            rw [show reifyElems (updateMM comp m0 v :: updateElems comp ms rest) =
                match reify (updateMM comp m0 v) with
                | some w2 => w2 :: reifyElems (updateElems comp ms rest)
                | none => reifyElems (updateElems comp ms rest) from rfl]
            rw [hrw, he2]
            rw [show reifyElems (m0 :: ms) =
                match reify m0 with
                | some w2 => w2 :: reifyElems ms
                | none => reifyElems ms from rfl]
            rw [hw]
            simp [mergeElems]
          · simp [updateElems, goodElemsN, hg, hg2, updateMM_not_unset]
    exact ⟨hA, hD, hB, hC⟩

/-- Non-metadata top-level fields of a measurement (the `continue` in
`MinMax::update`). -/
def stripMeta (d : List (String × BVal)) (metaField : Option String) :
    List (String × BVal) :=
  d.filter (fun e => ¬ some e.1 = metaField)

/-- Translation of `MinMax::update`: requires a `kObject` or `kUnset` root
(the source's invariant, modelled as `none`), makes the root an Object and
merges every non-metadata top-level field. -/
def updateTop (comp : Int → Int → Bool) (m : MMNode) (doc : List (String × BVal))
    (metaField : Option String) : Option MMNode :=
  match m with
  | .unset => some (.mobj false (updateFields comp [] (stripMeta doc metaField)))
  | .mobj u cs => some (.mobj u (updateFields comp cs (stripMeta doc metaField)))
  | _ => none

/-- N successive `update` calls starting from a fresh tracker. -/
def applyUpdates (comp : Int → Int → Bool) (docs : List (List (String × BVal)))
    (metaField : Option String) : Option MMNode :=
  docs.foldlM (fun m d => updateTop comp m d metaField) MMNode.unset

/-- Translation of `MinMax::toBSON` (root must be `kObject`). -/
def toBSONMM : MMNode → Option (List (String × BVal))
  | .mobj _ cs => some (reifyFields cs)
  | _ => none

/-- Specification-side element-wise extremum of N documents (ignoring the
metadata field): canonicalize the first and fold the field-wise merge over the
rest. -/
def elementwiseExtremum (comp : Int → Int → Bool)
    (docs : List (List (String × BVal))) (metaField : Option String) :
    Option (List (String × BVal)) :=
  match docs with
  | [] => none
  | d :: rest => some (rest.foldl
      (fun acc d2 => mergeFields comp acc (stripMeta d2 metaField))
      (canonFields [] (stripMeta d metaField)))

theorem updateFields_reify (comp : Int → Int → Bool) (fs : List (String × BVal))
    (cs : List (String × MMNode)) (hwf : wfFieldsB fs = true)
    (hg : goodFieldsN cs = true) :
    reifyFields (updateFields comp cs fs) = mergeFields comp (reifyFields cs) fs ∧
    goodFieldsN (updateFields comp cs fs) = true :=
  (mm_aux comp (sizeOf fs)).2.2.1 fs le_rfl hwf cs hg

theorem wfFieldsB_filter (p : String × BVal → Bool) :
    ∀ (l : List (String × BVal)), wfFieldsB l = true →
      wfFieldsB (l.filter p) = true := by
  intro l
  induction l with
  | nil => intro _; simp [wfFieldsB]
  | cons e rest ih =>
    intro h
    obtain ⟨n0, v⟩ := e
    have h' : wfB v = true ∧ wfFieldsB rest = true := by simpa [wfFieldsB] using h
    by_cases hp : p (n0, v) = true
    · simp [List.filter_cons, hp, wfFieldsB, h'.1, ih h'.2]
    · simp only [List.filter_cons, hp]
      simpa using ih h'.2

theorem wf_stripMeta (d : List (String × BVal)) (metaField : Option String)
    (h : wfB (.obj d) = true) :
    wfFieldsB (stripMeta d metaField) = true ∧
    ((stripMeta d metaField).map Prod.fst).Nodup := by
  have h' : (d.map Prod.fst).Nodup ∧ wfFieldsB d = true := by
    rw [show wfB (.obj d) = (((d.map Prod.fst).Nodup : Bool) && wfFieldsB d)
      from rfl] at h
    simpa using h
  refine ⟨wfFieldsB_filter _ d h'.2, ?_⟩
  exact h'.1.sublist (List.Sublist.map Prod.fst (List.filter_sublist d))

theorem applyUpdates_fold (comp : Int → Int → Bool) (metaField : Option String) :
    ∀ (rest : List (List (String × BVal))) (cs : List (String × MMNode)) (u : Bool),
      goodFieldsN cs = true → (∀ d ∈ rest, wfB (.obj d) = true) →
      ∃ cs2, List.foldlM (fun m d => updateTop comp m d metaField)
          (MMNode.mobj u cs) rest = some (.mobj u cs2) ∧
        reifyFields cs2 = rest.foldl
          (fun acc d => mergeFields comp acc (stripMeta d metaField))
          (reifyFields cs) ∧
        goodFieldsN cs2 = true := by
  intro rest
  induction rest with
  | nil => intro cs u hg _; exact ⟨cs, by simp, rfl, hg⟩
  | cons d rest ih =>
    intro cs u hg hwf
    have hwfd := wf_stripMeta d metaField (hwf d (by simp))
    obtain ⟨he, hgood⟩ := updateFields_reify comp (stripMeta d metaField) cs
      hwfd.1 hg
    obtain ⟨cs2, h1, h2, h3⟩ := ih (updateFields comp cs (stripMeta d metaField)) u
      hgood (fun x hx => hwf x (by simp [hx]))
    refine ⟨cs2, ?_, ?_, h3⟩
    · simpa [updateTop] using h1
    · rw [h2, List.foldl_cons, he]

/-- First half of C9: after N updates (N ≥ 1), `toBSON` equals the
element-wise extremum of the N documents with the metadata field ignored. -/
theorem minMax_toBSON_eq_extremum (comp : Int → Int → Bool)
    (docs : List (List (String × BVal))) (metaField : Option String)
    (hne : docs ≠ []) (hwf : ∀ d ∈ docs, wfB (.obj d) = true) :
    ∃ m spec, applyUpdates comp docs metaField = some m ∧
      elementwiseExtremum comp docs metaField = some spec ∧
      toBSONMM m = some spec ∧ goodN m = true := by
  match docs with
  | [] => exact absurd rfl hne
  | d :: rest =>
    have hwfd := wf_stripMeta d metaField (hwf d (by simp))
    obtain ⟨he0, hg0⟩ := updateFields_reify comp (stripMeta d metaField) []
      hwfd.1 (by simp [goodFieldsN])
    have hcanon : reifyFields (updateFields comp [] (stripMeta d metaField)) =
        canonFields [] (stripMeta d metaField) := by
      rw [he0, show reifyFields [] = [] from rfl]
      exact mergeFields_eq_canonFields comp _ [] hwfd.2 (by simp)
    obtain ⟨cs2, h1, h2, h3⟩ := applyUpdates_fold comp metaField rest
      (updateFields comp [] (stripMeta d metaField)) false hg0
      (fun x hx => hwf x (by simp [hx]))
    refine ⟨.mobj false cs2, reifyFields cs2, ?_, ?_, by simp [toBSONMM], ?_⟩
    · simp only [applyUpdates, List.foldlM_cons]
      simpa [updateTop] using h1
    · simp only [elementwiseExtremum]
      rw [h2, hcanon]
    · simpa [goodN] using h3

/-! ### The structural diff (`getUpdates` / `_appendUpdates` / `_clearUpdated`)

The C++ gathers the sub-diffs of an object level into a `StringMap` and
appends them after the update section; the map's iteration order is
unspecified, and the model uses encounter order. -/

mutual

/-- Translation of `MinMax::_clearUpdated`. -/
def clearUpdated : MMNode → MMNode
  | .unset => .unset
  | .val _ bt v sz => .val false bt v sz
  | .mobj _ cs => .mobj false (clearUpdatedFields cs)
  | .marr _ cs => .marr false (clearUpdatedElems cs)

/-- Recursive clear over object children. -/
def clearUpdatedFields : List (String × MMNode) → List (String × MMNode)
  | [] => []
  | (n, c) :: rest => (n, clearUpdated c) :: clearUpdatedFields rest

/-- Recursive clear over array children. -/
def clearUpdatedElems : List MMNode → List MMNode
  | [] => []
  | c :: rest => clearUpdated c :: clearUpdatedElems rest

end

/-- Result of `_appendUpdates` at an object level: the update section, the
sub-diff fields, the `appended` return value, and the children afterwards. -/
structure FieldsDiff where
  upd : List (String × BVal)
  subs : List (String × BVal)
  appended : Bool
  rest : List (String × MMNode)

/-- Result of `_appendUpdates` on one node. -/
structure NodeDiff where
  fields : List (String × BVal)
  appended : Bool
  node : MMNode

/-- Result of `_appendUpdates` at an array level. -/
structure ElemsDiff where
  fields : List (String × BVal)
  appended : Bool
  rest : List MMNode

mutual

/-- Translation of `MinMax::_appendUpdates` for an Object or Array node:
updated children are emitted in full (update section `u` for objects, `u<i>`
entries for arrays) and recursively cleared; non-value unchanged children are
recursed into, contributing an `s`-prefixed sub-diff when they appended
something; arrays carry the `a: true` header. -/
def appendUpdatesNode : MMNode → NodeDiff
  | .mobj u cs =>
      let r := appendUpdatesFields cs
      ⟨(if r.upd = [] then [] else [("u", BVal.obj r.upd)]) ++ r.subs,
        r.appended, .mobj u r.rest⟩
  | .marr u cs =>
      let r := appendUpdatesElems 0 cs
      ⟨("a", BVal.prim 8 1 1) :: r.fields, r.appended, .marr u r.rest⟩
  | m => ⟨[], false, m⟩

/-- The object-level walk of `_appendUpdates`. -/
def appendUpdatesFields : List (String × MMNode) → FieldsDiff
  | [] => ⟨[], [], false, []⟩
  | (n, c) :: rest =>
      let rr := appendUpdatesFields rest
      if isUpdatedN c then
        match reify c with
        | some w => ⟨(n, w) :: rr.upd, rr.subs, true, (n, clearUpdated c) :: rr.rest⟩
        | none => ⟨rr.upd, rr.subs, rr.appended, (n, c) :: rr.rest⟩
      else if isValN c then ⟨rr.upd, rr.subs, rr.appended, (n, c) :: rr.rest⟩
      else
        let sub := appendUpdatesNode c
        if sub.appended then
          ⟨rr.upd, ("s" ++ n, BVal.obj sub.fields) :: rr.subs, true,
            (n, sub.node) :: rr.rest⟩
        else ⟨rr.upd, rr.subs, rr.appended, (n, sub.node) :: rr.rest⟩

/-- The array-level walk of `_appendUpdates` (`DecimalCounter` index names). -/
def appendUpdatesElems : Nat → List MMNode → ElemsDiff
  | _, [] => ⟨[], false, []⟩
  | i, c :: rest =>
      let rr := appendUpdatesElems (i + 1) rest
      if isUpdatedN c then
        match reify c with
        | some w => ⟨("u" ++ toString i, w) :: rr.fields, true,
            clearUpdated c :: rr.rest⟩
        | none => ⟨rr.fields, rr.appended, c :: rr.rest⟩
      else if isValN c then ⟨rr.fields, rr.appended, c :: rr.rest⟩
      else
        let sub := appendUpdatesNode c
        if sub.appended then
          ⟨("s" ++ toString i, BVal.obj sub.fields) :: rr.fields, true,
            sub.node :: rr.rest⟩
        else ⟨rr.fields, rr.appended, sub.node :: rr.rest⟩

end

/-- Translation of `MinMax::getUpdates` (root must be `kObject`): the diff
document and the tracker afterwards. -/
def getUpdatesMM : MMNode → Option (List (String × BVal) × MMNode)
  | .mobj u cs =>
      let r := appendUpdatesFields cs
      some ((if r.upd = [] then [] else [("u", BVal.obj r.upd)]) ++ r.subs,
        .mobj u r.rest)
  | _ => none

mutual

/-- A node whose own dirty bit and all descendants' dirty bits are clear. -/
def cleanN : MMNode → Bool
  | .unset => true
  | .val u _ _ _ => !u
  | .mobj u cs => !u && cleanFields cs
  | .marr u cs => !u && cleanElems cs

/-- Clean object children. -/
def cleanFields : List (String × MMNode) → Bool
  | [] => true
  | (_, c) :: rest => cleanN c && cleanFields rest

/-- Clean array children. -/
def cleanElems : List MMNode → Bool
  | [] => true
  | c :: rest => cleanN c && cleanElems rest

end

mutual

theorem cleanN_clearUpdated : ∀ m : MMNode, cleanN (clearUpdated m) = true
  | .unset => by simp [clearUpdated, cleanN]
  | .val u bt v sz => by simp [clearUpdated, cleanN]
  | .mobj u cs => by
      simp [clearUpdated, cleanN, cleanFields_clearUpdated cs]
  | .marr u cs => by
      simp [clearUpdated, cleanN, cleanElems_clearUpdated cs]

theorem cleanFields_clearUpdated :
    ∀ cs : List (String × MMNode), cleanFields (clearUpdatedFields cs) = true
  | [] => by simp [clearUpdatedFields, cleanFields]
  | (n, c) :: rest => by
      simp [clearUpdatedFields, cleanFields, cleanN_clearUpdated c,
        cleanFields_clearUpdated rest]

theorem cleanElems_clearUpdated :
    ∀ cs : List MMNode, cleanElems (clearUpdatedElems cs) = true
  | [] => by simp [clearUpdatedElems, cleanElems]
  | c :: rest => by
      simp [clearUpdatedElems, cleanElems, cleanN_clearUpdated c,
        cleanElems_clearUpdated rest]

end

theorem isUpdatedN_of_cleanN (c : MMNode) (h : cleanN c = true) :
    isUpdatedN c = false := by
  cases c with
  | unset => simp [isUpdatedN]
  | val u bt v sz => simpa [cleanN, isUpdatedN] using h
  | mobj u cs =>
      simp only [cleanN, Bool.and_eq_true, Bool.not_eq_true'] at h
      simp [isUpdatedN, h.1]
  | marr u cs =>
      simp only [cleanN, Bool.and_eq_true, Bool.not_eq_true'] at h
      simp [isUpdatedN, h.1]

mutual

theorem appendUpdatesNode_clean (c : MMNode) (h : isUpdatedN c = false) :
    cleanN (appendUpdatesNode c).node = true := by
  cases c with
  | unset => simp [appendUpdatesNode, cleanN]
  | val u bt v sz =>
      simp [isUpdatedN] at h
      simp [appendUpdatesNode, cleanN, h]
  | mobj u cs =>
      simp [isUpdatedN] at h
      simp [appendUpdatesNode, cleanN, h, appendUpdatesFields_clean cs]
  | marr u cs =>
      simp [isUpdatedN] at h
      simp [appendUpdatesNode, cleanN, h, appendUpdatesElems_clean 0 cs]

theorem appendUpdatesFields_clean (cs : List (String × MMNode)) :
    cleanFields (appendUpdatesFields cs).rest = true := by
  match cs with
  | [] => simp [appendUpdatesFields, cleanFields]
  | (n, c) :: rest =>
    have hr := appendUpdatesFields_clean rest
    by_cases hu : isUpdatedN c = true
    · obtain ⟨w, hw⟩ := reify_some_of_not_unset c (by cases c <;>
        simp [isUpdatedN, isUnsetN] at hu ⊢)
      simp [appendUpdatesFields, hu, hw, cleanFields, cleanN_clearUpdated c, hr]
    · have hu' : isUpdatedN c = false := by simpa using hu
      by_cases hv : isValN c = true
      · have hcn : cleanN c = true := by
          cases c <;> simp [isValN, isUpdatedN, cleanN] at hu' hv ⊢ <;> simp [hu']
        simp [appendUpdatesFields, hu', hv, cleanFields, hcn, hr]
      · have hsub := appendUpdatesNode_clean c hu'
        by_cases ha : (appendUpdatesNode c).appended = true
        · simp [appendUpdatesFields, hu', hv, ha, cleanFields, hsub, hr]
        · simp [appendUpdatesFields, hu', hv, ha, cleanFields, hsub, hr]

theorem appendUpdatesElems_clean (i : Nat) (cs : List MMNode) :
    cleanElems (appendUpdatesElems i cs).rest = true := by
  match cs with
  | [] => simp [appendUpdatesElems, cleanElems]
  | c :: rest =>
    have hr := appendUpdatesElems_clean (i + 1) rest
    by_cases hu : isUpdatedN c = true
    · obtain ⟨w, hw⟩ := reify_some_of_not_unset c (by cases c <;>
        simp [isUpdatedN, isUnsetN] at hu ⊢)
      simp [appendUpdatesElems, hu, hw, cleanElems, cleanN_clearUpdated c, hr]
    · have hu' : isUpdatedN c = false := by simpa using hu
      by_cases hv : isValN c = true
      · have hcn : cleanN c = true := by
          cases c <;> simp [isValN, isUpdatedN, cleanN] at hu' hv ⊢ <;> simp [hu']
        simp [appendUpdatesElems, hu', hv, cleanElems, hcn, hr]
      · have hsub := appendUpdatesNode_clean c hu'
        by_cases ha : (appendUpdatesNode c).appended = true
        · simp [appendUpdatesElems, hu', hv, ha, cleanElems, hsub, hr]
        · simp [appendUpdatesElems, hu', hv, ha, cleanElems, hsub, hr]

end

mutual

theorem appendUpdatesNode_of_clean (c : MMNode) (h : cleanN c = true) :
    (appendUpdatesNode c).appended = false ∧ (appendUpdatesNode c).node = c := by
  cases c with
  | unset => simp [appendUpdatesNode]
  | val u bt v sz => simp [appendUpdatesNode]
  | mobj u cs =>
      have h' : cleanFields cs = true := by
        simp only [cleanN, Bool.and_eq_true] at h
        exact h.2
      simp [appendUpdatesNode, appendUpdatesFields_of_clean cs h']
  | marr u cs =>
      have h' : cleanElems cs = true := by
        simp only [cleanN, Bool.and_eq_true] at h
        exact h.2
      simp [appendUpdatesNode, appendUpdatesElems_of_clean 0 cs h']

theorem appendUpdatesFields_of_clean (cs : List (String × MMNode))
    (h : cleanFields cs = true) :
    appendUpdatesFields cs = ⟨[], [], false, cs⟩ := by
  match cs with
  | [] => simp [appendUpdatesFields]
  | (n, c) :: rest =>
    have h' : cleanN c = true ∧ cleanFields rest = true := by
      simpa [cleanFields] using h
    have hu : isUpdatedN c = false := isUpdatedN_of_cleanN c h'.1
    have hr := appendUpdatesFields_of_clean rest h'.2
    by_cases hv : isValN c = true
    · simp [appendUpdatesFields, hu, hv, hr]
    · obtain ⟨ha, hn⟩ := appendUpdatesNode_of_clean c h'.1
      simp [appendUpdatesFields, hu, hv, hr, ha, hn]

theorem appendUpdatesElems_of_clean (i : Nat) (cs : List MMNode)
    (h : cleanElems cs = true) :
    appendUpdatesElems i cs = ⟨[], false, cs⟩ := by
  match cs with
  | [] => simp [appendUpdatesElems]
  | c :: rest =>
    have h' : cleanN c = true ∧ cleanElems rest = true := by
      simpa [cleanElems] using h
    have hu : isUpdatedN c = false := isUpdatedN_of_cleanN c h'.1
    have hr := appendUpdatesElems_of_clean (i + 1) rest h'.2
    by_cases hv : isValN c = true
    · simp [appendUpdatesElems, hu, hv, hr]
    · obtain ⟨ha, hn⟩ := appendUpdatesNode_of_clean c h'.1
      simp [appendUpdatesElems, hu, hv, hr, ha, hn]

end

/-- Second half of C9: `getUpdates` clears every dirty bit it emitted, so an
immediately repeated `getUpdates` produces an empty diff and leaves the
tracker unchanged. -/
theorem getUpdates_clears (m : MMNode) (d : List (String × BVal)) (m2 : MMNode)
    (h : getUpdatesMM m = some (d, m2)) :
    getUpdatesMM m2 = some ([], m2) := by
  cases m with
  | unset => simp [getUpdatesMM] at h
  | val u bt v sz => simp [getUpdatesMM] at h
  | marr u cs => simp [getUpdatesMM] at h
  | mobj u cs =>
      have hm2 : m2 = .mobj u (appendUpdatesFields cs).rest := by
        simp only [getUpdatesMM, Option.some.injEq, Prod.mk.injEq] at h
        exact h.2.symm
      subst hm2
      have hclean := appendUpdatesFields_clean cs
      rw [show getUpdatesMM (.mobj u (appendUpdatesFields cs).rest) =
          (let r := appendUpdatesFields (appendUpdatesFields cs).rest
           some ((if r.upd = [] then [] else [("u", BVal.obj r.upd)]) ++ r.subs,
             .mobj u r.rest)) from rfl]
      rw [appendUpdatesFields_of_clean _ hclean]
      simp

/-- C9.  For a MinMax tracker with comparator `comp` (`ltComp` for `_min`,
`gtComp` for `_max`), after N ≥ 1 `update` calls with well-formed documents
the tracker's `toBSON` equals the element-wise extremum of those N documents
ignoring the metadata field, and `getUpdates` clears all dirty bits so that a
second immediate `getUpdates` emits an empty diff. -/
theorem minMax_update_fold_and_getUpdates_clears (comp : Int → Int → Bool)
    (docs : List (List (String × BVal))) (metaField : Option String)
    (hne : docs ≠ []) (hwf : ∀ d ∈ docs, wfB (.obj d) = true) :
    ∃ m spec, applyUpdates comp docs metaField = some m ∧
      elementwiseExtremum comp docs metaField = some spec ∧
      toBSONMM m = some spec ∧
      ∀ d2 m2, getUpdatesMM m = some (d2, m2) → getUpdatesMM m2 = some ([], m2) := by
  obtain ⟨m, spec, h1, h2, h3, _⟩ :=
    minMax_toBSON_eq_extremum comp docs metaField hne hwf
  exact ⟨m, spec, h1, h2, h3, fun d2 m2 h => getUpdates_clears m d2 m2 h⟩

/-- Witness for C9: the min tracker over two concrete documents with a
metadata field. -/
theorem minMax_update_fold_witness :
    ∃ m spec, applyUpdates ltComp
        [[("m", BVal.prim 2 0 6), ("a", BVal.prim 1 5 8)],
         [("m", BVal.prim 2 1 6), ("a", BVal.prim 1 3 8)]] (some "m") = some m ∧
      elementwiseExtremum ltComp
        [[("m", BVal.prim 2 0 6), ("a", BVal.prim 1 5 8)],
         [("m", BVal.prim 2 1 6), ("a", BVal.prim 1 3 8)]] (some "m") = some spec ∧
      toBSONMM m = some spec ∧
      ∀ d2 m2, getUpdatesMM m = some (d2, m2) → getUpdatesMM m2 = some ([], m2) :=
  minMax_update_fold_and_getUpdates_clears ltComp
    [[("m", BVal.prim 2 0 6), ("a", BVal.prim 1 5 8)],
     [("m", BVal.prim 2 1 6), ("a", BVal.prim 1 3 8)]] (some "m")
    (by simp) (by decide)

/-! ## The catalog state machine (C2, C6, C8)

Sequential (single-thread interleaving) semantics of the public operations.
`invariant(...)` and undefined behaviour (dangling dereference, double promise
resolution) are modelled as the `none` of the outer `Option`: the operation
does not return.  All locks collapse under sequential execution. -/

/-- Server parameters and TimeseriesOptions limits used by the catalog. -/
structure CatalogParams where
  bucketMaxCount : Nat
  bucketMaxSize : Nat
  bucketMaxSpanSeconds : Nat
  idleBucketExpiryMemoryUsageThreshold : Nat
  deriving Repr, DecidableEq

/-- Model of `BucketCatalog::Bucket`.  `counter` is the allocation identity
(the C++ pointer); the OID is `(counter, oidTime)`. -/
structure Bucket where
  counter : Nat
  oidTime : Int
  ns : String
  metadata : List (String × BVal)
  sortedMeta : List (String × BVal)
  fieldNames : List String
  numMeasurements : Nat
  numCommittedMeasurements : Nat
  size : Nat
  latestTime : Int
  minT : MMNode
  maxT : MMNode
  memoryUsage : Nat
  full : Bool
  batches : List (Nat × Nat)
  preparedBatch : Option Nat
  deriving Repr

/-- OID of a bucket. -/
def Bucket.oid (b : Bucket) : OID := (b.counter, b.oidTime)

/-- Model of `Bucket::_hasBeenCommitted`. -/
def Bucket.hasBeenCommittedB (b : Bucket) : Bool :=
  !(b.numCommittedMeasurements == 0) || b.preparedBatch.isSome

/-- Model of `Bucket::allCommitted`. -/
def Bucket.allCommittedB (b : Bucket) : Bool :=
  b.batches.isEmpty && b.preparedBatch.isNone

/-- Model of `BucketCatalog`. -/
structure Catalog where
  allBuckets : List Bucket
  openBuckets : List ((String × List (String × BVal)) × Nat)
  idleBuckets : List Nat
  bucketStates : StateMap
  executionStatsNs : List String
  memoryUsage : Nat
  batchStore : List (Nat × WriteBatch)
  nextCounter : Nat
  nextBatchId : Nat
  deriving Repr

/-- Pointer lookup in the live set (`_allBuckets.find`). -/
def findBucket (c : Catalog) (k : Nat) : Option Bucket :=
  c.allBuckets.find? (fun b => b.counter == k)

/-- Replace the live-set entry with the same counter. -/
def replaceBucketL (l : List Bucket) (b2 : Bucket) : List Bucket :=
  l.map (fun x => if x.counter = b2.counter then b2 else x)

/-- Replace a bucket in the catalog. -/
def replaceBucket (c : Catalog) (b2 : Bucket) : Catalog :=
  { c with allBuckets := replaceBucketL c.allBuckets b2 }

/-- Key lookup in `_openBuckets`. -/
def lookupOpen (c : Catalog) (key : String × List (String × BVal)) : Option Nat :=
  match c.openBuckets.find? (fun e => e.1 == key) with
  | some e => some e.2
  | none => none

/-- Batch-store lookup (a `shared_ptr<WriteBatch>` handle). -/
def lookupBatch (c : Catalog) (bid : Nat) : Option WriteBatch :=
  match c.batchStore.find? (fun e => e.1 == bid) with
  | some e => some e.2
  | none => none

/-- Batch-store update. -/
def setBatch (c : Catalog) (bid : Nat) (wb : WriteBatch) : Catalog :=
  { c with batchStore := c.batchStore.map (fun e => if e.1 = bid then (bid, wb) else e) }

/-- Model of `MinMax::getMemoryUsage` as a recursive formula (the C++
maintains it incrementally; value nodes abstract `_value.objsize()` to the
stored element size). -/
def kSizeofMinMax : Nat := 112

mutual

/-- Memory estimate of a MinMax subtree. -/
def mmUsage : MMNode → Nat
  | .unset => 0
  | .val _ _ _ sz => sz
  | .mobj _ cs => kSizeofMinMax * cs.length + mmUsageFields cs
  | .marr _ cs => kSizeofMinMax * cs.length + mmUsageElems cs

/-- Memory of object children. -/
def mmUsageFields : List (String × MMNode) → Nat
  | [] => 0
  | (_, c) :: rest => mmUsage c + mmUsageFields rest

/-- Memory of array children. -/
def mmUsageElems : List MMNode → Nat
  | [] => 0
  | c :: rest => mmUsage c + mmUsageElems rest

end

/-- Sizeof constants for the newly-minted-bucket memory contribution
(`sizeof(std::unique_ptr<Bucket>)` and two raw pointers on 64-bit). -/
def kSizeofUniquePtrBucket : Nat := 8
/-- Size of a raw `Bucket*`. -/
def kSizeofBucketPtr : Nat := 8

/-- Model of `_markBucketIdle`. -/
def markIdle (c : Catalog) (k : Nat) : Catalog :=
  { c with idleBuckets := k :: c.idleBuckets }

/-- Model of `_markBucketNotIdle`. -/
def markNotIdle (c : Catalog) (k : Nat) : Catalog :=
  { c with idleBuckets := c.idleBuckets.filter (fun x => ¬ x = k) }

/-- Translation of `BucketCatalog::_removeBucket`: `false` if the bucket is
not live; invariants require no batches and no prepared batch; subtracts the
bucket's memory, drops it from the idle list, the open index, the state map
and the live set. -/
def removeBucket (c : Catalog) (k : Nat) : Option (Bool × Catalog) :=
  match findBucket c k with
  | none => some (false, c)
  | some b =>
    if b.batches = [] ∧ b.preparedBatch = none then
      some (true,
        { c with
          memoryUsage := c.memoryUsage - b.memoryUsage,
          idleBuckets := c.idleBuckets.filter (fun x => ¬ x = k),
          openBuckets := c.openBuckets.filter (fun e => ¬ e.1 = (b.ns, b.sortedMeta)),
          bucketStates := eraseState c.bucketStates b.oid,
          allBuckets := c.allBuckets.filter (fun x => ¬ x.counter = k) })
    else none

/-- One-at-a-time loop of `_expireIdleBuckets` (evicts the least recently
used idle bucket while over the memory threshold); the fuel bounds the loop
by the idle-list length, and a dangling idle entry — on which the C++ loop
would never terminate — is modelled as non-return. -/
def expireIdle (p : CatalogParams) : Nat → Catalog → Option Catalog
  | 0, c => some c
  | fuel + 1, c =>
    if c.memoryUsage > p.idleBucketExpiryMemoryUsageThreshold ∧ c.idleBuckets ≠ [] then
      match c.idleBuckets.getLast? with
      | none => some c
      | some k =>
        match removeBucket c k with
        | none => none
        | some (removed, c2) => if removed then expireIdle p fuel c2 else none
    else some c

/-- Entry point of `_expireIdleBuckets`. -/
def expireIdleBuckets (p : CatalogParams) (c : Catalog) : Option Catalog :=
  expireIdle p c.idleBuckets.length c

/-- Translation of `_allocateBucket`: expire idle buckets, insert a fresh
bucket, stamp its OID with the measurement time in seconds, state `kNormal`,
and point the open index at it. -/
def allocateBucket (p : CatalogParams) (c : Catalog) (ns : String)
    (sortedMeta : List (String × BVal)) (time : Int) : Option (Nat × Catalog) :=
  match expireIdleBuckets p c with
  | none => none
  | some c1 =>
    let k := c1.nextCounter
    let b : Bucket :=
      { counter := k, oidTime := time / 1000, ns := "", metadata := [],
        sortedMeta := [], fieldNames := [], numMeasurements := 0,
        numCommittedMeasurements := 0, size := 0, latestTime := 0,
        minT := .unset, maxT := .unset, memoryUsage := 0, full := false,
        batches := [], preparedBatch := none }
    some (k, { c1 with
      allBuckets := b :: c1.allBuckets,
      nextCounter := k + 1,
      bucketStates := ((k, time / 1000), BucketState.kNormal) :: c1.bucketStates,
      openBuckets := ((ns, sortedMeta), k) ::
        c1.openBuckets.filter (fun e => ¬ e.1 = (ns, sortedMeta)) })

/-- Translation of `_setIdTimestamp` (the open-time rewind): restamp the OID
and rekey the state entry as `kNormal`. -/
def setIdTimestampC (c : Catalog) (b : Bucket) (time : Int) : Catalog × Bucket :=
  let b2 := { b with oidTime := time / 1000 }
  ({ (replaceBucket c b2) with
      bucketStates := ((b2.counter, b2.oidTime), BucketState.kNormal) ::
        eraseState c.bucketStates b.oid }, b2)

/-- Abort one batch in the store (`WriteBatch::_abort`); non-return if its
promise is already resolved. -/
def abortStoredBatch (c : Catalog) (bid : Nat) : Option Catalog :=
  match lookupBatch c bid with
  | none => none
  | some wb =>
    match wb.abortW with
    | none => none
    | some wb2 => some (setBatch c bid wb2)

/-- Abort every batch in a list. -/
def abortStoredBatches (c : Catalog) : List Nat → Option Catalog
  | [] => some c
  | bid :: rest =>
    match abortStoredBatch c bid with
    | none => none
    | some c2 => abortStoredBatches c2 rest

/-- Translation of `BucketCatalog::_abort(lk, bucket, batch)`: abort all the
bucket's active batches, abort the prepared batch only if it is the given
one, clear the slot, then remove the bucket. -/
def abortBucket (c : Catalog) (k : Nat) (batchOpt : Option Nat) : Option Catalog :=
  match findBucket c k with
  | none => none
  | some b =>
    match abortStoredBatches c (b.batches.map (fun e => e.2)) with
    | none => none
    | some c1 =>
      let handlePrepared : Option Catalog :=
        match b.preparedBatch with
        | none => some c1
        | some pid => if batchOpt = some pid then abortStoredBatch c1 pid else some c1
      match handlePrepared with
      | none => none
      | some c2 =>
        let b2 := { b with batches := [], preparedBatch := none }
        match removeBucket (replaceBucket c2 b2) k with
        | some (true, c3) => some c3
        | _ => none

/-- Translation of the `BucketAccess` key constructor (sequential): an open
bucket in state `kNormal`/`kPrepared` is used (and un-idled); a cleared open
bucket is aborted and replaced; a missing key allocates. -/
def bucketAccessKey (p : CatalogParams) (c : Catalog) (ns : String)
    (sortedMeta : List (String × BVal)) (time : Int) : Option (Nat × Catalog) :=
  match lookupOpen c (ns, sortedMeta) with
  | some k =>
    match findBucket c k with
    | none => none
    | some b =>
      match lookupState c.bucketStates b.oid with
      | none => none
      | some st =>
        if st = .kNormal ∨ st = .kPrepared then some (k, markNotIdle c k)
        else
          match abortBucket c k none with
          | none => none
          | some c2 => allocateBucket p c2 ns sortedMeta time
  | none => allocateBucket p c ns sortedMeta time

/-- Translation of `Bucket::_activeBatch`: the per-session batch, created on
first use. -/
def activeBatch (c : Catalog) (b : Bucket) (lsid : Nat) : Nat × Bucket × Catalog :=
  match b.batches.find? (fun e => e.1 == lsid) with
  | some e => (e.2, b, c)
  | none =>
    let bid := c.nextBatchId
    let wb : WriteBatch :=
      { bucketId := some b.counter, lsid := lsid, measurements := [],
        newFieldNamesToBeInserted := [], active := true, commitRights := false,
        numPreviouslyCommittedMeasurements := 0, promise := none,
        minPayload := [], maxPayload := [] }
    (bid, { b with batches := b.batches ++ [(lsid, bid)] },
      { c with batchStore := (bid, wb) :: c.batchStore, nextBatchId := bid + 1 })

/-- The `doc[timeField]` validation of `insert`: present and of Date type. -/
def dateField (doc : List (String × BVal)) (timeField : String) : Option Int :=
  match lookupField doc timeField with
  | some (.prim bt t _) => if bt = 9 then some t else none
  | _ => none

/-- The metadata sub-object computed at the top of `insert` (the element under
`metaField`, or an appended null when the document lacks it). -/
def insertMetadata (doc : List (String × BVal)) (metaField : Option String) :
    List (String × BVal) :=
  match metaField with
  | some mf =>
    match lookupField doc mf with
    | some v => [(mf, v)]
    | none => [(mf, .prim 10 0 0)]
  | none => []

/-- `BucketMetadata::getMetaField` (first element field name; empty if the
metadata object is empty) as passed to `MinMax::update`. -/
def metaFieldOf (b : Bucket) : Option String :=
  some (match b.metadata.head? with
        | some e => e.1
        | none => "")

/-- `_getExecutionStats` (non-const): creates the per-namespace entry. -/
def registerStats (c : Catalog) (ns : String) : Catalog :=
  { c with executionStatsNs :=
      if ns ∈ c.executionStatsNs then c.executionStatsNs else ns :: c.executionStatsNs }

/-- The tail of `insert` after a usable bucket is held: append to the
session's active batch, bump the counters and do the memory accounting. -/
def insertFinish (c : Catalog) (b : Bucket) (ns : String)
    (metadata sortedMeta : List (String × BVal)) (lsid : Nat) (time : Int)
    (doc : List (String × BVal)) (calcR : CalcResult) :
    Option (Nat × Catalog) :=
  match activeBatch c b lsid with
  | (bid, b1, c1) =>
    match lookupBatch c1 bid with
    | none => none
    | some wb =>
      if wb.active = false then none   -- invariant(_active) in _addMeasurement
      else
        let wb2 := { wb with
          measurements := wb.measurements ++ [doc],
          newFieldNamesToBeInserted :=
            calcR.newFieldNamesToBeInserted.foldl setInsert
              wb.newFieldNamesToBeInserted }
        let c2 := setBatch c1 bid wb2
        let b2 := { b1 with
          numMeasurements := b1.numMeasurements + 1,
          size := b1.size + calcR.sizeToBeAdded,
          latestTime := if time > b1.latestTime then time else b1.latestTime }
        if b2.ns = "" then
          let b3 := { b2 with
            ns := ns, metadata := metadata, sortedMeta := sortedMeta,
            memoryUsage := b2.memoryUsage + ns.length * 2 +
              objsize metadata * 2 + kSizeofUniquePtrBucket + 2 * kSizeofBucketPtr }
          let c3 := replaceBucket c2 b3
          some (bid, { c3 with memoryUsage := c3.memoryUsage + b3.memoryUsage })
        else
          let c3 := replaceBucket c2 b2
          some (bid,
            { c3 with memoryUsage :=
                c3.memoryUsage - b2.memoryUsage + b2.memoryUsage })

/-- The fullness-and-rollover step of `insert` (sequential: the rollover
re-find returns the same bucket, so the predicate is not re-evaluated). -/
def insertRollover (p : CatalogParams) (c : Catalog) (b : Bucket) (ns : String)
    (sortedMeta : List (String × BVal)) (time : Int) :
    Option (Nat × Catalog) :=
  if b.allCommittedB then
    match removeBucket c b.counter with
    | some (true, c2) => allocateBucket p c2 ns sortedMeta time
    | _ => none
  else
    allocateBucket p (replaceBucket c { b with full := true }) ns sortedMeta time

/-- Translation of `BucketCatalog::insert` (sequential semantics).  Returns
`BadValue` synchronously on a missing or non-Date time field; otherwise the
id of the write batch the measurement was appended to. -/
def insertOp (p : CatalogParams) (c : Catalog) (ns timeField : String)
    (metaField : Option String) (lsid : Nat) (doc : List (String × BVal)) :
    Option (Except ErrCode Nat × Catalog) :=
  let metadata := insertMetadata doc metaField
  let sortedMeta := normalizeObjectM metadata
  let c0 := registerStats c ns
  match dateField doc timeField with
  | none => some (.error .badValue, c0)
  | some time =>
    match bucketAccessKey p c0 ns sortedMeta time with
    | none => none
    | some (k, c1) =>
      match findBucket c1 k with
      | none => none
      | some b =>
        let calc1 := calculateBucketFieldsAndSizeChange b.fieldNames
          b.numMeasurements metaField doc
        let lim : TimeseriesLimits :=
          ⟨p.bucketMaxCount, p.bucketMaxSize, p.bucketMaxSpanSeconds⟩
        let view : BucketFullView :=
          ⟨b.numMeasurements, b.size, b.oidTime, b.latestTime, b.hasBeenCommittedB⟩
        match isBucketFull lim ⟨0, 0, 0, 0⟩ view time calc1.sizeToBeAdded with
        | (isFull, _, view2) =>
          if ¬ b.ns = "" ∧ isFull = true then
            match insertRollover p c1 b ns sortedMeta time with
            | none => none
            | some (k2, c2) =>
              match findBucket c2 k2 with
              | none => none
              | some b2 =>
                let calc2 := calculateBucketFieldsAndSizeChange b2.fieldNames
                  b2.numMeasurements metaField doc
                match insertFinish c2 b2 ns metadata sortedMeta lsid time doc calc2 with
                | none => none
                | some (bid, c3) => some (.ok bid, c3)
          else
            -- apply the open-time rewind if branch (5) fired
            let cb : Catalog × Bucket :=
              if view2.bucketTimeSec ≠ view.bucketTimeSec then
                setIdTimestampC c1 b time
              else (c1, b)
            match insertFinish cb.1 cb.2 ns metadata sortedMeta lsid time doc calc1 with
            | none => none
            | some (bid, c3) => some (.ok bid, c3)

/-- Result of `prepareCommit`: `ok`/`fail` with the catalog afterwards, or
`blocked` when the sequential execution would wait on another prepared batch
(no state was modified yet). -/
inductive PrepareResult where
  | ok (c : Catalog)
  | fail (c : Catalog)
  | blocked
  deriving Repr

/-- The batch-side `_prepareCommit` plus the catalog's memory adjustment, for
a held bucket. -/
def prepareBatchOnBucket (c : Catalog) (b : Bucket) (bid : Nat) (wb : WriteBatch) :
    Option Catalog :=
  if wb.commitRights = true ∧ wb.active = true then
    let numPrev := b.numCommittedMeasurements
    let kept := wb.newFieldNamesToBeInserted.filter (fun x => ¬ x ∈ b.fieldNames)
    let prevMem := b.memoryUsage
    let mf := metaFieldOf b
    match wb.measurements.foldlM (fun mm d => updateTop ltComp mm d mf) b.minT with
    | none => none
    | some minT2 =>
      match wb.measurements.foldlM (fun mm d => updateTop gtComp mm d mf) b.maxT with
      | none => none
      | some maxT2 =>
        let isUpdate := 0 < numPrev
        match (if isUpdate then getUpdatesMM minT2 else
            (toBSONMM minT2).map (fun d => (d, minT2))) with
        | none => none
        | some (minPayload, minT3) =>
          match (if isUpdate then getUpdatesMM maxT2 else
              (toBSONMM maxT2).map (fun d => (d, maxT2))) with
          | none => none
          | some (maxPayload, maxT3) =>
            let b2 := { b with
              fieldNames := b.fieldNames ++ kept,
              minT := minT3, maxT := maxT3,
              memoryUsage := b.memoryUsage - (mmUsage b.minT + mmUsage b.maxT)
                + (mmUsage minT3 + mmUsage maxT3),
              preparedBatch := some bid,
              batches := b.batches.filter (fun e => ¬ e.1 = wb.lsid) }
            let wb2 := { wb with
              active := false,
              numPreviouslyCommittedMeasurements := numPrev,
              newFieldNamesToBeInserted := kept,
              minPayload := minPayload, maxPayload := maxPayload }
            let c1 := setBatch (replaceBucket c b2) bid wb2
            some { c1 with memoryUsage :=
              c1.memoryUsage - prevMem + b2.memoryUsage }
  else none

/-- Translation of `BucketCatalog::prepareCommit` (sequential).  The
`_waitToCommitBatch` loop is unrolled once: an occupied prepared slot is the
`blocked` outcome. -/
def prepareCommitOp (c : Catalog) (bid : Nat) : Option PrepareResult :=
  match lookupBatch c bid with
  | none => none
  | some wb =>
    if wb.finishedW = true then some (.fail c)
    else
      match wb.bucketId with
      | none => none
      | some k =>
        match findBucket c k with
        | none =>
          -- the wait returns, the re-acquire fails: abort(batch), false
          if wb.commitRights = true then
            match abortStoredBatch c bid with
            | none => none
            | some c2 => some (.fail c2)
          else none
        | some b =>
          match lookupState c.bucketStates b.oid with
          | none => none
          | some st =>
            if st = .kCleared then
              -- released by both accesses: abort(batch) takes the full path
              if wb.commitRights = true then
                match abortBucket c k (some bid) with
                | none => none
                | some c2 => some (.fail c2)
              else none
            else
              match b.preparedBatch with
              | some _ => some .blocked
              | none =>
                match setBucketState c.bucketStates b.oid .kPrepared with
                | none => none
                | some (res, states2) =>
                  if res = none then none   -- invariant(_setBucketState(...))
                  else
                    match prepareBatchOnBucket
                        { c with bucketStates := states2 } b bid wb with
                    | none => none
                    | some c2 => some (.ok c2)

/-- Translation of `BucketCatalog::finish`. -/
def finishOp (c : Catalog) (bid : Nat) (info : CommitInfo) : Option Catalog :=
  match lookupBatch c bid with
  | none => none
  | some wb =>
    if wb.finishedW = true ∨ wb.active = true then none   -- invariants
    else
      match wb.bucketId with
      | none => none
      | some k =>
        -- BucketAccess(this, batch->bucket()): crash / null / held
        let access : Option (Option Bucket) :=
          match findBucket c k with
          | none => some none
          | some b =>
            match lookupState c.bucketStates b.oid with
            | none => none
            | some st => if st = .kCleared then some none else some (some b)
        match access with
        | none => none
        | some acc =>
          match wb.finishW info with
          | none => none
          | some wb2 =>
            let c1 := setBatch c bid wb2
            match acc with
            | none => some c1
            | some b =>
              match setBucketState c1.bucketStates b.oid .kNormal with
              | none => none
              | some (res, states2) =>
                if res = none then none
                else
                  let b2 := { b with preparedBatch := none }
                  let b3 := if info.result = .ok then
                      { b2 with numCommittedMeasurements :=
                          b2.numCommittedMeasurements + wb.measurements.length }
                    else b2
                  let c2 := replaceBucket { c1 with bucketStates := states2 } b3
                  if b3.allCommittedB = true then
                    if b3.full = true then
                      some { c2 with
                        memoryUsage := c2.memoryUsage - b3.memoryUsage,
                        idleBuckets := c2.idleBuckets.filter (fun x => ¬ x = k),
                        bucketStates := eraseState c2.bucketStates b3.oid,
                        allBuckets := c2.allBuckets.filter (fun x => ¬ x.counter = k) }
                    else some (markIdle c2 k)
                  else some c2

/-- Translation of `BucketCatalog::abort(batch)`. -/
def abortOp (c : Catalog) (bid : Nat) : Option Catalog :=
  match lookupBatch c bid with
  | none => none
  | some wb =>
    if wb.commitRights = false then none   -- invariant(_commitRights)
    else if wb.finishedW = true then
      -- invariant(getResult() == TimeseriesBucketCleared)
      if wb.promise = some (.error .timeseriesBucketCleared) then some c else none
    else
      match wb.bucketId with
      | none => none
      | some k =>
        match findBucket c k with
        | none =>
          match abortStoredBatch c bid with
          | none => none
          | some c2 => some c2
        | some _ => abortBucket c k (some bid)

/-- Translation of `BucketCatalog::clear(const OID&)` on the catalog state;
the Bool reports the thrown `WriteConflictException`. -/
def clearOp (c : Catalog) (oid : OID) : Option (Bool × Catalog) :=
  match clearBucketState c.bucketStates oid with
  | none => none
  | some (states2, threw) => some (threw, { c with bucketStates := states2 })

/-- One public catalog operation. -/
inductive CatalogOp where
  | insert (ns timeField : String) (metaField : Option String) (lsid : Nat)
      (doc : List (String × BVal))
  | prepareCommit (bid : Nat)
  | finish (bid : Nat) (info : CommitInfo)
  | abort (bid : Nat)
  | clear (oid : OID)

/-- The catalog state after a public operation returns (`none` when the
operation does not return: an invariant fired, or — for `prepareCommit` — the
caller is still parked on another batch, in which case the state is the
untouched one). -/
def stepCatalog (p : CatalogParams) (c : Catalog) : CatalogOp → Option Catalog
  | .insert ns tf mf lsid doc => (insertOp p c ns tf mf lsid doc).map (fun r => r.2)
  | .prepareCommit bid =>
    match prepareCommitOp c bid with
    | some (.ok c2) => some c2
    | some (.fail c2) => some c2
    | some .blocked => some c
    | none => none
  | .finish bid info => finishOp c bid info
  | .abort bid => abortOp c bid
  | .clear oid => (clearOp c oid).map (fun r => r.2)

/-! ### C2: the synchronous BadValue path of `insert` -/

/-- C2 (amended).  When `doc[timeField]` is missing or not of Date type,
`insert` returns `BadValue` synchronously with no `WriteBatch`; no bucket is
created or modified and no bucket-related state changes — the only state
effect is that the per-namespace execution-stats entry is created by the
`_getExecutionStats` call that precedes the validation. -/
theorem insert_badValue_leaves_buckets_unchanged (p : CatalogParams) (c : Catalog)
    (ns timeField : String) (metaField : Option String) (lsid : Nat)
    (doc : List (String × BVal)) (h : dateField doc timeField = none) :
    insertOp p c ns timeField metaField lsid doc =
      some (.error .badValue, registerStats c ns) ∧
    (registerStats c ns).allBuckets = c.allBuckets ∧
    (registerStats c ns).openBuckets = c.openBuckets ∧
    (registerStats c ns).idleBuckets = c.idleBuckets ∧
    (registerStats c ns).bucketStates = c.bucketStates ∧
    (registerStats c ns).memoryUsage = c.memoryUsage ∧
    (registerStats c ns).batchStore = c.batchStore ∧
    (registerStats c ns).executionStatsNs =
      (if ns ∈ c.executionStatsNs then c.executionStatsNs
       else ns :: c.executionStatsNs) := by
  refine ⟨?_, rfl, rfl, rfl, rfl, rfl, rfl, rfl⟩
  simp only [insertOp, h]

/-- Witness for the amended C2: a concrete document whose time field is a
string, inserted into the empty catalog. -/
theorem insert_badValue_witness :
    insertOp ⟨1000, 125000, 3600, 100000⟩
        ⟨[], [], [], [], [], 0, [], 0, 0⟩ "db.coll" "time" none 7
        [("time", BVal.prim 2 0 6), ("x", BVal.prim 1 5 8)] =
      some (.error .badValue,
        registerStats ⟨[], [], [], [], [], 0, [], 0, 0⟩ "db.coll") :=
  (insert_badValue_leaves_buckets_unchanged ⟨1000, 125000, 3600, 100000⟩
    ⟨[], [], [], [], [], 0, [], 0, 0⟩ "db.coll" "time" none 7
    [("time", BVal.prim 2 0 6), ("x", BVal.prim 1 5 8)] (by decide)).1

/-- Counterexample to C2 as stated: a failed insert is not free of catalog
state changes — on a namespace without a stats entry, the failed call leaves
the per-namespace execution-stats registry changed (observable through the
server-status section, which reports nothing only while the registry is
empty). -/
theorem insert_badValue_state_change_counterexample :
    (∃ c2, insertOp ⟨1000, 125000, 3600, 100000⟩
        ⟨[], [], [], [], [], 0, [], 0, 0⟩ "db.coll" "time" none 7
        [("time", BVal.prim 2 0 6)] = some (.error .badValue, c2) ∧
      c2 ≠ ⟨[], [], [], [], [], 0, [], 0, 0⟩) := by
  refine ⟨registerStats ⟨[], [], [], [], [], 0, [], 0, 0⟩ "db.coll", ?_, ?_⟩
  · rfl
  · intro hcontra
    have : ("db.coll" : String) ∈ ([] : List String) := by
      have h2 := congrArg Catalog.executionStatsNs hcontra
      simp [registerStats] at h2
    simp at this

/-! ### Lookup stability lemmas for the catalog model -/

theorem lookupState_setStateAt (m : StateMap) (id : OID) (s s0 : BucketState)
    (h : lookupState m id = some s0) :
    lookupState (setStateAt m id s) id = some s := by
  induction m with
  | nil => simp [lookupState] at h
  | cons e rest ih =>
    by_cases he : e.1 = id
    · simp [setStateAt, lookupState, he]
    · simp only [lookupState, he, if_false, ite_false] at h
      simp only [setStateAt, he]
      simp only [lookupState, he, ite_false]
      exact ih (by simpa [lookupState, he] using h)

theorem find_replaceL (k : Nat) (b b2 : Bucket) (hk : b2.counter = k) :
    ∀ l : List Bucket, l.find? (fun x => x.counter == k) = some b →
      (replaceBucketL l b2).find? (fun x => x.counter == k) = some b2 := by
  intro l
  induction l with
  | nil => intro h; simp at h
  | cons x rest ih =>
    intro h
    by_cases hx : x.counter = k
    · simp [replaceBucketL, hx, hk, List.find?_cons]
    · rw [List.find?_cons_of_neg _ (by simp [hx])] at h
      simp only [replaceBucketL, List.map_cons]
      rw [if_neg (by rw [hk]; exact hx)]
      rw [List.find?_cons_of_neg _ (by simp [hx])]
      exact ih h

theorem findBucket_replace (c : Catalog) (k : Nat) (b b2 : Bucket)
    (h : findBucket c k = some b) (hk : b2.counter = k) :
    findBucket (replaceBucket c b2) k = some b2 :=
  find_replaceL k b b2 hk c.allBuckets h

theorem findBucket_mem (c : Catalog) (k : Nat) (b : Bucket)
    (h : findBucket c k = some b) : b ∈ c.allBuckets ∧ b.counter = k := by
  constructor
  · exact List.mem_of_find?_eq_some h
  · have := List.find?_some h
    simpa using this

theorem find_setBatchL (bid : Nat) (wb2 : WriteBatch) :
    ∀ l : List (Nat × WriteBatch),
      (l.find? (fun e => e.1 == bid)).isSome = true →
      (l.map (fun e => if e.1 = bid then (bid, wb2) else e)).find?
        (fun e => e.1 == bid) = some (bid, wb2) := by
  intro l
  induction l with
  | nil => intro h; simp at h
  | cons e rest ih =>
    intro h
    by_cases he : e.1 = bid
    · simp [List.map_cons, he, List.find?_cons]
    · rw [List.map_cons, if_neg he]
      rw [List.find?_cons_of_neg _ (by simp [he])]
      rw [List.find?_cons_of_neg _ (by simp [he])] at h
      exact ih h

theorem find_setBatchL_ne (bid bid2 : Nat) (wb2 : WriteBatch) (hne : ¬ bid2 = bid) :
    ∀ l : List (Nat × WriteBatch),
      (l.map (fun e => if e.1 = bid then (bid, wb2) else e)).find?
        (fun e => e.1 == bid2) = l.find? (fun e => e.1 == bid2) := by
  intro l
  induction l with
  | nil => simp
  | cons e rest ih =>
    by_cases he : e.1 = bid
    · rw [List.map_cons, if_pos he]
      rw [List.find?_cons_of_neg _ (by simp; omega),
        List.find?_cons_of_neg _ (by simp [he]; omega)]
      exact ih
    · rw [List.map_cons, if_neg he]
      by_cases h2 : e.1 = bid2
      · simp [List.find?_cons, h2]
      · rw [List.find?_cons_of_neg _ (by simp [h2]),
          List.find?_cons_of_neg _ (by simp [h2])]
        exact ih

theorem lookupBatch_setBatch_eq (c : Catalog) (bid : Nat) (wb wb2 : WriteBatch)
    (h : lookupBatch c bid = some wb) :
    lookupBatch (setBatch c bid wb2) bid = some wb2 := by
  have hs : (c.batchStore.find? (fun e => e.1 == bid)).isSome = true := by
    unfold lookupBatch at h
    cases hf : c.batchStore.find? (fun e => e.1 == bid) with
    | none => rw [hf] at h; simp at h
    | some e => rfl
  unfold lookupBatch setBatch
  simp only
  rw [find_setBatchL bid wb2 c.batchStore hs]

theorem lookupBatch_setBatch_ne (c : Catalog) (bid bid2 : Nat) (wb2 : WriteBatch)
    (hne : ¬ bid2 = bid) :
    lookupBatch (setBatch c bid wb2) bid2 = lookupBatch c bid2 := by
  unfold lookupBatch setBatch
  simp only
  rw [find_setBatchL_ne bid bid2 wb2 hne c.batchStore]

theorem lookupBatch_replaceBucket (c : Catalog) (b2 : Bucket) (bid : Nat) :
    lookupBatch (replaceBucket c b2) bid = lookupBatch c bid := rfl

theorem abortStoredBatch_spec (c : Catalog) (bid : Nat) (wb : WriteBatch)
    (h : lookupBatch c bid = some wb) (hp : wb.promise = none) :
    abortStoredBatch c bid = some (setBatch c bid
      { wb with active := false,
                promise := some (.error .timeseriesBucketCleared),
                bucketId := none }) := by
  simp [abortStoredBatch, h, WriteBatch.abortW, hp]

theorem abortStoredBatches_resolved (bid : Nat) (wb : WriteBatch)
    (hres : wb.promise.isSome = true) :
    ∀ (ids : List Nat) (c c2 : Catalog),
      abortStoredBatches c ids = some c2 → lookupBatch c bid = some wb →
      lookupBatch c2 bid = some wb := by
  intro ids
  induction ids with
  | nil => intro c c2 h hb; simp [abortStoredBatches] at h; rw [← h]; exact hb
  | cons id0 rest ih =>
    intro c c2 h hb
    simp only [abortStoredBatches] at h
    match hstep : abortStoredBatch c id0 with
    | none => rw [hstep] at h; simp at h
    | some c1 =>
      rw [hstep] at h
      by_cases he : id0 = bid
      · subst he
        have habort : wb.abortW = none := by
          obtain ⟨r, hr⟩ := Option.isSome_iff_exists.1 hres
          simp [WriteBatch.abortW, hr]
        simp [abortStoredBatch, hb, habort] at hstep
      · refine ih c1 c2 h ?_
        cases h0 : lookupBatch c id0 with
        | none => simp [abortStoredBatch, h0] at hstep
        | some wb0 =>
          cases h1 : wb0.abortW with
          | none => simp [abortStoredBatch, h0, h1] at hstep
          | some wb0x =>
            simp only [abortStoredBatch, h0, h1, Option.some.injEq] at hstep
            rw [← hstep, lookupBatch_setBatch_ne c id0 bid wb0x (by omega)]
            exact hb

theorem abortStoredBatches_mem (bid : Nat) :
    ∀ (ids : List Nat) (c c2 : Catalog) (wb : WriteBatch),
      abortStoredBatches c ids = some c2 → bid ∈ ids →
      lookupBatch c bid = some wb → wb.promise = none →
      lookupBatch c2 bid = some
        { wb with active := false,
                  promise := some (.error .timeseriesBucketCleared),
                  bucketId := none } := by
  intro ids
  induction ids with
  | nil => intro c c2 wb _ hmem; simp at hmem
  | cons id0 rest ih =>
    intro c c2 wb h hmem hb hp
    simp only [abortStoredBatches] at h
    by_cases he : id0 = bid
    · subst he
      rw [abortStoredBatch_spec c id0 wb hb hp] at h
      have hlook := lookupBatch_setBatch_eq c id0 wb
        { wb with active := false,
                  promise := some (.error .timeseriesBucketCleared),
                  bucketId := none } hb
      exact abortStoredBatches_resolved id0 _ (by simp) rest _ c2 h hlook
    · match hstep : abortStoredBatch c id0 with
      | none => rw [hstep] at h; simp at h
      | some c1 =>
        rw [hstep] at h
        have hmem' : bid ∈ rest := by
          rcases List.mem_cons.1 hmem with h1 | h1
          · exact absurd h1.symm he
          · exact h1
        refine ih c1 c2 wb h hmem' ?_ hp
        cases h0 : lookupBatch c id0 with
        | none => simp [abortStoredBatch, h0] at hstep
        | some wb0 =>
          cases h1 : wb0.abortW with
          | none => simp [abortStoredBatch, h0, h1] at hstep
          | some wb0x =>
            simp only [abortStoredBatch, h0, h1, Option.some.injEq] at hstep
            rw [← hstep, lookupBatch_setBatch_ne c id0 bid wb0x (by omega)]
            exact hb

theorem abortStoredBatches_allBuckets :
    ∀ (ids : List Nat) (c c2 : Catalog),
      abortStoredBatches c ids = some c2 → c2.allBuckets = c.allBuckets := by
  intro ids
  induction ids with
  | nil =>
    intro c c2 h
    simp only [abortStoredBatches, Option.some.injEq] at h
    subst h; rfl
  | cons i0 rest ih =>
    intro c c2 h
    simp only [abortStoredBatches] at h
    cases hstep : abortStoredBatch c i0 with
    | none => simp [hstep] at h
    | some cm =>
      simp only [hstep] at h
      have h1 : cm.allBuckets = c.allBuckets := by
        cases h0 : lookupBatch c i0 with
        | none => simp [abortStoredBatch, h0] at hstep
        | some wb0 =>
          cases h2 : wb0.abortW with
          | none => simp [abortStoredBatch, h0, h2] at hstep
          | some wb0x =>
            simp only [abortStoredBatch, h0, h2, Option.some.injEq] at hstep
            rw [← hstep]
            rfl
      rw [← h1]
      exact ih cm c2 h

/-- C6.  `prepareCommit(batch)`: once the bucket's prepared slot is free (the
wait loop's exit condition) and the bucket is live in state `kNormal`, the
call installs the batch into the slot, transitions the bucket to `kPrepared`,
invokes the batch's `_prepareCommit` (deactivating it and recording the
previously committed count), detaches the batch from the per-session map and
returns true; if the bucket was concurrently retired (gone from the live set)
or cleared, it returns false and the batch is aborted with
`TimeseriesBucketCleared`. -/
theorem prepareCommit_spec (c : Catalog) (bid k : Nat) (wb : WriteBatch) (b : Bucket)
    (hb : lookupBatch c bid = some wb)
    (hnf : wb.finishedW = false)
    (hbk : wb.bucketId = some k)
    (hcr : wb.commitRights = true) :
    ((findBucket c k = some b → lookupState c.bucketStates b.oid = some .kNormal →
      b.preparedBatch = none → wb.active = true →
      ∀ r, prepareCommitOp c bid = some r →
      ∃ c2, r = .ok c2 ∧
        lookupState c2.bucketStates (k, b.oidTime) = some .kPrepared ∧
        (∃ b2, findBucket c2 k = some b2 ∧ b2.preparedBatch = some bid ∧
          b2.batches = b.batches.filter (fun e => ¬ e.1 = wb.lsid)) ∧
        (∃ wb2, lookupBatch c2 bid = some wb2 ∧ wb2.active = false ∧
          wb2.numPreviouslyCommittedMeasurements = b.numCommittedMeasurements)) ∧
    (findBucket c k = none →
      ∀ r, prepareCommitOp c bid = some r →
      ∃ c2, r = .fail c2 ∧
        lookupBatch c2 bid = some
          { wb with active := false,
                    promise := some (.error .timeseriesBucketCleared),
                    bucketId := none }) ∧
    (findBucket c k = some b → lookupState c.bucketStates b.oid = some .kCleared →
      bid ∈ b.batches.map (fun e => e.2) → b.preparedBatch = none →
      ∀ r, prepareCommitOp c bid = some r →
      ∃ c2, r = .fail c2 ∧
        lookupBatch c2 bid = some
          { wb with active := false,
                    promise := some (.error .timeseriesBucketCleared),
                    bucketId := none })) := by
  have hpnone : wb.promise = none := by
    unfold WriteBatch.finishedW at hnf
    simpa using hnf
  refine ⟨?_, ?_, ?_⟩
  · -- success
    intro hfb hst hslot hact r hr
    have hk := findBucket_mem c k b hfb
    have hsetS : setBucketState c.bucketStates b.oid .kPrepared =
        some (some .kPrepared, setStateAt c.bucketStates b.oid .kPrepared) := by
      simp [setBucketState, hst]
    simp only [prepareCommitOp, hb, hnf, hbk, hfb, hst, hslot, hsetS,
      Bool.false_eq_true, reduceCtorEq, if_false] at hr
    set cbase : Catalog :=
      { c with bucketStates := setStateAt c.bucketStates b.oid .kPrepared } with hcbase
    cases hpb : prepareBatchOnBucket cbase b bid wb with
    | none => rw [hpb] at hr; exact absurd hr (by simp)
    | some c2 =>
      rw [hpb] at hr
      simp only [Option.some.injEq] at hr
      subst hr
      simp only [prepareBatchOnBucket] at hpb
      rw [if_pos (And.intro hcr hact)] at hpb
      repeat' split at hpb
      all_goals first
        | exact Option.noConfusion hpb
        | (injection hpb with hpb
           subst hpb
           refine ⟨_, rfl, ?_, ?_, ?_⟩
           · rw [← hk.2]
             exact lookupState_setStateAt c.bucketStates b.oid .kPrepared .kNormal hst
           · exact ⟨_, findBucket_replace cbase k b _ hfb hk.2, rfl, rfl⟩
           · exact ⟨_, lookupBatch_setBatch_eq _ bid wb _ hb, rfl, rfl⟩)
  · -- retired
    intro hfb r hr
    simp only [prepareCommitOp, hb, hnf, hbk, hfb, hcr, Bool.false_eq_true,
      if_false, eq_self_iff_true, if_true] at hr
    rw [abortStoredBatch_spec c bid wb hb hpnone] at hr
    simp only [Option.some.injEq] at hr
    refine ⟨_, hr.symm, ?_⟩
    exact lookupBatch_setBatch_eq c bid wb _ hb
  · -- cleared
    intro hfb hst hmem hslot r hr
    have hk := findBucket_mem c k b hfb
    simp only [prepareCommitOp, hb, hnf, hbk, hfb, hst, hcr, Bool.false_eq_true,
      if_false, eq_self_iff_true, if_true] at hr
    cases habort : abortBucket c k (some bid) with
    | none => rw [habort] at hr; exact absurd hr (by simp)
    | some c2 =>
      rw [habort] at hr
      simp only [Option.some.injEq] at hr
      refine ⟨c2, hr.symm, ?_⟩
      -- trace the abort through the bucket's batch list
      simp only [abortBucket, hfb] at habort
      cases hab : abortStoredBatches c (b.batches.map (fun e => e.2)) with
      | none => simp [hab] at habort
      | some c1 =>
        simp only [hab, hslot] at habort
        have hall := abortStoredBatches_allBuckets (b.batches.map (fun e => e.2)) c c1 hab
        have hlook := abortStoredBatches_mem bid
          (b.batches.map (fun e => e.2)) c c1 wb hab hmem hb hpnone
        have hfb1 : findBucket c1 k = some b := by
          unfold findBucket
          rw [hall]
          exact hfb
        have hfb2 : findBucket (replaceBucket c1
            { b with batches := [], preparedBatch := none }) k =
            some { b with batches := [], preparedBatch := none } :=
          findBucket_replace c1 k b _ hfb1 hk.2
        cases hrm : removeBucket (replaceBucket c1
            { b with batches := [], preparedBatch := none }) k with
        | none => simp [hrm] at habort
        | some pr =>
          obtain ⟨removed, c3⟩ := pr
          cases removed with
          | false => simp [hrm] at habort
          | true =>
            simp only [hrm, Option.some.injEq] at habort
            simp only [removeBucket, hfb2, eq_self_iff_true, and_self, if_true,
              Option.some.injEq, Prod.mk.injEq, true_and] at hrm
            rw [← habort, ← hrm]
            exact hlook

/-- Witness for C6: a store holding one unprepared batch with commit rights
whose bucket pointer is stale (no live bucket 5); `prepareCommit` returns the
failure outcome and the batch is aborted with `TimeseriesBucketCleared`. -/
theorem prepareCommit_spec_witness :
    ∃ c2, PrepareResult.fail (setBatch
        ⟨[], [], [], [], [], 0,
          [(0, ⟨some 5, 3, [], [], true, true, 0, none, [], []⟩)], 0, 1⟩ 0
        ⟨none, 3, [], [], false, true, 0,
          some (.error .timeseriesBucketCleared), [], []⟩) = PrepareResult.fail c2 ∧
      lookupBatch c2 0 = some
        ⟨none, 3, [], [], false, true, 0,
          some (.error .timeseriesBucketCleared), [], []⟩ := by
  exact (prepareCommit_spec
      ⟨[], [], [], [], [], 0,
        [(0, ⟨some 5, 3, [], [], true, true, 0, none, [], []⟩)], 0, 1⟩
      0 5 ⟨some 5, 3, [], [], true, true, 0, none, [], []⟩
      ⟨0, 0, "", [], [], [], 0, 0, 0, 0, .unset, .unset, 0, false, [], none⟩
      rfl rfl rfl rfl).2.1 rfl
    (PrepareResult.fail (setBatch
        ⟨[], [], [], [], [], 0,
          [(0, ⟨some 5, 3, [], [], true, true, 0, none, [], []⟩)], 0, 1⟩ 0
        ⟨none, 3, [], [], false, true, 0,
          some (.error .timeseriesBucketCleared), [], []⟩)) rfl

/-! ### C8: the aggregate memory counter -/

/-- Sum of `_memoryUsage` over a list of buckets. -/
def bucketsMemSum (l : List Bucket) : Nat := (l.map (fun b => b.memoryUsage)).sum

/-- The catalog invariant carried across public operations: the aggregate
`_memoryUsage` equals the live-set sum, live counters are distinct and below
the allocation counter, a bucket that has never completed an insert (empty
`_ns`) has zero memory, and every stored batch's bucket pointer is below the
allocation counter and targets only initialised buckets. -/
structure WfCatalog (c : Catalog) : Prop where
  mem : c.memoryUsage = bucketsMemSum c.allBuckets
  nodup : (c.allBuckets.map (fun b => b.counter)).Nodup
  bound : ∀ b ∈ c.allBuckets, b.counter < c.nextCounter
  fresh : ∀ b ∈ c.allBuckets, b.ns = "" → b.memoryUsage = 0
  batchPtr : ∀ e ∈ c.batchStore, ∀ kk, (e : Nat × WriteBatch).2.bucketId = some kk →
    kk < c.nextCounter ∧ ∀ b ∈ c.allBuckets, b.counter = kk → ¬ b.ns = ""

/-- Validity of the public call: `insert` is issued with a nonempty
namespace string. -/
def opValid : CatalogOp → Prop
  | .insert ns _ _ _ _ => ¬ ns = ""
  | _ => True

theorem bucketsMemSum_cons (b : Bucket) (l : List Bucket) :
    bucketsMemSum (b :: l) = b.memoryUsage + bucketsMemSum l := by
  simp [bucketsMemSum]

theorem mem_le_bucketsMemSum (l : List Bucket) (b : Bucket) (hb : b ∈ l) :
    b.memoryUsage ≤ bucketsMemSum l := by
  induction l with
  | nil => simp at hb
  | cons x rest ih =>
    rw [bucketsMemSum_cons]
    rcases List.mem_cons.1 hb with h | h
    · subst h; omega
    · have := ih h; omega

theorem counters_replaceBucketL (l : List Bucket) (b2 : Bucket) :
    (replaceBucketL l b2).map (fun x => x.counter) = l.map (fun x => x.counter) := by
  induction l with
  | nil => rfl
  | cons x rest ih =>
    show ((if x.counter = b2.counter then b2 else x) ::
      replaceBucketL rest b2).map (fun x => x.counter) = _
    by_cases hx : x.counter = b2.counter
    · rw [if_pos hx]
      simp only [List.map_cons, ih, ← hx]
    · rw [if_neg hx]
      simp only [List.map_cons, ih]

theorem mem_replaceBucketL_cases (l : List Bucket) (b2 x : Bucket)
    (hx : x ∈ replaceBucketL l b2) : x = b2 ∨ (x ∈ l ∧ ¬ x.counter = b2.counter) := by
  induction l with
  | nil => simp [replaceBucketL] at hx
  | cons y rest ih =>
    have hx2 : x = (if y.counter = b2.counter then b2 else y) ∨
        x ∈ replaceBucketL rest b2 := List.mem_cons.1 hx
    rcases hx2 with h | h
    · by_cases hy : y.counter = b2.counter
      · rw [if_pos hy] at h; exact Or.inl h
      · rw [if_neg hy] at h
        subst h
        exact Or.inr ⟨List.mem_cons_self _ _, hy⟩
    · rcases ih h with h1 | h1
      · exact Or.inl h1
      · exact Or.inr ⟨List.mem_cons_of_mem y h1.1, h1.2⟩

theorem replaceBucketL_self_mem (l : List Bucket) (b b2 : Bucket)
    (hb : b ∈ l) (hc : b2.counter = b.counter) : b2 ∈ replaceBucketL l b2 := by
  induction l with
  | nil => simp at hb
  | cons x rest ih =>
    show b2 ∈ (if x.counter = b2.counter then b2 else x) :: replaceBucketL rest b2
    rcases List.mem_cons.1 hb with h | h
    · subst h
      rw [if_pos hc.symm]
      exact List.mem_cons_self _ _
    · by_cases hx : x.counter = b2.counter
      · rw [if_pos hx]; exact List.mem_cons_self _ _
      · rw [if_neg hx]; exact List.mem_cons_of_mem _ (ih h)

theorem eq_of_counter_mem (l : List Bucket) (b x : Bucket)
    (hnd : (l.map (fun y => y.counter)).Nodup) (hb : b ∈ l) (hx : x ∈ l)
    (hc : x.counter = b.counter) : x = b := by
  induction l with
  | nil => simp at hb
  | cons a rest ih =>
    simp only [List.map_cons, List.nodup_cons] at hnd
    rcases List.mem_cons.1 hb with h1 | h1 <;> rcases List.mem_cons.1 hx with h2 | h2
    · rw [h1, h2]
    · exfalso
      apply hnd.1
      rw [← h1, ← hc]
      exact List.mem_map_of_mem (fun y => y.counter) h2
    · exfalso
      apply hnd.1
      rw [← h2, hc]
      exact List.mem_map_of_mem (fun y => y.counter) h1
    · exact ih hnd.2 h1 h2

theorem replaceBucketL_eq_of_not_mem (l : List Bucket) (b2 : Bucket)
    (h : ¬ b2.counter ∈ l.map (fun y => y.counter)) : replaceBucketL l b2 = l := by
  induction l with
  | nil => rfl
  | cons z zr ih =>
    simp only [List.map_cons, List.mem_cons] at h
    push_neg at h
    show (if z.counter = b2.counter then b2 else z) :: replaceBucketL zr b2 = z :: zr
    rw [if_neg (fun hz => h.1 hz.symm), ih h.2]

theorem bucketsMemSum_replaceBucketL (l : List Bucket) (b b2 : Bucket)
    (hnd : (l.map (fun y => y.counter)).Nodup) (hb : b ∈ l) (hc : b2.counter = b.counter) :
    bucketsMemSum (replaceBucketL l b2) + b.memoryUsage =
      bucketsMemSum l + b2.memoryUsage := by
  induction l with
  | nil => simp at hb
  | cons x rest ih =>
    simp only [List.map_cons, List.nodup_cons] at hnd
    by_cases hx : x.counter = b2.counter
    · have hxb : x = b := by
        rcases List.mem_cons.1 hb with h | h
        · exact h.symm
        · exfalso
          apply hnd.1
          rw [hx, hc]
          exact List.mem_map_of_mem (fun y => y.counter) h
      have hrest := replaceBucketL_eq_of_not_mem rest b2 (by rw [← hx]; exact hnd.1)
      show bucketsMemSum ((if x.counter = b2.counter then b2 else x) ::
        replaceBucketL rest b2) + b.memoryUsage = _
      rw [if_pos hx, hrest, bucketsMemSum_cons, bucketsMemSum_cons, hxb]
      omega
    · have hbr : b ∈ rest := by
        rcases List.mem_cons.1 hb with h | h
        · exfalso; apply hx; rw [← h, ← hc]
        · exact h
      have := ih hnd.2 hbr
      show bucketsMemSum ((if x.counter = b2.counter then b2 else x) ::
        replaceBucketL rest b2) + b.memoryUsage = _
      rw [if_neg hx, bucketsMemSum_cons, bucketsMemSum_cons]
      omega

theorem bucketsMemSum_filter_out (l : List Bucket) (b : Bucket) (k : Nat)
    (hnd : (l.map (fun y => y.counter)).Nodup) (hb : b ∈ l) (hk : b.counter = k) :
    bucketsMemSum (l.filter (fun x => ¬ x.counter = k)) + b.memoryUsage =
      bucketsMemSum l := by
  induction l with
  | nil => simp at hb
  | cons x rest ih =>
    simp only [List.map_cons, List.nodup_cons] at hnd
    rcases List.mem_cons.1 hb with h | h
    · subst h
      rw [List.filter_cons_of_neg (by simp [hk])]
      have hrest : rest.filter (fun x => ¬ x.counter = k) = rest := by
        refine List.filter_eq_self.2 ?_
        intro z hz
        simp only [decide_eq_true_eq]
        intro hzk
        apply hnd.1
        have hzb : z.counter = b.counter := by rw [hzk, hk]
        rw [← hzb]
        exact List.mem_map_of_mem (fun y => y.counter) hz
      rw [hrest, bucketsMemSum_cons]
      omega
    · have hxk : ¬ x.counter = k := by
        intro hxx
        apply hnd.1
        have hxb : x.counter = b.counter := by rw [hxx, hk]
        rw [hxb]
        exact List.mem_map_of_mem (fun y => y.counter) h
      rw [List.filter_cons_of_pos (by simp [hxk]), bucketsMemSum_cons, bucketsMemSum_cons]
      have := ih hnd.2 h
      omega

theorem WfCatalog.transport (c c2 : Catalog) (h : WfCatalog c)
    (hA : c2.allBuckets = c.allBuckets) (hM : c2.memoryUsage = c.memoryUsage)
    (hN : c2.nextCounter = c.nextCounter) (hB : c2.batchStore = c.batchStore) :
    WfCatalog c2 := by
  refine ⟨?_, ?_, ?_, ?_, ?_⟩
  · rw [hM, hA]; exact h.mem
  · rw [hA]; exact h.nodup
  · intro b hb
    rw [hN]
    exact h.bound b (by rw [← hA]; exact hb)
  · intro b hb
    exact h.fresh b (by rw [← hA]; exact hb)
  · intro e he kk hk
    obtain ⟨h1, h2⟩ := h.batchPtr e (by rw [← hB]; exact he) kk hk
    refine ⟨by rw [hN]; exact h1, ?_⟩
    intro b hb hbc
    exact h2 b (by rw [← hA]; exact hb) hbc

theorem ptr_target_replace (l : List Bucket) (b b2 : Bucket) (kk : Nat)
    (hb : b ∈ l) (hc : b2.counter = b.counter) (hns : b2.ns = b.ns ∨ ¬ b2.ns = "")
    (hold : ∀ bb ∈ l, bb.counter = kk → ¬ bb.ns = "") :
    ∀ bb ∈ replaceBucketL l b2, bb.counter = kk → ¬ bb.ns = "" := by
  intro x hx hxk
  rcases mem_replaceBucketL_cases l b2 x hx with h1 | h1
  · subst h1
    rcases hns with hn | hn
    · rw [hn]
      exact hold b hb (by rw [← hc]; exact hxk)
    · exact hn
  · exact hold x h1.1 hxk

theorem wf_setBatch (c : Catalog) (bid : Nat) (wb2 : WriteBatch) (h : WfCatalog c)
    (hw : ∀ kk, wb2.bucketId = some kk →
      kk < c.nextCounter ∧ ∀ b ∈ c.allBuckets, b.counter = kk → ¬ b.ns = "") :
    WfCatalog (setBatch c bid wb2) := by
  refine ⟨h.mem, h.nodup, h.bound, h.fresh, ?_⟩
  intro e he kk hbk
  have he2 : e ∈ c.batchStore.map
      (fun e => if e.1 = bid then (bid, wb2) else e) := he
  rcases List.mem_map.1 he2 with ⟨e0, he0, hfe⟩
  by_cases h0 : e0.1 = bid
  · rw [if_pos h0] at hfe
    rw [← hfe] at hbk
    exact hw kk hbk
  · rw [if_neg h0] at hfe
    rw [← hfe] at hbk
    exact h.batchPtr e0 he0 kk hbk

theorem wf_replaceBucket (c : Catalog) (b b2 : Bucket) (h : WfCatalog c)
    (hb : b ∈ c.allBuckets) (hc : b2.counter = b.counter)
    (hm : b2.memoryUsage = b.memoryUsage)
    (hns : b2.ns = b.ns ∨ ¬ b2.ns = "") :
    WfCatalog (replaceBucket c b2) := by
  refine ⟨?_, ?_, ?_, ?_, ?_⟩
  · show c.memoryUsage = bucketsMemSum (replaceBucketL c.allBuckets b2)
    have h1 := bucketsMemSum_replaceBucketL c.allBuckets b b2 h.nodup hb hc
    have h2 := h.mem
    omega
  · show ((replaceBucketL c.allBuckets b2).map (fun x => x.counter)).Nodup
    rw [counters_replaceBucketL]
    exact h.nodup
  · intro x hx
    show x.counter < c.nextCounter
    rcases mem_replaceBucketL_cases c.allBuckets b2 x hx with h1 | h1
    · subst h1
      rw [hc]
      exact h.bound b hb
    · exact h.bound x h1.1
  · intro x hx hxe
    rcases mem_replaceBucketL_cases c.allBuckets b2 x hx with h1 | h1
    · subst h1
      rcases hns with hn | hn
      · rw [hm]
        exact h.fresh b hb (by rw [← hn]; exact hxe)
      · exact absurd hxe hn
    · exact h.fresh x h1.1 hxe
  · intro e he kk hk
    obtain ⟨h1, h2⟩ := h.batchPtr e he kk hk
    exact ⟨h1, ptr_target_replace c.allBuckets b b2 kk hb hc hns h2⟩

theorem removeBucket_wf (c : Catalog) (k : Nat) (h : WfCatalog c) :
    ∀ rem c2, removeBucket c k = some (rem, c2) → WfCatalog c2 := by
  intro rem c2 hstep
  cases hfb : findBucket c k with
  | none =>
    simp only [removeBucket, hfb, Option.some.injEq, Prod.mk.injEq] at hstep
    rw [← hstep.2]
    exact h
  | some b =>
    have hk := findBucket_mem c k b hfb
    simp only [removeBucket, hfb] at hstep
    split at hstep
    · simp only [Option.some.injEq, Prod.mk.injEq] at hstep
      rw [← hstep.2]
      refine ⟨?_, ?_, ?_, ?_, ?_⟩
      · show c.memoryUsage - b.memoryUsage =
          bucketsMemSum (c.allBuckets.filter (fun x => ¬ x.counter = k))
        have h1 := bucketsMemSum_filter_out c.allBuckets b k h.nodup hk.1 hk.2
        have h2 := h.mem
        omega
      · show ((c.allBuckets.filter (fun x => ¬ x.counter = k)).map
          (fun x => x.counter)).Nodup
        exact List.Nodup.sublist
          (List.Sublist.map _ (List.filter_sublist _)) h.nodup
      · intro x hx
        exact h.bound x (List.mem_of_mem_filter hx)
      · intro x hx
        exact h.fresh x (List.mem_of_mem_filter hx)
      · intro e he kk hbk
        obtain ⟨h1, h2⟩ := h.batchPtr e he kk hbk
        exact ⟨h1, fun x hx hxc => h2 x (List.mem_of_mem_filter hx) hxc⟩
    · exact Option.noConfusion hstep

theorem expireIdle_wf (p : CatalogParams) :
    ∀ (fuel : Nat) (c c2 : Catalog), WfCatalog c →
      expireIdle p fuel c = some c2 → WfCatalog c2 := by
  intro fuel
  induction fuel with
  | zero =>
    intro c c2 h hstep
    simp only [expireIdle, Option.some.injEq] at hstep
    rw [← hstep]
    exact h
  | succ n ih =>
    intro c c2 h hstep
    simp only [expireIdle] at hstep
    split at hstep
    · cases hgl : c.idleBuckets.getLast? with
      | none =>
        simp only [hgl, Option.some.injEq] at hstep
        rw [← hstep]
        exact h
      | some k =>
        simp only [hgl] at hstep
        cases hrm : removeBucket c k with
        | none =>
          simp only [hrm] at hstep
          exact Option.noConfusion hstep
        | some pr =>
          obtain ⟨removed, c1⟩ := pr
          simp only [hrm] at hstep
          cases removed with
          | false => simp at hstep
          | true =>
            simp only [eq_self_iff_true, if_true] at hstep
            exact ih c1 c2 (removeBucket_wf c k h true c1 hrm) hstep
    · simp only [Option.some.injEq] at hstep
      rw [← hstep]
      exact h

theorem wf_cons_bucket (c : Catalog) (h : WfCatalog c) (bnew : Bucket)
    (c2 : Catalog)
    (hA : c2.allBuckets = bnew :: c.allBuckets)
    (hM : c2.memoryUsage = c.memoryUsage)
    (hN : c2.nextCounter = c.nextCounter + 1)
    (hB : c2.batchStore = c.batchStore)
    (hcnt : bnew.counter = c.nextCounter)
    (hmem0 : bnew.memoryUsage = 0) :
    WfCatalog c2 := by
  refine ⟨?_, ?_, ?_, ?_, ?_⟩
  · rw [hM, hA, bucketsMemSum_cons, hmem0, h.mem]
    omega
  · rw [hA, List.map_cons, List.nodup_cons]
    refine ⟨?_, h.nodup⟩
    intro hmem
    rcases List.mem_map.1 hmem with ⟨x, hx, hxc⟩
    have := h.bound x hx
    rw [hcnt] at hxc
    omega
  · intro x hx
    rw [hA] at hx
    rw [hN]
    rcases List.mem_cons.1 hx with h1 | h1
    · rw [h1, hcnt]
      omega
    · have := h.bound x h1
      omega
  · intro x hx hxe
    rw [hA] at hx
    rcases List.mem_cons.1 hx with h1 | h1
    · rw [h1]
      exact hmem0
    · exact h.fresh x h1 hxe
  · intro e he kk hk
    obtain ⟨h1, h2⟩ := h.batchPtr e (by rw [← hB]; exact he) kk hk
    refine ⟨by rw [hN]; omega, ?_⟩
    intro x hx hxc
    rw [hA] at hx
    rcases List.mem_cons.1 hx with hh | hh
    · exfalso
      rw [hh, hcnt] at hxc
      omega
    · exact h2 x hh hxc

theorem allocateBucket_wf (p : CatalogParams) (c : Catalog) (ns : String)
    (sm : List (String × BVal)) (time : Int) (h : WfCatalog c) :
    ∀ k c2, allocateBucket p c ns sm time = some (k, c2) → WfCatalog c2 := by
  intro k c2 hstep
  simp only [allocateBucket] at hstep
  cases hex : expireIdleBuckets p c with
  | none =>
    simp only [hex] at hstep
    exact Option.noConfusion hstep
  | some c1 =>
    have h1 : WfCatalog c1 := expireIdle_wf p c.idleBuckets.length c c1 h hex
    simp only [hex, Option.some.injEq, Prod.mk.injEq] at hstep
    rw [← hstep.2]
    exact wf_cons_bucket c1 h1 _ _ rfl rfl rfl rfl rfl rfl

theorem abortStoredBatch_wf (c : Catalog) (bid : Nat) (h : WfCatalog c) :
    ∀ c2, abortStoredBatch c bid = some c2 → WfCatalog c2 := by
  intro c2 hstep
  cases h0 : lookupBatch c bid with
  | none => simp [abortStoredBatch, h0] at hstep
  | some wb =>
    cases h1 : wb.abortW with
    | none => simp [abortStoredBatch, h0, h1] at hstep
    | some wb2 =>
      simp only [abortStoredBatch, h0, h1, Option.some.injEq] at hstep
      rw [← hstep]
      refine wf_setBatch c bid wb2 h ?_
      intro kk hkk
      exfalso
      unfold WriteBatch.abortW at h1
      split at h1
      · simp only [Option.some.injEq] at h1
        rw [← h1] at hkk
        exact Option.noConfusion hkk
      · exact Option.noConfusion h1

theorem abortStoredBatch_allBuckets (c : Catalog) (bid : Nat) :
    ∀ c2, abortStoredBatch c bid = some c2 → c2.allBuckets = c.allBuckets := by
  intro c2 hstep
  cases h0 : lookupBatch c bid with
  | none => simp [abortStoredBatch, h0] at hstep
  | some wb =>
    cases h1 : wb.abortW with
    | none => simp [abortStoredBatch, h0, h1] at hstep
    | some wb2 =>
      simp only [abortStoredBatch, h0, h1, Option.some.injEq] at hstep
      rw [← hstep]
      rfl

theorem abortStoredBatches_wf :
    ∀ (ids : List Nat) (c c2 : Catalog), WfCatalog c →
      abortStoredBatches c ids = some c2 → WfCatalog c2 := by
  intro ids
  induction ids with
  | nil =>
    intro c c2 h hstep
    simp only [abortStoredBatches, Option.some.injEq] at hstep
    rw [← hstep]
    exact h
  | cons i0 rest ih =>
    intro c c2 h hstep
    simp only [abortStoredBatches] at hstep
    cases h0 : abortStoredBatch c i0 with
    | none =>
      simp only [h0] at hstep
      exact Option.noConfusion hstep
    | some cm =>
      simp only [h0] at hstep
      exact ih cm c2 (abortStoredBatch_wf c i0 h cm h0) hstep

theorem abortRemove_wf (cX : Catalog) (b : Bucket) (k : Nat) (hw : WfCatalog cX)
    (hbX : b ∈ cX.allBuckets) :
    ∀ rem c3, removeBucket (replaceBucket cX
      { b with batches := [], preparedBatch := none }) k = some (rem, c3) →
    WfCatalog c3 := by
  intro rem c3 hrm
  exact removeBucket_wf _ k
    (wf_replaceBucket cX b { b with batches := [], preparedBatch := none }
      hw hbX rfl rfl (Or.inl rfl)) rem c3 hrm

theorem abortBucket_wf (c : Catalog) (k : Nat) (bo : Option Nat) (h : WfCatalog c) :
    ∀ c2, abortBucket c k bo = some c2 → WfCatalog c2 := by
  intro c2 hstep
  cases hfb : findBucket c k with
  | none => simp [abortBucket, hfb] at hstep
  | some b =>
    have hk := findBucket_mem c k b hfb
    simp only [abortBucket, hfb] at hstep
    cases hab : abortStoredBatches c (b.batches.map (fun e => e.2)) with
    | none =>
      simp only [hab] at hstep
      exact Option.noConfusion hstep
    | some c1 =>
      simp only [hab] at hstep
      have h1 : WfCatalog c1 := abortStoredBatches_wf _ c c1 h hab
      have hall := abortStoredBatches_allBuckets (b.batches.map (fun e => e.2)) c c1 hab
      have hb1 : b ∈ c1.allBuckets := by rw [hall]; exact hk.1
      cases hbp : b.preparedBatch with
      | none =>
        simp only [hbp] at hstep
        cases hrm : removeBucket (replaceBucket c1
            { b with batches := [], preparedBatch := none }) k with
        | none =>
          simp only [hrm] at hstep
          exact Option.noConfusion hstep
        | some pr =>
          obtain ⟨removed, c3⟩ := pr
          cases removed with
          | false => simp [hrm] at hstep
          | true =>
            simp only [hrm, Option.some.injEq] at hstep
            rw [← hstep]
            exact abortRemove_wf c1 b k h1 hb1 true c3 hrm
      | some pid =>
        simp only [hbp] at hstep
        by_cases hbo : bo = some pid
        · rw [if_pos hbo] at hstep
          cases hpp : abortStoredBatch c1 pid with
          | none =>
            simp only [hpp] at hstep
            exact Option.noConfusion hstep
          | some c1x =>
            simp only [hpp] at hstep
            have h1x : WfCatalog c1x := abortStoredBatch_wf c1 pid h1 c1x hpp
            have hb1x : b ∈ c1x.allBuckets := by
              rw [abortStoredBatch_allBuckets c1 pid c1x hpp]
              exact hb1
            cases hrm : removeBucket (replaceBucket c1x
                { b with batches := [], preparedBatch := none }) k with
            | none =>
              simp only [hrm] at hstep
              exact Option.noConfusion hstep
            | some pr =>
              obtain ⟨removed, c3⟩ := pr
              cases removed with
              | false => simp [hrm] at hstep
              | true =>
                simp only [hrm, Option.some.injEq] at hstep
                rw [← hstep]
                exact abortRemove_wf c1x b k h1x hb1x true c3 hrm
        · rw [if_neg hbo] at hstep
          cases hrm : removeBucket (replaceBucket c1
              { b with batches := [], preparedBatch := none }) k with
          | none =>
            simp only [hrm] at hstep
            exact Option.noConfusion hstep
          | some pr =>
            obtain ⟨removed, c3⟩ := pr
            cases removed with
            | false => simp [hrm] at hstep
            | true =>
              simp only [hrm, Option.some.injEq] at hstep
              rw [← hstep]
              exact abortRemove_wf c1 b k h1 hb1 true c3 hrm

theorem setIdTimestampC_wf (c : Catalog) (b : Bucket) (time : Int) (h : WfCatalog c)
    (hb : b ∈ c.allBuckets) :
    WfCatalog (setIdTimestampC c b time).1 ∧
      (setIdTimestampC c b time).2 ∈ (setIdTimestampC c b time).1.allBuckets ∧
      (setIdTimestampC c b time).2.counter = b.counter ∧
      (setIdTimestampC c b time).2.memoryUsage = b.memoryUsage ∧
      (setIdTimestampC c b time).2.ns = b.ns := by
  refine ⟨?_, ?_, rfl, rfl, rfl⟩
  · exact WfCatalog.transport _ _
      (wf_replaceBucket c b { b with oidTime := time / 1000 }
        h hb rfl rfl (Or.inl rfl)) rfl rfl rfl rfl
  · exact replaceBucketL_self_mem c.allBuckets b
      { b with oidTime := time / 1000 } hb rfl

theorem bucketAccessKey_wf (p : CatalogParams) (c : Catalog) (ns : String)
    (sm : List (String × BVal)) (time : Int) (h : WfCatalog c) :
    ∀ k c2, bucketAccessKey p c ns sm time = some (k, c2) → WfCatalog c2 := by
  intro k c2 hstep
  simp only [bucketAccessKey] at hstep
  cases hlo : lookupOpen c (ns, sm) with
  | none =>
    simp only [hlo] at hstep
    exact allocateBucket_wf p c ns sm time h k c2 hstep
  | some k0 =>
    simp only [hlo] at hstep
    cases hfb : findBucket c k0 with
    | none =>
      simp only [hfb] at hstep
      exact Option.noConfusion hstep
    | some b =>
      simp only [hfb] at hstep
      cases hst : lookupState c.bucketStates b.oid with
      | none =>
        simp only [hst] at hstep
        exact Option.noConfusion hstep
      | some st =>
        simp only [hst] at hstep
        split at hstep
        · simp only [Option.some.injEq, Prod.mk.injEq] at hstep
          rw [← hstep.2]
          exact WfCatalog.transport _ _ h rfl rfl rfl rfl
        · cases hab : abortBucket c k0 none with
          | none =>
            simp only [hab] at hstep
            exact Option.noConfusion hstep
          | some c1 =>
            simp only [hab] at hstep
            exact allocateBucket_wf p c1 ns sm time
              (abortBucket_wf c k0 none h c1 hab) k c2 hstep

theorem wf_prepare_assemble (c : Catalog) (b B2 : Bucket) (bid : Nat)
    (wb2 : WriteBatch) (h : WfCatalog c) (hb : b ∈ c.allBuckets)
    (hc : B2.counter = b.counter) (hns2 : B2.ns = b.ns) (hnsb : ¬ b.ns = "")
    (hwb2 : ∀ kk, wb2.bucketId = some kk →
      kk < c.nextCounter ∧ ∀ bb ∈ c.allBuckets, bb.counter = kk → ¬ bb.ns = "") :
    WfCatalog { setBatch (replaceBucket c B2) bid wb2 with
      memoryUsage := (setBatch (replaceBucket c B2) bid wb2).memoryUsage
        - b.memoryUsage + B2.memoryUsage } := by
  refine ⟨?_, ?_, ?_, ?_, ?_⟩
  · show c.memoryUsage - b.memoryUsage + B2.memoryUsage =
      bucketsMemSum (replaceBucketL c.allBuckets B2)
    have hsum := bucketsMemSum_replaceBucketL c.allBuckets b B2 h.nodup hb hc
    have hle := mem_le_bucketsMemSum c.allBuckets b hb
    have hmem := h.mem
    omega
  · show ((replaceBucketL c.allBuckets B2).map (fun x => x.counter)).Nodup
    rw [counters_replaceBucketL]
    exact h.nodup
  · intro x hx
    show x.counter < c.nextCounter
    rcases mem_replaceBucketL_cases c.allBuckets B2 x hx with h1 | h1
    · subst h1
      rw [hc]
      exact h.bound b hb
    · exact h.bound x h1.1
  · intro x hx hxe
    rcases mem_replaceBucketL_cases c.allBuckets B2 x hx with h1 | h1
    · subst h1
      exact absurd hxe (by rw [hns2]; exact hnsb)
    · exact h.fresh x h1.1 hxe
  · intro e he kk hk
    have he2 : e ∈ c.batchStore.map
        (fun e => if e.1 = bid then (bid, wb2) else e) := he
    rcases List.mem_map.1 he2 with ⟨e0, he0, hfe⟩
    by_cases h0 : e0.1 = bid
    · rw [if_pos h0] at hfe
      rw [← hfe] at hk
      obtain ⟨hk1, hk2⟩ := hwb2 kk hk
      exact ⟨hk1, ptr_target_replace c.allBuckets b B2 kk hb hc (Or.inl hns2) hk2⟩
    · rw [if_neg h0] at hfe
      rw [← hfe] at hk
      obtain ⟨hk1, hk2⟩ := h.batchPtr e0 he0 kk hk
      exact ⟨hk1, ptr_target_replace c.allBuckets b B2 kk hb hc (Or.inl hns2) hk2⟩

theorem prepareBatchOnBucket_wf (c : Catalog) (b : Bucket) (bid : Nat)
    (wb : WriteBatch) (h : WfCatalog c) (hb : b ∈ c.allBuckets) (hns : ¬ b.ns = "")
    (hwb : ∀ kk, wb.bucketId = some kk →
      kk < c.nextCounter ∧ ∀ bb ∈ c.allBuckets, bb.counter = kk → ¬ bb.ns = "") :
    ∀ c2, prepareBatchOnBucket c b bid wb = some c2 → WfCatalog c2 := by
  intro c2 hpb
  simp only [prepareBatchOnBucket] at hpb
  split at hpb
  · repeat' split at hpb
    all_goals first
      | exact Option.noConfusion hpb
      | (injection hpb with hpb
         subst hpb
         exact wf_prepare_assemble c b _ bid _ h hb rfl rfl hns hwb)
  · exact Option.noConfusion hpb

theorem lookupBatch_mem (c : Catalog) (bid : Nat) (wb : WriteBatch)
    (h : lookupBatch c bid = some wb) : ∃ e ∈ c.batchStore, (e : Nat × WriteBatch).2 = wb := by
  unfold lookupBatch at h
  cases hf : c.batchStore.find? (fun e => e.1 == bid) with
  | none =>
    rw [hf] at h
    exact Option.noConfusion h
  | some e =>
    simp only [hf, Option.some.injEq] at h
    exact ⟨e, List.mem_of_find?_eq_some hf, h⟩

theorem activeBatch_facts (c : Catalog) (b : Bucket) (lsid : Nat)
    (bid0 : Nat) (b1 : Bucket) (c1 : Catalog)
    (hab : activeBatch c b lsid = (bid0, b1, c1)) :
    b1.counter = b.counter ∧ b1.memoryUsage = b.memoryUsage ∧ b1.ns = b.ns ∧
    c1.allBuckets = c.allBuckets ∧ c1.memoryUsage = c.memoryUsage ∧
    c1.nextCounter = c.nextCounter ∧
    (c1.batchStore = c.batchStore ∨
      ∃ wbN : WriteBatch, wbN.bucketId = some b.counter ∧
        c1.batchStore = (bid0, wbN) :: c.batchStore ∧
        lookupBatch c1 bid0 = some wbN) := by
  cases hfind : b.batches.find? (fun e => e.1 == lsid) with
  | some e1 =>
    simp only [activeBatch, hfind, Prod.mk.injEq] at hab
    obtain ⟨h1, h2, h3⟩ := hab
    rw [← h2, ← h3]
    exact ⟨rfl, rfl, rfl, rfl, rfl, rfl, Or.inl rfl⟩
  | none =>
    simp only [activeBatch, hfind, Prod.mk.injEq] at hab
    obtain ⟨h1, h2, h3⟩ := hab
    rw [← h1, ← h2, ← h3]
    exact ⟨rfl, rfl, rfl, rfl, rfl, rfl, Or.inr
      ⟨⟨some b.counter, lsid, [], [], true, false, 0, none, [], []⟩, rfl, rfl,
        by simp [lookupBatch]⟩⟩

theorem store_prop_setBatch (c1x : Catalog) (bid0 : Nat) (wb2 : WriteBatch)
    (P : Nat → Prop)
    (hentries : ∀ e ∈ c1x.batchStore, ∀ kk,
      (e : Nat × WriteBatch).2.bucketId = some kk → P kk)
    (hw2 : ∀ kk, wb2.bucketId = some kk → P kk) :
    ∀ e ∈ (setBatch c1x bid0 wb2).batchStore, ∀ kk,
      (e : Nat × WriteBatch).2.bucketId = some kk → P kk := by
  intro e he kk hk
  have he2 : e ∈ c1x.batchStore.map
      (fun e => if e.1 = bid0 then (bid0, wb2) else e) := he
  rcases List.mem_map.1 he2 with ⟨e0, he0, hfe⟩
  by_cases h0 : e0.1 = bid0
  · rw [if_pos h0] at hfe
    rw [← hfe] at hk
    exact hw2 kk hk
  · rw [if_neg h0] at hfe
    rw [← hfe] at hk
    exact hentries e0 he0 kk hk

theorem wf_insert_fresh (cBase c : Catalog) (b B3 : Bucket)
    (h : WfCatalog c) (hb : b ∈ c.allBuckets) (hc : B3.counter = b.counter)
    (hns3 : ¬ B3.ns = "") (hb0 : b.memoryUsage = 0)
    (hA : cBase.allBuckets = c.allBuckets)
    (hM : cBase.memoryUsage = c.memoryUsage)
    (hN : cBase.nextCounter = c.nextCounter)
    (hS : ∀ e ∈ cBase.batchStore, ∀ kk,
      (e : Nat × WriteBatch).2.bucketId = some kk →
      kk < c.nextCounter ∧ (kk = B3.counter ∨
        ∀ bb ∈ c.allBuckets, bb.counter = kk → ¬ bb.ns = "")) :
    WfCatalog { replaceBucket cBase B3 with
      memoryUsage := (replaceBucket cBase B3).memoryUsage + B3.memoryUsage } := by
  have htarget : ∀ kk, (kk = B3.counter ∨
      ∀ bb ∈ c.allBuckets, bb.counter = kk → ¬ bb.ns = "") →
      ∀ x ∈ replaceBucketL cBase.allBuckets B3, x.counter = kk → ¬ x.ns = "" := by
    intro kk hcase x hx hxk
    rcases mem_replaceBucketL_cases cBase.allBuckets B3 x hx with h1 | h1
    · subst h1
      exact hns3
    · rcases hcase with hkk | hold
      · exact absurd (by rw [← hkk]; exact hxk) h1.2
      · exact hold x (by rw [← hA]; exact h1.1) hxk
  refine ⟨?_, ?_, ?_, ?_, ?_⟩
  · show cBase.memoryUsage + B3.memoryUsage =
      bucketsMemSum (replaceBucketL cBase.allBuckets B3)
    rw [hA, hM]
    have hsum := bucketsMemSum_replaceBucketL c.allBuckets b B3 h.nodup hb hc
    have hmem := h.mem
    omega
  · show ((replaceBucketL cBase.allBuckets B3).map (fun x => x.counter)).Nodup
    rw [hA, counters_replaceBucketL]
    exact h.nodup
  · intro x hx
    show x.counter < cBase.nextCounter
    rw [hN]
    rcases mem_replaceBucketL_cases cBase.allBuckets B3 x hx with h1 | h1
    · subst h1
      rw [hc]
      exact h.bound b hb
    · exact h.bound x (by rw [← hA]; exact h1.1)
  · intro x hx hxe
    rcases mem_replaceBucketL_cases cBase.allBuckets B3 x hx with h1 | h1
    · subst h1
      exact absurd hxe hns3
    · exact h.fresh x (by rw [← hA]; exact h1.1) hxe
  · intro e he kk hk
    obtain ⟨hk1, hk2⟩ := hS e he kk hk
    refine ⟨by show kk < cBase.nextCounter; rw [hN]; exact hk1, ?_⟩
    intro x hx hxk
    exact htarget kk hk2 x hx hxk

theorem wf_insert_nonfresh (cBase c : Catalog) (b B3 : Bucket)
    (h : WfCatalog c) (hb : b ∈ c.allBuckets) (hc : B3.counter = b.counter)
    (hns3 : ¬ B3.ns = "") (hm3 : B3.memoryUsage = b.memoryUsage)
    (hA : cBase.allBuckets = c.allBuckets)
    (hM : cBase.memoryUsage = c.memoryUsage)
    (hN : cBase.nextCounter = c.nextCounter)
    (hS : ∀ e ∈ cBase.batchStore, ∀ kk,
      (e : Nat × WriteBatch).2.bucketId = some kk →
      kk < c.nextCounter ∧ (kk = B3.counter ∨
        ∀ bb ∈ c.allBuckets, bb.counter = kk → ¬ bb.ns = "")) :
    WfCatalog { replaceBucket cBase B3 with
      memoryUsage := (replaceBucket cBase B3).memoryUsage
        - B3.memoryUsage + B3.memoryUsage } := by
  have htarget : ∀ kk, (kk = B3.counter ∨
      ∀ bb ∈ c.allBuckets, bb.counter = kk → ¬ bb.ns = "") →
      ∀ x ∈ replaceBucketL cBase.allBuckets B3, x.counter = kk → ¬ x.ns = "" := by
    intro kk hcase x hx hxk
    rcases mem_replaceBucketL_cases cBase.allBuckets B3 x hx with h1 | h1
    · subst h1
      exact hns3
    · rcases hcase with hkk | hold
      · exact absurd (by rw [← hkk]; exact hxk) h1.2
      · exact hold x (by rw [← hA]; exact h1.1) hxk
  refine ⟨?_, ?_, ?_, ?_, ?_⟩
  · show cBase.memoryUsage - B3.memoryUsage + B3.memoryUsage =
      bucketsMemSum (replaceBucketL cBase.allBuckets B3)
    rw [hA, hM]
    have hsum := bucketsMemSum_replaceBucketL c.allBuckets b B3 h.nodup hb hc
    have hle := mem_le_bucketsMemSum c.allBuckets b hb
    have hmem := h.mem
    omega
  · show ((replaceBucketL cBase.allBuckets B3).map (fun x => x.counter)).Nodup
    rw [hA, counters_replaceBucketL]
    exact h.nodup
  · intro x hx
    show x.counter < cBase.nextCounter
    rw [hN]
    rcases mem_replaceBucketL_cases cBase.allBuckets B3 x hx with h1 | h1
    · subst h1
      rw [hc]
      exact h.bound b hb
    · exact h.bound x (by rw [← hA]; exact h1.1)
  · intro x hx hxe
    rcases mem_replaceBucketL_cases cBase.allBuckets B3 x hx with h1 | h1
    · subst h1
      exact absurd hxe hns3
    · exact h.fresh x (by rw [← hA]; exact h1.1) hxe
  · intro e he kk hk
    obtain ⟨hk1, hk2⟩ := hS e he kk hk
    refine ⟨by show kk < cBase.nextCounter; rw [hN]; exact hk1, ?_⟩
    intro x hx hxk
    exact htarget kk hk2 x hx hxk

theorem insertFinish_wf (c : Catalog) (b : Bucket) (ns : String)
    (metadata sortedMeta : List (String × BVal)) (lsid : Nat) (time : Int)
    (doc : List (String × BVal)) (calcR : CalcResult)
    (h : WfCatalog c) (hb : b ∈ c.allBuckets) (hns : ¬ ns = "") :
    ∀ bid c3, insertFinish c b ns metadata sortedMeta lsid time doc calcR =
      some (bid, c3) → WfCatalog c3 := by
  intro bid c3 hstep
  rcases hab : activeBatch c b lsid with ⟨bid0, b1, c1⟩
  obtain ⟨hbc, hbm, hbns, hcA, hcM, hcN, hcS⟩ :=
    activeBatch_facts c b lsid bid0 b1 c1 hab
  simp only [insertFinish, hab] at hstep
  cases hlb : lookupBatch c1 bid0 with
  | none =>
    simp only [hlb] at hstep
    exact Option.noConfusion hstep
  | some wb =>
    simp only [hlb] at hstep
    cases hwa : wb.active with
    | false => simp [hwa] at hstep
    | true =>
      simp only [hwa, reduceCtorEq, if_false] at hstep
      have hwbP : ∀ kk, wb.bucketId = some kk →
          kk < c.nextCounter ∧ (kk = b.counter ∨
            ∀ bb ∈ c.allBuckets, bb.counter = kk → ¬ bb.ns = "") := by
        rcases hcS with hsame | ⟨wbN, hwbN, hcons, hlbN⟩
        · have hlb2 : lookupBatch c bid0 = some wb := by
            unfold lookupBatch at hlb ⊢
            rw [← hsame]
            exact hlb
          obtain ⟨e1, he1, he1w⟩ := lookupBatch_mem c bid0 wb hlb2
          intro kk hkk
          obtain ⟨h1, h2⟩ := h.batchPtr e1 he1 kk (by rw [he1w]; exact hkk)
          exact ⟨h1, Or.inr h2⟩
        · rw [hlbN] at hlb
          injection hlb with hlb
          intro kk hkk
          rw [← hlb, hwbN] at hkk
          injection hkk with hkk
          rw [← hkk]
          exact ⟨h.bound b hb, Or.inl rfl⟩
      have hentries : ∀ e ∈ c1.batchStore, ∀ kk,
          (e : Nat × WriteBatch).2.bucketId = some kk →
          kk < c.nextCounter ∧ (kk = b1.counter ∨
            ∀ bb ∈ c.allBuckets, bb.counter = kk → ¬ bb.ns = "") := by
        intro e he kk hk
        rcases hcS with hsame | ⟨wbN, hwbN, hcons, hlbN⟩
        · obtain ⟨h1, h2⟩ := h.batchPtr e (by rw [← hsame]; exact he) kk hk
          exact ⟨h1, Or.inr h2⟩
        · rw [hcons] at he
          rcases List.mem_cons.1 he with he2 | he2
          · simp only [he2] at hk
            rw [hwbN] at hk
            injection hk with hk
            rw [← hk]
            refine ⟨h.bound b hb, Or.inl ?_⟩
            exact hbc.symm
          · obtain ⟨h1, h2⟩ := h.batchPtr e he2 kk hk
            exact ⟨h1, Or.inr h2⟩
      have hwb2P : ∀ kk, wb.bucketId = some kk →
          kk < c.nextCounter ∧ (kk = b1.counter ∨
            ∀ bb ∈ c.allBuckets, bb.counter = kk → ¬ bb.ns = "") := by
        intro kk hk
        obtain ⟨h1, h2⟩ := hwbP kk hk
        refine ⟨h1, ?_⟩
        rcases h2 with h2 | h2
        · refine Or.inl ?_
          rw [hbc]
          exact h2
        · exact Or.inr h2
      by_cases hfr : b1.ns = ""
      · rw [if_pos hfr] at hstep
        simp only [Option.some.injEq, Prod.mk.injEq] at hstep
        rw [← hstep.2]
        refine wf_insert_fresh _ c b _ h hb hbc hns ?_ hcA hcM hcN ?_
        · exact h.fresh b hb (by rw [← hbns]; exact hfr)
        · refine store_prop_setBatch c1 bid0 _ _ ?_ ?_
          · exact hentries
          · exact hwb2P
      · rw [if_neg hfr] at hstep
        simp only [Option.some.injEq, Prod.mk.injEq] at hstep
        rw [← hstep.2]
        refine wf_insert_nonfresh _ c b _ h hb hbc hfr hbm hcA hcM hcN ?_
        refine store_prop_setBatch c1 bid0 _ _ ?_ ?_
        · exact hentries
        · exact hwb2P

theorem insertRollover_wf (p : CatalogParams) (c : Catalog) (b : Bucket)
    (ns : String) (sm : List (String × BVal)) (time : Int)
    (h : WfCatalog c) (hb : b ∈ c.allBuckets) :
    ∀ k2 c2, insertRollover p c b ns sm time = some (k2, c2) → WfCatalog c2 := by
  intro k2 c2 hstep
  simp only [insertRollover] at hstep
  split at hstep
  · cases hrm : removeBucket c b.counter with
    | none =>
      simp only [hrm] at hstep
      exact Option.noConfusion hstep
    | some pr =>
      obtain ⟨removed, cr⟩ := pr
      cases removed with
      | false => simp [hrm] at hstep
      | true =>
        simp only [hrm] at hstep
        exact allocateBucket_wf p cr ns sm time
          (removeBucket_wf c b.counter h true cr hrm) k2 c2 hstep
  · exact allocateBucket_wf p _ ns sm time
      (wf_replaceBucket c b { b with full := true } h hb rfl rfl (Or.inl rfl))
      k2 c2 hstep

theorem insertOp_wf (p : CatalogParams) (c : Catalog) (ns timeField : String)
    (metaField : Option String) (lsid : Nat) (doc : List (String × BVal))
    (h : WfCatalog c) (hns : ¬ ns = "") :
    ∀ r c2, insertOp p c ns timeField metaField lsid doc = some (r, c2) →
      WfCatalog c2 := by
  intro r c2 hstep
  have h0 : WfCatalog (registerStats c ns) :=
    WfCatalog.transport _ _ h rfl rfl rfl rfl
  simp only [insertOp] at hstep
  split at hstep
  · simp only [Option.some.injEq, Prod.mk.injEq] at hstep
    rw [← hstep.2]
    exact h0
  · next time hdf =>
    split at hstep
    · exact Option.noConfusion hstep
    · next k c1 hak =>
      have h1 : WfCatalog c1 :=
        bucketAccessKey_wf p (registerStats c ns) ns _ time h0 k c1 hak
      split at hstep
      · exact Option.noConfusion hstep
      · next b hfb =>
        have hbmem := (findBucket_mem c1 k b hfb).1
        split at hstep
        · split at hstep
          · exact Option.noConfusion hstep
          · next k2 c2r hro =>
            have h2 : WfCatalog c2r :=
              insertRollover_wf p c1 b ns _ time h1 hbmem k2 c2r hro
            split at hstep
            · exact Option.noConfusion hstep
            · next b2 hfb2 =>
              split at hstep
              · exact Option.noConfusion hstep
              · next bid3 c3x hif =>
                simp only [Option.some.injEq, Prod.mk.injEq] at hstep
                rw [← hstep.2]
                exact insertFinish_wf c2r b2 ns _ _ lsid time doc _
                  h2 (findBucket_mem c2r k2 b2 hfb2).1 hns bid3 c3x hif
        · set F : Bool × FullnessStats × BucketFullView := isBucketFull
            ⟨p.bucketMaxCount, p.bucketMaxSize, p.bucketMaxSpanSeconds⟩
            ⟨0, 0, 0, 0⟩
            ⟨b.numMeasurements, b.size, b.oidTime, b.latestTime, b.hasBeenCommittedB⟩
            time (calculateBucketFieldsAndSizeChange b.fieldNames
              b.numMeasurements metaField doc).sizeToBeAdded with hF
          by_cases hrew : F.2.2.bucketTimeSec = b.oidTime
          · rw [if_neg (not_not_intro hrew)] at hstep
            split at hstep
            · exact Option.noConfusion hstep
            · next bid3 c3x hif =>
              simp only [Option.some.injEq, Prod.mk.injEq] at hstep
              rw [← hstep.2]
              exact insertFinish_wf c1 b ns _ _ lsid time doc _
                h1 hbmem hns bid3 c3x hif
          · rw [if_pos hrew] at hstep
            obtain ⟨hsw1, hsw2, _⟩ := setIdTimestampC_wf c1 b time h1 hbmem
            split at hstep
            · exact Option.noConfusion hstep
            · next bid3 c3x hif =>
              simp only [Option.some.injEq, Prod.mk.injEq] at hstep
              rw [← hstep.2]
              exact insertFinish_wf (setIdTimestampC c1 b time).1
                (setIdTimestampC c1 b time).2 ns _ _ lsid time doc _
                hsw1 hsw2 hns bid3 c3x hif

theorem prepareCommitOp_wf (c : Catalog) (bid : Nat) (h : WfCatalog c) :
    ∀ r, prepareCommitOp c bid = some r →
      ∀ c2, (r = .ok c2 ∨ r = .fail c2) → WfCatalog c2 := by
  intro r hstep c2 hr
  cases hlb : lookupBatch c bid with
  | none => simp [prepareCommitOp, hlb] at hstep
  | some wb =>
    simp only [prepareCommitOp, hlb] at hstep
    split at hstep
    · injection hstep with hstep
      rcases hr with hr | hr
      · rw [← hstep] at hr
        exact PrepareResult.noConfusion hr
      · rw [← hstep] at hr
        injection hr with hr
        rw [← hr]
        exact h
    · cases hbk : wb.bucketId with
      | none =>
        simp only [hbk] at hstep
        exact Option.noConfusion hstep
      | some k =>
        simp only [hbk] at hstep
        cases hfb : findBucket c k with
        | none =>
          simp only [hfb] at hstep
          split at hstep
          · cases habs : abortStoredBatch c bid with
            | none =>
              simp only [habs] at hstep
              exact Option.noConfusion hstep
            | some cA =>
              simp only [habs, Option.some.injEq] at hstep
              rcases hr with hr | hr
              · rw [← hstep] at hr
                exact PrepareResult.noConfusion hr
              · rw [← hstep] at hr
                injection hr with hr
                rw [← hr]
                exact abortStoredBatch_wf c bid h cA habs
          · exact Option.noConfusion hstep
        | some b =>
          simp only [hfb] at hstep
          have hbmem := findBucket_mem c k b hfb
          cases hst : lookupState c.bucketStates b.oid with
          | none =>
            simp only [hst] at hstep
            exact Option.noConfusion hstep
          | some st =>
            simp only [hst] at hstep
            split at hstep
            · split at hstep
              · cases hab : abortBucket c k (some bid) with
                | none =>
                  simp only [hab] at hstep
                  exact Option.noConfusion hstep
                | some cA =>
                  simp only [hab, Option.some.injEq] at hstep
                  rcases hr with hr | hr
                  · rw [← hstep] at hr
                    exact PrepareResult.noConfusion hr
                  · rw [← hstep] at hr
                    injection hr with hr
                    rw [← hr]
                    exact abortBucket_wf c k (some bid) h cA hab
              · exact Option.noConfusion hstep
            · cases hpbb : b.preparedBatch with
              | some pid =>
                simp only [hpbb, Option.some.injEq] at hstep
                rcases hr with hr | hr <;>
                  (rw [← hstep] at hr; exact PrepareResult.noConfusion hr)
              | none =>
                simp only [hpbb] at hstep
                cases hsb : setBucketState c.bucketStates b.oid .kPrepared with
                | none =>
                  simp only [hsb] at hstep
                  exact Option.noConfusion hstep
                | some pr =>
                  obtain ⟨res, states2⟩ := pr
                  simp only [hsb] at hstep
                  split at hstep
                  · exact Option.noConfusion hstep
                  · cases hpob : prepareBatchOnBucket
                        { c with bucketStates := states2 } b bid wb with
                    | none =>
                      simp only [hpob] at hstep
                      exact Option.noConfusion hstep
                    | some cP =>
                      simp only [hpob, Option.some.injEq] at hstep
                      rcases hr with hr | hr
                      · rw [← hstep] at hr
                        injection hr with hr
                        rw [← hr]
                        have hCW : WfCatalog { c with bucketStates := states2 } :=
                          WfCatalog.transport _ _ h rfl rfl rfl rfl
                        obtain ⟨e1, he1, he1w⟩ := lookupBatch_mem c bid wb hlb
                        have hptr := h.batchPtr e1 he1 k (by rw [he1w]; exact hbk)
                        have hnsb : ¬ b.ns = "" := hptr.2 b hbmem.1 hbmem.2
                        refine prepareBatchOnBucket_wf _ b bid wb hCW hbmem.1 hnsb
                          ?_ cP hpob
                        intro kk hkk
                        rw [hbk] at hkk
                        injection hkk with hkk
                        rw [← hkk]
                        exact hptr
                      · rw [← hstep] at hr
                        exact PrepareResult.noConfusion hr

theorem wf_finish_remove (cR : Catalog) (b3 : Bucket) (k : Nat) (h : WfCatalog cR)
    (hb3 : b3 ∈ cR.allBuckets) (hk : b3.counter = k) :
    WfCatalog { cR with
      memoryUsage := cR.memoryUsage - b3.memoryUsage,
      idleBuckets := cR.idleBuckets.filter (fun x => ¬ x = k),
      bucketStates := eraseState cR.bucketStates b3.oid,
      allBuckets := cR.allBuckets.filter (fun x => ¬ x.counter = k) } := by
  refine ⟨?_, ?_, ?_, ?_, ?_⟩
  · show cR.memoryUsage - b3.memoryUsage =
      bucketsMemSum (cR.allBuckets.filter (fun x => ¬ x.counter = k))
    have h1 := bucketsMemSum_filter_out cR.allBuckets b3 k h.nodup hb3 hk
    have h2 := h.mem
    omega
  · show ((cR.allBuckets.filter (fun x => ¬ x.counter = k)).map
      (fun x => x.counter)).Nodup
    exact List.Nodup.sublist
      (List.Sublist.map _ (List.filter_sublist _)) h.nodup
  · intro x hx
    exact h.bound x (List.mem_of_mem_filter hx)
  · intro x hx
    exact h.fresh x (List.mem_of_mem_filter hx)
  · intro e he kk hbk
    obtain ⟨h1, h2⟩ := h.batchPtr e he kk hbk
    exact ⟨h1, fun x hx hxc => h2 x (List.mem_of_mem_filter hx) hxc⟩

theorem finishOp_wf (c : Catalog) (bid : Nat) (info : CommitInfo) (h : WfCatalog c) :
    ∀ c2, finishOp c bid info = some c2 → WfCatalog c2 := by
  intro c2 hstep
  cases hlb : lookupBatch c bid with
  | none => simp [finishOp, hlb] at hstep
  | some wb =>
    simp only [finishOp, hlb] at hstep
    split at hstep
    · exact Option.noConfusion hstep
    · cases hbk : wb.bucketId with
      | none =>
        simp only [hbk] at hstep
        exact Option.noConfusion hstep
      | some k =>
        simp only [hbk] at hstep
        have hfinPtr : ∀ wb2, wb.finishW info = some wb2 → wb2.bucketId = none := by
          intro wb2 hfw
          unfold WriteBatch.finishW at hfw
          split at hfw
          · simp only [Option.some.injEq] at hfw
            rw [← hfw]
          · exact Option.noConfusion hfw
        cases hfb : findBucket c k with
        | none =>
          simp only [hfb] at hstep
          cases hfw : wb.finishW info with
          | none =>
            simp only [hfw] at hstep
            exact Option.noConfusion hstep
          | some wb2 =>
            simp only [hfw, Option.some.injEq] at hstep
            rw [← hstep]
            refine wf_setBatch c bid wb2 h ?_
            intro kk hkk
            rw [hfinPtr wb2 hfw] at hkk
            exact Option.noConfusion hkk
        | some b =>
          simp only [hfb] at hstep
          have hbmem := findBucket_mem c k b hfb
          cases hst : lookupState c.bucketStates b.oid with
          | none =>
            simp only [hst] at hstep
            exact Option.noConfusion hstep
          | some st =>
            simp only [hst] at hstep
            by_cases hcl : st = BucketState.kCleared
            · rw [if_pos hcl] at hstep
              cases hfw : wb.finishW info with
              | none =>
                simp only [hfw] at hstep
                exact Option.noConfusion hstep
              | some wb2 =>
                simp only [hfw, Option.some.injEq] at hstep
                rw [← hstep]
                refine wf_setBatch c bid wb2 h ?_
                intro kk hkk
                rw [hfinPtr wb2 hfw] at hkk
                exact Option.noConfusion hkk
            · rw [if_neg hcl] at hstep
              cases hfw : wb.finishW info with
              | none =>
                simp only [hfw] at hstep
                exact Option.noConfusion hstep
              | some wb2 =>
                simp only [hfw] at hstep
                have hc1 : WfCatalog (setBatch c bid wb2) :=
                  wf_setBatch c bid wb2 h (fun kk hkk => by
                    rw [hfinPtr wb2 hfw] at hkk
                    exact Option.noConfusion hkk)
                cases hsb : setBucketState (setBatch c bid wb2).bucketStates
                    b.oid .kNormal with
                | none =>
                  simp only [hsb] at hstep
                  exact Option.noConfusion hstep
                | some pr =>
                  obtain ⟨res, states2⟩ := pr
                  simp only [hsb] at hstep
                  split at hstep
                  · exact Option.noConfusion hstep
                  · by_cases hinfo : info.result = StorageResult.ok
                    · rw [if_pos hinfo] at hstep
                      have hwfR : WfCatalog (replaceBucket
                          { setBatch c bid wb2 with bucketStates := states2 }
                          { b with
                            preparedBatch := none,
                            numCommittedMeasurements :=
                              b.numCommittedMeasurements + wb.measurements.length }) :=
                        wf_replaceBucket _ b _
                          (WfCatalog.transport _ _ hc1 rfl rfl rfl rfl)
                          hbmem.1 rfl rfl (Or.inl rfl)
                      have hb3mem := replaceBucketL_self_mem
                        (Catalog.allBuckets { setBatch c bid wb2 with
                          bucketStates := states2 })
                        b { b with
                          preparedBatch := none,
                          numCommittedMeasurements :=
                            b.numCommittedMeasurements + wb.measurements.length }
                        hbmem.1 rfl
                      split at hstep
                      · split at hstep
                        · simp only [Option.some.injEq] at hstep
                          rw [← hstep]
                          exact wf_finish_remove _ _ k hwfR hb3mem hbmem.2
                        · simp only [Option.some.injEq] at hstep
                          rw [← hstep]
                          exact WfCatalog.transport _ _ hwfR rfl rfl rfl rfl
                      · simp only [Option.some.injEq] at hstep
                        rw [← hstep]
                        exact hwfR
                    · rw [if_neg hinfo] at hstep
                      have hwfR : WfCatalog (replaceBucket
                          { setBatch c bid wb2 with bucketStates := states2 }
                          { b with preparedBatch := none }) :=
                        wf_replaceBucket _ b _
                          (WfCatalog.transport _ _ hc1 rfl rfl rfl rfl)
                          hbmem.1 rfl rfl (Or.inl rfl)
                      have hb3mem := replaceBucketL_self_mem
                        (Catalog.allBuckets { setBatch c bid wb2 with
                          bucketStates := states2 })
                        b { b with preparedBatch := none } hbmem.1 rfl
                      split at hstep
                      · split at hstep
                        · simp only [Option.some.injEq] at hstep
                          rw [← hstep]
                          exact wf_finish_remove _ _ k hwfR hb3mem hbmem.2
                        · simp only [Option.some.injEq] at hstep
                          rw [← hstep]
                          exact WfCatalog.transport _ _ hwfR rfl rfl rfl rfl
                      · simp only [Option.some.injEq] at hstep
                        rw [← hstep]
                        exact hwfR

theorem abortOp_wf (c : Catalog) (bid : Nat) (h : WfCatalog c) :
    ∀ c2, abortOp c bid = some c2 → WfCatalog c2 := by
  intro c2 hstep
  cases hlb : lookupBatch c bid with
  | none => simp [abortOp, hlb] at hstep
  | some wb =>
    simp only [abortOp, hlb] at hstep
    split at hstep
    · exact Option.noConfusion hstep
    · split at hstep
      · split at hstep
        · injection hstep with hstep
          rw [← hstep]
          exact h
        · exact Option.noConfusion hstep
      · cases hbk : wb.bucketId with
        | none =>
          simp only [hbk] at hstep
          exact Option.noConfusion hstep
        | some k =>
          simp only [hbk] at hstep
          cases hfb : findBucket c k with
          | none =>
            simp only [hfb] at hstep
            cases habs : abortStoredBatch c bid with
            | none =>
              simp only [habs] at hstep
              exact Option.noConfusion hstep
            | some cA =>
              simp only [habs, Option.some.injEq] at hstep
              rw [← hstep]
              exact abortStoredBatch_wf c bid h cA habs
          | some b =>
            simp only [hfb] at hstep
            exact abortBucket_wf c k (some bid) h c2 hstep

theorem clearOp_wf (c : Catalog) (oid : OID) (h : WfCatalog c) :
    ∀ thr c2, clearOp c oid = some (thr, c2) → WfCatalog c2 := by
  intro thr c2 hstep
  cases hcb : clearBucketState c.bucketStates oid with
  | none => simp [clearOp, hcb] at hstep
  | some pr =>
    obtain ⟨states2, threw⟩ := pr
    simp only [clearOp, hcb, Option.some.injEq, Prod.mk.injEq] at hstep
    rw [← hstep.2]
    exact WfCatalog.transport _ _ h rfl rfl rfl rfl

/-- C8.  The aggregate `_memoryUsage` counter is an invariant of the public
operations: on a well-formed catalog (aggregate equal to the live-set sum,
distinct live counters below the allocation counter, zero memory on
never-initialised buckets, and batch pointers targeting initialised buckets),
every returning `insert` (with a nonempty namespace), `prepareCommit`,
`finish`, `abort` or `clear` yields a catalog whose aggregate again equals
the sum of `_memoryUsage` over the live set, each mutation and removal having
adjusted the counter by exactly its delta. -/
theorem catalog_memory_invariant (p : CatalogParams) (c : Catalog) (op : CatalogOp)
    (h : WfCatalog c) (hv : opValid op) :
    ∀ c2, stepCatalog p c op = some c2 →
      c2.memoryUsage = bucketsMemSum c2.allBuckets ∧ WfCatalog c2 := by
  intro c2 hstep
  have hwf : WfCatalog c2 := by
    cases op with
    | insert ns tf mf lsid doc =>
      simp only [stepCatalog, Option.map_eq_some'] at hstep
      obtain ⟨a, hio, hc2⟩ := hstep
      obtain ⟨r, c2x⟩ := a
      have hx : c2x = c2 := hc2
      rw [← hx]
      exact insertOp_wf p c ns tf mf lsid doc h hv r c2x hio
    | prepareCommit bid =>
      simp only [stepCatalog] at hstep
      cases hpc : prepareCommitOp c bid with
      | none =>
        simp only [hpc] at hstep
        exact Option.noConfusion hstep
      | some r =>
        simp only [hpc] at hstep
        cases r with
        | ok cx =>
          injection hstep with hstep
          rw [← hstep]
          exact prepareCommitOp_wf c bid h _ hpc cx (Or.inl rfl)
        | fail cx =>
          injection hstep with hstep
          rw [← hstep]
          exact prepareCommitOp_wf c bid h _ hpc cx (Or.inr rfl)
        | blocked =>
          injection hstep with hstep
          rw [← hstep]
          exact h
    | finish bid info =>
      simp only [stepCatalog] at hstep
      exact finishOp_wf c bid info h c2 hstep
    | abort bid =>
      simp only [stepCatalog] at hstep
      exact abortOp_wf c bid h c2 hstep
    | clear oid =>
      simp only [stepCatalog, Option.map_eq_some'] at hstep
      obtain ⟨a, hio, hc2⟩ := hstep
      obtain ⟨thr, c2x⟩ := a
      have hx : c2x = c2 := hc2
      rw [← hx]
      exact clearOp_wf c oid h thr c2x hio
  exact ⟨hwf.mem, hwf⟩

/-- Witness for C8: `clear` of a missing OID on the empty catalog returns with
the aggregate still equal to the (empty) live-set sum. -/
theorem catalog_memory_invariant_witness :
    (⟨[], [], [], [], [], 0, [], 0, 0⟩ : Catalog).memoryUsage =
      bucketsMemSum (⟨[], [], [], [], [], 0, [], 0, 0⟩ : Catalog).allBuckets ∧
    WfCatalog ⟨[], [], [], [], [], 0, [], 0, 0⟩ :=
  catalog_memory_invariant ⟨1, 1, 1, 1⟩ ⟨[], [], [], [], [], 0, [], 0, 0⟩
    (.clear (0, 0)) ⟨rfl, by simp, by simp, by simp, by simp⟩ trivial
    ⟨[], [], [], [], [], 0, [], 0, 0⟩ rfl

end BucketCatalog
